import Mathlib

/-!
# Verification of the BVH spatial index (`src/bvh.rs`)

Shallow embedding of the linear-BVH spatial index of this repository and
proofs about it.  Conventions used throughout:

* Rust `f64` values are modelled exactly over `ℚ`; every decimal literal
  denotes its exact rational value.  All `f64` operations that the source
  performs on the values reached by the claims (`+`, `-`, `*`, `/`, `min`,
  `max`, `abs`, comparisons, clamping, truncating casts) are modelled by the
  corresponding exact rational operations.
* Rust `u32` arithmetic is modelled on `ℕ` with an explicit `% 2 ^ 32`
  wherever the source wraps (`wrapping_mul`, overflowing `<<`); `i32`
  sentinel fields are modelled on `ℤ`.
* Stateful code is modelled by explicit state passing; loops whose
  termination is a property of the data (not of the control structure) are
  given fuel and return `Option`, `none` standing for divergence/panic.
-/

namespace SessionRust

/-- `Point` from `src/point.rs` (only the three coordinates are relevant to
the BVH code). -/
structure Point where
  x : ℚ
  y : ℚ
  z : ℚ
deriving Repr, DecidableEq

/-- `Vector` from `src/vector.rs` (only the three coordinates are relevant to
the BVH code). -/
structure Vector where
  x : ℚ
  y : ℚ
  z : ℚ
deriving Repr, DecidableEq

/-- `BoundingBox` from `src/boundingbox.rs`.  The BVH code reads only
`center` and `half_size`; the axis and metadata fields never influence it,
so they are omitted from the embedding. -/
structure BoundingBox where
  center : Point
  half_size : Vector
deriving Repr, DecidableEq

/-- `expand_bits` from `src/bvh.rs` (lines 848-855).  `wrapping_mul` on `u32`
is `(· * ·) % 2 ^ 32`. -/
def expand_bits (v : ℕ) : ℕ :=
  let v1 := ((v * 0x00010001) % 2 ^ 32) &&& 0xFF0000FF
  let v2 := ((v1 * 0x00000101) % 2 ^ 32) &&& 0x0F00F00F
  let v3 := ((v2 * 0x00000011) % 2 ^ 32) &&& 0xC30C30C3
  ((v3 * 0x00000005) % 2 ^ 32) &&& 0x49249249

/-- `calculate_morton_code` from `src/bvh.rs` (lines 857-879).  The
`as u32` cast of the clamped-and-scaled coordinate truncates towards zero
(`Int.toNat ∘ Int.floor` on the nonnegative values produced here); `u32`
left shifts discard bits above bit 31, hence the `% 2 ^ 32`. -/
def calculate_morton_code (x y z world_size : ℚ) : ℕ :=
  let nx := (x + world_size / 2) / world_size
  let ny := (y + world_size / 2) / world_size
  let nz := (z + world_size / 2) / world_size
  let nx := min (max nx 0) 1
  let ny := min (max ny 0) 1
  let nz := min (max nz 0) 1
  let ix := min (Int.toNat ⌊nx * 1023⌋) 1023
  let iy := min (Int.toNat ⌊ny * 1023⌋) 1023
  let iz := min (Int.toNat ⌊nz * 1023⌋) 1023
  let xx := expand_bits ix
  let yy := expand_bits iy
  let zz := expand_bits iz
  xx ||| ((yy <<< 1) % 2 ^ 32) ||| ((zz <<< 2) % 2 ^ 32)

/-- `BVH::compute_world_size` from `src/bvh.rs` (lines 152-175). -/
def compute_world_size (bounding_boxes : List BoundingBox) : ℚ :=
  if bounding_boxes.isEmpty then 1000
  else
    let max_extent := bounding_boxes.foldl (fun m bbox =>
      let x_extent := max |bbox.center.x + bbox.half_size.x| |bbox.center.x - bbox.half_size.x|
      let y_extent := max |bbox.center.y + bbox.half_size.y| |bbox.center.y - bbox.half_size.y|
      let z_extent := max |bbox.center.z + bbox.half_size.z| |bbox.center.z - bbox.half_size.z|
      max (max (max m x_extent) y_extent) z_extent) 0
    max (max_extent * 2.2) 10

/-- `BvhAABB` from `src/bvh.rs` (lines 37-45): lightweight center/half-extent
box used inside the arena. -/
structure BvhAABB where
  cx : ℚ
  cy : ℚ
  cz : ℚ
  hx : ℚ
  hy : ℚ
  hz : ℚ
deriving Repr, DecidableEq

/-- `BvhAABB::from_bbox` (lines 48-58). -/
def BvhAABB.from_bbox (b : BoundingBox) : BvhAABB :=
  { cx := b.center.x, cy := b.center.y, cz := b.center.z
    hx := b.half_size.x, hy := b.half_size.y, hz := b.half_size.z }

/-- `BvhAABB::merge` (lines 60-76). -/
def BvhAABB.merge (a b : BvhAABB) : BvhAABB :=
  let min_x := min (a.cx - a.hx) (b.cx - b.hx)
  let min_y := min (a.cy - a.hy) (b.cy - b.hy)
  let min_z := min (a.cz - a.hz) (b.cz - b.hz)
  let max_x := max (a.cx + a.hx) (b.cx + b.hx)
  let max_y := max (a.cy + a.hy) (b.cy + b.hy)
  let max_z := max (a.cz + a.hz) (b.cz + b.hz)
  { cx := (min_x + max_x) * 0.5, cy := (min_y + max_y) * 0.5, cz := (min_z + max_z) * 0.5
    hx := (max_x - min_x) * 0.5, hy := (max_y - min_y) * 0.5, hz := (max_z - min_z) * 0.5 }

/-- `BvhAABB::intersects` (lines 78-100). -/
def BvhAABB.intersects (self other : BvhAABB) : Bool :=
  decide (self.cx - self.hx ≤ other.cx + other.hx ∧
    self.cx + self.hx ≥ other.cx - other.hx ∧
    self.cy - self.hy ≤ other.cy + other.hy ∧
    self.cy + self.hy ≥ other.cy - other.hy ∧
    self.cz - self.hz ≤ other.cz + other.hz ∧
    self.cz + self.hz ≥ other.cz - other.hz)

/-! ## Claim C7: the world-size formula -/

/-- The per-box maximum absolute corner coordinate, as the spec phrases it
("for each box, compute the maximum absolute coordinate of either corner
along each axis").  This is the specification-side quantity `M` of claim C7,
to be compared with the running fold inside `compute_world_size`. -/
def boxMaxAbsCoordinate (bbox : BoundingBox) : ℚ :=
  max (max (max |bbox.center.x + bbox.half_size.x| |bbox.center.x - bbox.half_size.x|)
      (max |bbox.center.y + bbox.half_size.y| |bbox.center.y - bbox.half_size.y|))
    (max |bbox.center.z + bbox.half_size.z| |bbox.center.z - bbox.half_size.z|)

/-- Specification-side `M` of claim C7: the maximum of `boxMaxAbsCoordinate`
over all boxes (0 for the empty list; all entries are nonnegative). -/
def maxAbsCorner (bbs : List BoundingBox) : ℚ :=
  (bbs.map boxMaxAbsCoordinate).foldr max 0

theorem foldr_max_nonneg (l : List ℚ) : 0 ≤ l.foldr max 0 := by
  induction l with
  | nil => exact le_refl 0
  | cons x l ih => exact le_trans ih (le_max_right x _)

theorem cws_foldl_eq (l : List BoundingBox) :
    ∀ a : ℚ, 0 ≤ a →
      l.foldl (fun m bbox =>
        let x_extent := max |bbox.center.x + bbox.half_size.x| |bbox.center.x - bbox.half_size.x|
        let y_extent := max |bbox.center.y + bbox.half_size.y| |bbox.center.y - bbox.half_size.y|
        let z_extent := max |bbox.center.z + bbox.half_size.z| |bbox.center.z - bbox.half_size.z|
        max (max (max m x_extent) y_extent) z_extent) a
        = max a ((l.map boxMaxAbsCoordinate).foldr max 0) := by
  induction l with
  | nil => intro a ha; simp [max_eq_left ha]
  | cons b l ih =>
    intro a ha
    simp only [List.foldl_cons, List.map_cons, List.foldr_cons]
    rw [ih _ (le_trans ha (by simp [le_max_iff, boxMaxAbsCoordinate]))]
    simp only [boxMaxAbsCoordinate, max_assoc]

/-- C7: for every list of boxes, `compute_world_size` returns
`max (2.2 * M) 10` where `M` is the maximum absolute corner coordinate over
all boxes and axes, and `1000` for the empty list. -/
theorem compute_world_size_formula_C7 (bbs : List BoundingBox) :
    compute_world_size bbs =
      if bbs.isEmpty then 1000 else max (2.2 * maxAbsCorner bbs) 10 := by
  unfold compute_world_size
  by_cases h : bbs.isEmpty
  · simp [h]
  · simp only [h, if_false]
    rw [cws_foldl_eq bbs 0 (le_refl 0)]
    rw [max_eq_right (foldr_max_nonneg _), mul_comm]
    rfl

/-! ## Claims C6 and C10: Morton code facts -/

/-- Bounded check that `expand_bits` stays below `2 ^ 28` on 10-bit inputs
(reflection helper, evaluated by the kernel). -/
def checkExpand : ℕ → Bool
  | 0 => true
  | v + 1 => decide (expand_bits v < 2 ^ 28) && checkExpand v

theorem checkExpand_sound :
    ∀ n, checkExpand n = true → ∀ v, v < n → expand_bits v < 2 ^ 28 := by
  intro n
  induction n with
  | zero => intro _ v hv; omega
  | succ m ih =>
    intro h v hv
    rw [checkExpand, Bool.and_eq_true] at h
    rcases Nat.lt_succ_iff_lt_or_eq.mp hv with h' | rfl
    · exact ih h.2 v h'
    · exact of_decide_eq_true h.1

set_option maxRecDepth 20000 in
theorem checkExpand_1024 : checkExpand 1024 = true := rfl

theorem expand_bits_lt (v : ℕ) (hv : v ≤ 1023) : expand_bits v < 2 ^ 28 :=
  checkExpand_sound 1024 checkExpand_1024 v (by omega)

theorem interleave_lt (a b c : ℕ) (ha : a ≤ 1023) (hb : b ≤ 1023) (hc : c ≤ 1023) :
    expand_bits a ||| (expand_bits b <<< 1) % 2 ^ 32 ||| (expand_bits c <<< 2) % 2 ^ 32
      < 2 ^ 30 := by
  have hx : expand_bits a < 2 ^ 30 :=
    lt_trans (expand_bits_lt a ha) (by norm_num)
  have hy : (expand_bits b <<< 1) % 2 ^ 32 < 2 ^ 30 := by
    have := expand_bits_lt b hb
    have h1 : expand_bits b <<< 1 = expand_bits b * 2 ^ 1 := Nat.shiftLeft_eq _ _
    have h2 : expand_bits b <<< 1 < 2 ^ 30 := by rw [h1]; nlinarith [this]
    exact lt_of_le_of_lt (Nat.mod_le _ _) h2
  have hz : (expand_bits c <<< 2) % 2 ^ 32 < 2 ^ 30 := by
    have := expand_bits_lt c hc
    have h1 : expand_bits c <<< 2 = expand_bits c * 2 ^ 2 := Nat.shiftLeft_eq _ _
    have h2 : expand_bits c <<< 2 < 2 ^ 30 := by rw [h1]; nlinarith [this]
    exact lt_of_le_of_lt (Nat.mod_le _ _) h2
  exact Nat.or_lt_two_pow (Nat.or_lt_two_pow hx hy) hz

/-- C10: for every input whatsoever (over the exact rational model of `f64`),
`calculate_morton_code` returns a value of at most 30 significant bits,
i.e. at most `0x3FFFFFFF`, because each of the three 10-bit fields is
clamped to `[0, 1023]` and `expand_bits` masks its result to `0x49249249`
before interleaving. -/
theorem morton_code_at_most_30_bits_C10 :
    ∀ x y z world_size : ℚ, calculate_morton_code x y z world_size ≤ 0x3FFFFFFF := by
  intro x y z ws
  simp only [calculate_morton_code]
  have h := interleave_lt _ _ _
    (min_le_right (Int.toNat ⌊min (max ((x + ws / 2) / ws) 0) 1 * 1023⌋) 1023)
    (min_le_right (Int.toNat ⌊min (max ((y + ws / 2) / ws) 0) 1 * 1023⌋) 1023)
    (min_le_right (Int.toNat ⌊min (max ((z + ws / 2) / ws) 0) 1 * 1023⌋) 1023)
  have h2 : (0x3FFFFFFF : ℕ) = 2 ^ 30 - 1 := by norm_num
  omega

/-- Shared bound: every Morton code is below `2 ^ 30`. -/
theorem calculate_morton_code_lt (x y z world_size : ℚ) :
    calculate_morton_code x y z world_size < 2 ^ 30 := by
  simp only [calculate_morton_code]
  exact interleave_lt _ _ _
    (min_le_right (Int.toNat ⌊min (max ((x + world_size / 2) / world_size) 0) 1 * 1023⌋) 1023)
    (min_le_right (Int.toNat ⌊min (max ((y + world_size / 2) / world_size) 0) 1 * 1023⌋) 1023)
    (min_le_right (Int.toNat ⌊min (max ((z + world_size / 2) / world_size) 0) 1 * 1023⌋) 1023)

/-- C6: the Morton code generator satisfies the three concrete determinism
equations: `morton(0,0,0,100) < 2^30`, `morton(-50,-50,-50,100) = 0` and
`morton(50,50,50,100) = 0x3FFFFFFF`. -/
theorem morton_code_determinism_C6 :
    calculate_morton_code 0 0 0 100 < 2 ^ 30 ∧
    calculate_morton_code (-50) (-50) (-50) 100 = 0 ∧
    calculate_morton_code 50 50 50 100 = 0x3FFFFFFF := by
  refine ⟨?_, ?_, ?_⟩
  · have h : calculate_morton_code 0 0 0 100 = 134217727 := by
      norm_num [calculate_morton_code, expand_bits, min_def, max_def]
      rfl
    rw [h]; norm_num
  · norm_num [calculate_morton_code, expand_bits, min_def, max_def]
  · norm_num [calculate_morton_code, expand_bits, min_def, max_def]
    rfl

/-! ## Claim C8: the radix sort block of `BVH::build` -/

/-- `ObjectInfo` from `src/bvh.rs` (lines 126-130). -/
structure ObjectInfo where
  id : ℕ
  morton_code : ℕ
deriving Repr, DecidableEq, Inhabited

/-- The 10-bit digit `(e.morton_code >> shift) & (RADIX - 1)` examined by one
radix-sort pass. -/
def radixDigit (shift : ℕ) (e : ObjectInfo) : ℕ :=
  (e.morton_code >>> shift) &&& 1023

/-- Histogram loop of one radix pass (`count[b] += 1` per element); the
1024-entry `count` array is modelled as a function. -/
def radixCount (shift : ℕ) (objects : List ObjectInfo) : ℕ → ℕ :=
  objects.foldl
    (fun cnt e => fun b => if b = radixDigit shift e then cnt b + 1 else cnt b)
    (fun _ => 0)

/-- Prefix-sum loop of one radix pass (`old = c[b]; c[b] = sum; sum += old`),
turning the histogram into exclusive offsets; the second component is the
running `sum`. -/
def radixOffsets (cnt : ℕ → ℕ) : (ℕ → ℕ) × ℕ :=
  (List.range 1024).foldl
    (fun st b => ((fun b2 => if b2 = b then st.2 else st.1 b2), st.2 + st.1 b))
    (cnt, 0)

/-- One step of the scatter loop (`tmp[count[b]] = e; count[b] += 1`). -/
def scatterStep (shift : ℕ) (st : (ℕ → ℕ) × (ℕ → ObjectInfo)) (e : ObjectInfo) :
    (ℕ → ℕ) × (ℕ → ObjectInfo) :=
  let b := radixDigit shift e
  ((fun b2 => if b2 = b then st.1 b + 1 else st.1 b2),
   fun p => if p = st.1 b then e else st.2 p)

/-- Scatter loop of one radix pass over the whole object list. -/
def radixScatter (shift : ℕ) (objects : List ObjectInfo) (cnt : ℕ → ℕ)
    (tmp : ℕ → ObjectInfo) : (ℕ → ℕ) × (ℕ → ObjectInfo) :=
  objects.foldl (scatterStep shift) (cnt, tmp)

/-- One radix pass (the body of `for pass in 0..PASSES`, lines 237-259).
The scratch buffer starts filled with clones of `objects[0]` and the final
`mem::swap` makes the scattered buffer the new object list, read off by
index. -/
def radixPass (shift : ℕ) (objects : List ObjectInfo) : List ObjectInfo :=
  let cnt := radixCount shift objects
  let off := (radixOffsets cnt).1
  let tmp := (radixScatter shift objects off (fun _ => objects.headD default)).2
  (List.range objects.length).map tmp

/-- The whole three-pass radix sort block of `BVH::build` (lines 232-260);
the `pass`-th pass uses `shift = pass * 10`. -/
def radixSort (objects : List ObjectInfo) : List ObjectInfo :=
  radixPass 20 (radixPass 10 (radixPass 0 objects))

/-- The bucket of elements with a given digit, in list order. -/
def bucket (shift : ℕ) (L : List ObjectInfo) (b : ℕ) : List ObjectInfo :=
  L.filter (fun e => radixDigit shift e == b)

/-- Mathematical exclusive prefix sums of the bucket sizes. -/
def bucketOff (shift : ℕ) (L : List ObjectInfo) (b : ℕ) : ℕ :=
  ∑ i ∈ Finset.range b, (bucket shift L i).length

theorem radixDigit_lt (shift : ℕ) (e : ObjectInfo) : radixDigit shift e < 1024 :=
  lt_of_le_of_lt Nat.and_le_right (by norm_num)

theorem radixCount_go (shift : ℕ) (L : List ObjectInfo) :
    ∀ (c0 : ℕ → ℕ) (b : ℕ),
      L.foldl (fun cnt e => fun b => if b = radixDigit shift e then cnt b + 1 else cnt b) c0 b
        = c0 b + (bucket shift L b).length := by
  induction L with
  | nil => intro c0 b; simp [bucket]
  | cons e L ih =>
    intro c0 b
    simp only [List.foldl_cons, bucket, List.filter_cons]
    rw [ih]
    by_cases h : radixDigit shift e = b
    · simp [bucket, h, Nat.add_comm, Nat.add_assoc, Nat.add_left_comm]
    · have h' : ¬ b = radixDigit shift e := fun hh => h hh.symm
      simp [bucket, h, h']

theorem radixCount_eq (shift : ℕ) (L : List ObjectInfo) (b : ℕ) :
    radixCount shift L b = (bucket shift L b).length := by
  have := radixCount_go shift L (fun _ => 0) b
  simpa [radixCount] using this

theorem radixOffsets_go (cnt : ℕ → ℕ) :
    ∀ m,
      ((List.range m).foldl
        (fun (st : (ℕ → ℕ) × ℕ) b => ((fun b2 => if b2 = b then st.2 else st.1 b2), st.2 + st.1 b))
        (cnt, 0)).2 = ∑ i ∈ Finset.range m, cnt i ∧
      ∀ b, ((List.range m).foldl
        (fun (st : (ℕ → ℕ) × ℕ) b => ((fun b2 => if b2 = b then st.2 else st.1 b2), st.2 + st.1 b))
        (cnt, 0)).1 b
          = if b < m then ∑ i ∈ Finset.range b, cnt i else cnt b := by
  intro m
  induction m with
  | zero => simp
  | succ m ih =>
    rw [List.range_succ, List.foldl_append]
    obtain ⟨ih2, ih1⟩ := ih
    constructor
    · simp only [List.foldl_cons, List.foldl_nil]
      rw [ih2, ih1 m]
      simp [Finset.sum_range_succ]
    · intro b
      simp only [List.foldl_cons, List.foldl_nil]
      by_cases hb : b = m
      · subst hb
        simp [ih2, Nat.lt_succ_self]
      · simp only [hb, if_false]
        rw [ih1 b]
        by_cases hlt : b < m
        · simp [hlt, Nat.lt_succ_of_lt hlt]
        · have : ¬ b < m + 1 := by omega
          simp [hlt, this]

theorem radixOffsets_fst (shift : ℕ) (L : List ObjectInfo) (b : ℕ) (hb : b < 1024) :
    (radixOffsets (radixCount shift L)).1 b = bucketOff shift L b := by
  have h := (radixOffsets_go (radixCount shift L) 1024).2 b
  rw [radixOffsets, h, if_pos hb, bucketOff]
  exact Finset.sum_congr rfl fun i _ => radixCount_eq shift L i

theorem bucketOff_succ (shift : ℕ) (L : List ObjectInfo) (b : ℕ) :
    bucketOff shift L (b + 1) = bucketOff shift L b + (bucket shift L b).length := by
  simp [bucketOff, Finset.sum_range_succ]

theorem bucketOff_mono (shift : ℕ) (L : List ObjectInfo) {b b' : ℕ} (h : b ≤ b') :
    bucketOff shift L b ≤ bucketOff shift L b' :=
  Finset.sum_le_sum_of_subset (Finset.range_subset.mpr h)

theorem bucket_append (shift : ℕ) (P Q : List ObjectInfo) (b : ℕ) :
    bucket shift (P ++ Q) b = bucket shift P b ++ bucket shift Q b := by
  simp [bucket, List.filter_append]

/-- Invariant of the scatter loop after processing the prefix `P` of `L`:
the counter holds the bucket offset plus the number of already-scattered
elements of that bucket, and the scratch buffer holds each processed bucket
prefix contiguously at its offset. -/
def ScatterInv (shift : ℕ) (L P : List ObjectInfo)
    (st : (ℕ → ℕ) × (ℕ → ObjectInfo)) : Prop :=
  (∀ b, b < 1024 → st.1 b = bucketOff shift L b + (bucket shift P b).length) ∧
  ∀ b k, b < 1024 → k < (bucket shift P b).length →
    st.2 (bucketOff shift L b + k) = (bucket shift P b).getD k default

theorem scatterInv_step (shift : ℕ) (L P R : List ObjectInfo) (e : ObjectInfo)
    (hL : L = P ++ e :: R) (st : (ℕ → ℕ) × (ℕ → ObjectInfo))
    (h : ScatterInv shift L P st) :
    ScatterInv shift L (P ++ [e]) (scatterStep shift st e) := by
  obtain ⟨hc, ht⟩ := h
  have hdlt : radixDigit shift e < 1024 := radixDigit_lt shift e
  have hbe : bucket shift [e] (radixDigit shift e) = [e] := by simp [bucket]
  have hbne : ∀ b, b ≠ radixDigit shift e → bucket shift [e] b = [] := by
    intro b hb
    simp [bucket, List.filter_cons]
    exact fun hh => absurd hh.symm hb
  have hlen_le : ∀ b, (bucket shift P b).length ≤ (bucket shift L b).length := by
    intro b
    rw [hL, bucket_append]
    simp
  have hlen_lt :
      (bucket shift P (radixDigit shift e)).length
        < (bucket shift L (radixDigit shift e)).length := by
    rw [hL, bucket_append]
    have : e ∈ bucket shift (e :: R) (radixDigit shift e) := by
      simp [bucket, List.filter_cons]
    have hpos : 0 < (bucket shift (e :: R) (radixDigit shift e)).length :=
      List.length_pos.mpr (fun hnil => by simp [hnil] at this)
    simp only [List.length_append]
    omega
  have hwrite : st.1 (radixDigit shift e)
      = bucketOff shift L (radixDigit shift e)
        + (bucket shift P (radixDigit shift e)).length := hc _ hdlt
  constructor
  · intro b hb
    by_cases hbd : b = radixDigit shift e
    · subst hbd
      simp only [scatterStep, if_pos rfl]
      rw [hwrite, bucket_append, hbe]
      simp [Nat.add_assoc]
    · simp only [scatterStep, if_neg hbd]
      rw [hc b hb, bucket_append, hbne b hbd]
      simp
  · intro b k hb hk
    rw [bucket_append] at hk
    by_cases hbd : b = radixDigit shift e
    · subst hbd
      rw [hbe] at hk
      simp only [List.length_append, List.length_cons, List.length_nil] at hk
      by_cases hkeq : k = (bucket shift P (radixDigit shift e)).length
      · subst hkeq
        simp only [scatterStep, hwrite, if_pos rfl, bucket_append, hbe]
        rw [List.getD_eq_getElem _ default (by simp)]
        rw [List.getElem_append_right (le_refl _)]
        simp
      · have hklt : k < (bucket shift P (radixDigit shift e)).length := by omega
        have hne : bucketOff shift L (radixDigit shift e) + k
            ≠ st.1 (radixDigit shift e) := by
          rw [hwrite]; omega
        simp only [scatterStep, if_neg hne]
        rw [ht _ k hdlt hklt, bucket_append, hbe]
        rw [List.getD_eq_getElem _ default hklt,
          List.getD_eq_getElem _ default (by simp; omega)]
        rw [List.getElem_append_left hklt]
    · rw [hbne b hbd, List.append_nil] at hk
      have hne : bucketOff shift L b + k ≠ st.1 (radixDigit shift e) := by
        rw [hwrite]
        rcases Nat.lt_or_ge b (radixDigit shift e) with hlt | hge
        · have h1 : bucketOff shift L b + k < bucketOff shift L (b + 1) := by
            rw [bucketOff_succ]
            have := hlen_le b
            omega
          have h2 : bucketOff shift L (b + 1) ≤ bucketOff shift L (radixDigit shift e) :=
            bucketOff_mono shift L hlt
          omega
        · have hgt : radixDigit shift e < b := lt_of_le_of_ne hge (Ne.symm hbd)
          have h1 : bucketOff shift L (radixDigit shift e)
              + (bucket shift P (radixDigit shift e)).length
              < bucketOff shift L (radixDigit shift e + 1) := by
            rw [bucketOff_succ]
            omega
          have h2 : bucketOff shift L (radixDigit shift e + 1) ≤ bucketOff shift L b :=
            bucketOff_mono shift L hgt
          omega
      simp only [scatterStep, if_neg hne]
      rw [ht b k hb hk, bucket_append, hbne b hbd, List.append_nil]

theorem scatterInv_fold (shift : ℕ) (L : List ObjectInfo) :
    ∀ (R P : List ObjectInfo) (st : (ℕ → ℕ) × (ℕ → ObjectInfo)),
      L = P ++ R → ScatterInv shift L P st →
      ScatterInv shift L L (R.foldl (scatterStep shift) st) := by
  intro R
  induction R with
  | nil =>
    intro P st hL h
    rw [List.append_nil] at hL
    subst hL
    exact h
  | cons e R ih =>
    intro P st hL h
    simp only [List.foldl_cons]
    refine ih (P ++ [e]) _ ?_ (scatterInv_step shift L P R e hL st h)
    rw [hL, List.append_assoc]
    rfl

theorem scatterInv_init (shift : ℕ) (L : List ObjectInfo) :
    ScatterInv shift L []
      ((radixOffsets (radixCount shift L)).1, fun _ => L.headD default) := by
  constructor
  · intro b hb
    simp [radixOffsets_fst shift L b hb, bucket]
  · intro b k _ hk
    simp [bucket] at hk

theorem radixScatter_spec (shift : ℕ) (L : List ObjectInfo) :
    ScatterInv shift L L
      (radixScatter shift L (radixOffsets (radixCount shift L)).1
        (fun _ => L.headD default)) :=
  scatterInv_fold shift L L [] _ (by simp) (scatterInv_init shift L)

theorem sum_bucket_lengths (shift : ℕ) (L : List ObjectInfo) :
    bucketOff shift L 1024 = L.length := by
  induction L with
  | nil => simp [bucketOff, bucket]
  | cons e L ih =>
    have hstep : ∀ i, (bucket shift (e :: L) i).length
        = (bucket shift L i).length + (if i = radixDigit shift e then 1 else 0) := by
      intro i
      by_cases h : radixDigit shift e = i
      · simp [bucket, List.filter_cons, h]
      · have h' : ¬ i = radixDigit shift e := fun hh => h hh.symm
        simp [bucket, List.filter_cons, h, h']
    simp only [bucketOff] at ih ⊢
    rw [Finset.sum_congr rfl fun i _ => hstep i, Finset.sum_add_distrib, ih]
    rw [Finset.sum_ite_eq' (Finset.range 1024) (radixDigit shift e) (fun _ => 1)]
    simp [radixDigit_lt shift e]

theorem radixPass_eq_buckets (shift : ℕ) (L : List ObjectInfo) :
    radixPass shift L = ((List.range 1024).map (bucket shift L)).flatten := by
  obtain ⟨hc, ht⟩ := radixScatter_spec shift L
  simp only [radixPass]
  have main : ∀ m, m ≤ 1024 →
      (List.range (bucketOff shift L m)).map
          (radixScatter shift L (radixOffsets (radixCount shift L)).1
            (fun _ => L.headD default)).2
        = ((List.range m).map (bucket shift L)).flatten := by
    intro m
    induction m with
    | zero => simp [bucketOff]
    | succ m ih =>
      intro hm
      have hm' : m ≤ 1024 := by omega
      rw [bucketOff_succ, List.range_add, List.map_append, ih hm']
      rw [List.range_succ, List.map_append, List.flatten_append]
      congr 1
      simp only [List.map_cons, List.map_nil, List.flatten_cons, List.flatten_nil,
        List.append_nil, List.map_map]
      apply List.ext_getElem
      · simp
      · intro i h1 h2
        simp only [List.getElem_map, Function.comp_apply, List.getElem_range]
        have hilen : i < (bucket shift L m).length := by simpa using h2
        rw [ht m i (by omega) hilen]
        exact List.getD_eq_getElem _ default hilen
  rw [← sum_bucket_lengths shift L]
  exact main 1024 (le_refl _)

theorem filter_or_perm (p q : ObjectInfo → Bool) (l : List ObjectInfo)
    (hdisj : ∀ a, ¬(p a = true ∧ q a = true)) :
    List.Perm (l.filter p ++ l.filter q) (l.filter (fun a => p a || q a)) := by
  induction l with
  | nil => simp
  | cons a l ih =>
    by_cases hp : p a
    · have hq : ¬ q a = true := fun h => hdisj a ⟨hp, h⟩
      simp only [List.filter_cons, hp, if_pos, hq, if_neg, Bool.or_eq_true, true_or,
        if_true, List.cons_append]
      simpa using ih.cons a
    · by_cases hq : q a
      · simp only [List.filter_cons, hp, hq, Bool.or_eq_true, or_true, if_true]
        simp only [Bool.false_eq_true, if_false]
        exact List.perm_middle.trans (ih.cons a)
      · simp only [List.filter_cons, hp, hq, Bool.or_eq_true]
        simp only [Bool.false_eq_true, if_false, or_self]
        exact ih

theorem buckets_flatten_perm (shift : ℕ) (L : List ObjectInfo) :
    List.Perm ((List.range 1024).map (bucket shift L)).flatten L := by
  have aux : ∀ m, List.Perm ((List.range m).map (bucket shift L)).flatten
      (L.filter (fun e => decide (radixDigit shift e < m))) := by
    intro m
    induction m with
    | zero => simp
    | succ m ih =>
      rw [List.range_succ, List.map_append, List.flatten_append]
      simp only [List.map_cons, List.map_nil, List.flatten_cons, List.flatten_nil,
        List.append_nil]
      refine (ih.append_right _).trans ?_
      have hdisj : ∀ a, ¬((decide (radixDigit shift a < m)) = true
          ∧ (radixDigit shift a == m) = true) := by
        intro a ⟨h1, h2⟩
        have ha := of_decide_eq_true h1
        have hb : radixDigit shift a = m := by simpa using h2
        omega
      refine (filter_or_perm _ _ L hdisj).trans ?_
      have : ∀ a ∈ L, ((decide (radixDigit shift a < m) || (radixDigit shift a == m)))
          = decide (radixDigit shift a < m + 1) := by
        intro a _
        by_cases h : radixDigit shift a < m
        · simp [h, Nat.lt_succ_of_lt h]
        · by_cases h2 : radixDigit shift a = m
          · simp [h2]
          · have : ¬ radixDigit shift a < m + 1 := by omega
            simp [h, h2, this]
      rw [List.filter_congr this]
  have h1024 := aux 1024
  have : L.filter (fun e => decide (radixDigit shift e < 1024)) = L :=
    List.filter_eq_self.mpr fun a _ => decide_eq_true (radixDigit_lt shift a)
  rwa [this] at h1024

theorem radixPass_perm (shift : ℕ) (L : List ObjectInfo) :
    List.Perm (radixPass shift L) L := by
  rw [radixPass_eq_buckets]
  exact buckets_flatten_perm shift L

/-- The sortedness invariant carried through the passes: ordered by the low
`w` part of the Morton key, ties by ordinal. -/
def mortonLexLe (w : ℕ) (a b : ObjectInfo) : Prop :=
  a.morton_code % w < b.morton_code % w ∨
    (a.morton_code % w = b.morton_code % w ∧ a.id ≤ b.id)

theorem radixDigit_eq_mod (shift : ℕ) (e : ObjectInfo) :
    radixDigit shift e = (e.morton_code >>> shift) % 2 ^ 10 := by
  have : (1023 : ℕ) = 2 ^ 10 - 1 := by norm_num
  rw [radixDigit, this, Nat.and_pow_two_sub_one_eq_mod]

theorem mod_pow_split (c s : ℕ) :
    c % 2 ^ (s + 10) = c % 2 ^ s + 2 ^ s * ((c >>> s) % 2 ^ 10) := by
  rw [Nat.shiftRight_eq_div_pow]
  have h1 : c / 2 ^ s % 2 ^ 10 = c % (2 ^ s * 2 ^ 10) / 2 ^ s :=
    (Nat.mod_mul_right_div_self c (2 ^ s) (2 ^ 10)).symm
  rw [h1, ← pow_add]
  have h2 : c % 2 ^ s = c % 2 ^ (s + 10) % 2 ^ s :=
    (Nat.mod_mod_of_dvd c (pow_dvd_pow 2 (Nat.le_add_right s 10))).symm
  rw [h2]
  exact (Nat.mod_add_div (c % 2 ^ (s + 10)) (2 ^ s)).symm

theorem radixPass_pairwise (s : ℕ) (L : List ObjectInfo)
    (h : L.Pairwise (mortonLexLe (2 ^ s))) :
    (radixPass s L).Pairwise (mortonLexLe (2 ^ (s + 10))) := by
  rw [radixPass_eq_buckets, List.pairwise_flatten]
  constructor
  · intro l' hl'
    rw [List.mem_map] at hl'
    obtain ⟨b, _, rfl⟩ := hl'
    have hsub : (bucket s L b).Pairwise (mortonLexLe (2 ^ s)) :=
      h.sublist (List.filter_sublist L)
    refine hsub.imp_of_mem ?_
    intro a c ha hc hlex
    have hda : radixDigit s a = b := by
      have := (List.mem_filter.mp ha).2
      simpa using this
    have hdc : radixDigit s c = b := by
      have := (List.mem_filter.mp hc).2
      simpa using this
    have hsa := mod_pow_split a.morton_code s
    have hsc := mod_pow_split c.morton_code s
    rw [← radixDigit_eq_mod, hda] at hsa
    rw [← radixDigit_eq_mod, hdc] at hsc
    rcases hlex with hlt | ⟨heq, hid⟩
    · exact Or.inl (by omega)
    · exact Or.inr ⟨by omega, hid⟩
  · rw [List.pairwise_map]
    refine (List.pairwise_lt_range 1024).imp_of_mem ?_
    intro i j _ _ hij a ha c hc
    have hda : radixDigit s a = i := by
      have := (List.mem_filter.mp ha).2
      simpa using this
    have hdc : radixDigit s c = j := by
      have := (List.mem_filter.mp hc).2
      simpa using this
    have hsa := mod_pow_split a.morton_code s
    have hsc := mod_pow_split c.morton_code s
    rw [← radixDigit_eq_mod, hda] at hsa
    rw [← radixDigit_eq_mod, hdc] at hsc
    have hlo : a.morton_code % 2 ^ s < 2 ^ s :=
      Nat.mod_lt _ (Nat.pos_pow_of_pos s (by norm_num))
    left
    have hstep : 2 ^ s * (i + 1) ≤ 2 ^ s * j := Nat.mul_le_mul_left _ hij
    calc a.morton_code % 2 ^ (s + 10)
        = a.morton_code % 2 ^ s + 2 ^ s * i := hsa
      _ < 2 ^ s * (i + 1) := by rw [Nat.mul_succ]; omega
      _ ≤ 2 ^ s * j := hstep
      _ ≤ c.morton_code % 2 ^ s + 2 ^ s * j := Nat.le_add_left _ _
      _ = c.morton_code % 2 ^ (s + 10) := hsc.symm

/-- The construction of the unsorted `objects` list in `BVH::build`
(lines 218-230): each box ordinal paired with the Morton code of the box
center. -/
def buildObjects (bounding_boxes : List BoundingBox) (world_size : ℚ) : List ObjectInfo :=
  bounding_boxes.enum.map (fun p =>
    { id := p.1
      morton_code :=
        calculate_morton_code p.2.center.x p.2.center.y p.2.center.z world_size })

theorem buildObjects_length (bbs : List BoundingBox) (ws : ℚ) :
    (buildObjects bbs ws).length = bbs.length := by
  simp [buildObjects]

theorem buildObjects_getElem (bbs : List BoundingBox) (ws : ℚ) (i : ℕ)
    (h : i < (buildObjects bbs ws).length) :
    (buildObjects bbs ws)[i]
      = { id := i
          morton_code := calculate_morton_code (bbs.getD i ⟨⟨0, 0, 0⟩, ⟨0, 0, 0⟩⟩).center.x
            (bbs.getD i ⟨⟨0, 0, 0⟩, ⟨0, 0, 0⟩⟩).center.y
            (bbs.getD i ⟨⟨0, 0, 0⟩, ⟨0, 0, 0⟩⟩).center.z ws } := by
  have hb : i < bbs.length := by simpa [buildObjects] using h
  simp [buildObjects, List.getD_eq_getElem?_getD, List.getElem?_eq_getElem hb]

theorem buildObjects_pairwise_init (bbs : List BoundingBox) (ws : ℚ) :
    (buildObjects bbs ws).Pairwise (mortonLexLe (2 ^ 0)) := by
  rw [List.pairwise_iff_getElem]
  intro i j hi hj hij
  rw [buildObjects_getElem bbs ws i hi, buildObjects_getElem bbs ws j hj]
  right
  exact ⟨by simp [Nat.mod_one], le_of_lt hij⟩

theorem radixSort_perm (L : List ObjectInfo) : List.Perm (radixSort L) L := by
  unfold radixSort
  exact ((radixPass_perm 20 _).trans ((radixPass_perm 10 _).trans (radixPass_perm 0 L)))

theorem radixSort_pairwise (L : List ObjectInfo)
    (h0 : L.Pairwise (mortonLexLe (2 ^ 0))) :
    (radixSort L).Pairwise (mortonLexLe (2 ^ 30)) := by
  unfold radixSort
  have h1 := radixPass_pairwise 0 L h0
  have h2 := radixPass_pairwise 10 _ h1
  have h3 := radixPass_pairwise 20 _ h2
  exact h3

/-- C8: after the three-pass radix sort inside `build`, the object list is a
permutation of the input enumeration, ordered by ascending 30-bit Morton
key, with objects of equal key appearing in ascending original-ordinal
order (stability). -/
theorem radix_sort_stable_C8 (bounding_boxes : List BoundingBox) (world_size : ℚ) :
    List.Perm (radixSort (buildObjects bounding_boxes world_size))
      (buildObjects bounding_boxes world_size) ∧
    (radixSort (buildObjects bounding_boxes world_size)).Pairwise
      (fun a b => a.morton_code < b.morton_code ∨
        (a.morton_code = b.morton_code ∧ a.id ≤ b.id)) := by
  refine ⟨radixSort_perm _, ?_⟩
  have hsorted := radixSort_pairwise _ (buildObjects_pairwise_init bounding_boxes world_size)
  have hcode : ∀ e ∈ radixSort (buildObjects bounding_boxes world_size),
      e.morton_code < 2 ^ 30 := by
    intro e he
    have he2 := (radixSort_perm _).mem_iff.mp he
    rw [buildObjects, List.mem_map] at he2
    obtain ⟨p, _, rfl⟩ := he2
    exact calculate_morton_code_lt _ _ _ _
  refine hsorted.imp_of_mem ?_
  intro a b ha hb hlex
  rw [mortonLexLe, Nat.mod_eq_of_lt (hcode a ha), Nat.mod_eq_of_lt (hcode b hb)] at hlex
  exact hlex

theorem perm_pair_cases {α : Type} {l : List α} {a b : α} (h : List.Perm l [a, b]) :
    l = [a, b] ∨ l = [b, a] := by
  rcases l with _ | ⟨x, _ | ⟨y, _ | ⟨z, t⟩⟩⟩
  · exact absurd h.length_eq (by simp)
  · exact absurd h.length_eq (by simp)
  · by_cases hxa : x = a
    · subst hxa
      left
      have := h.cons_inv
      rw [List.perm_singleton] at this
      rw [this]
    · right
      have hx : x ∈ [a, b] := h.mem_iff.mp (by simp)
      have hxb : x = b := by
        rcases List.mem_pair.mp hx with h' | h'
        · exact absurd h' hxa
        · exact h'
      have hswap : List.Perm [a, b] [b, a] := List.Perm.swap _ _ _
      have h2 := h.trans hswap
      rw [hxb] at h2
      have h3 := h2.cons_inv
      rw [List.perm_singleton] at h3
      rw [hxb, h3]
  · exact absurd h.length_eq (by simp)

/-! ## The LBVH topology builder (Karras), arena flattener and `build` -/

/-- Floor base-2 logarithm by structural (fuelled) recursion, so that it is
kernel-evaluable; `log2floor 64` agrees with `Nat.log2` on every argument
below `2 ^ 64` (`log2floor_eq_log2`). -/
def log2floor : ℕ → ℕ → ℕ
  | 0, _ => 0
  | fuel + 1, x => if x ≤ 1 then 0 else log2floor fuel (x / 2) + 1

theorem log2floor_eq_log2 : ∀ (fuel x : ℕ), x < 2 ^ fuel → log2floor fuel x = Nat.log2 x := by
  intro fuel
  induction fuel with
  | zero =>
    intro x hx
    interval_cases x
    simp [log2floor, Nat.log2]
  | succ f ih =>
    intro x hx
    rw [log2floor]
    by_cases h : x ≤ 1
    · rw [if_pos h]
      conv_rhs => rw [Nat.log2]
      rw [if_neg (by omega)]
    · rw [if_neg h,
        ih (x / 2) ((Nat.div_lt_iff_lt_mul two_pos).mpr (by rw [← pow_succ]; exact hx))]
      conv_rhs => rw [Nat.log2]
      rw [if_pos (by omega)]

/-- `clz32`, i.e. `u32::leading_zeros` as wrapped at lines 284-291 (arguments
here are always below `2 ^ 32`). -/
def clz32 (x : ℕ) : ℤ :=
  if x = 0 then 32 else 31 - Int.ofNat (log2floor 64 x)

/-- The `common_prefix` closure (lines 293-305).  `j` out of `[0, n)` yields
`-1`; the closure is only invoked with `i` a valid leaf index (out-of-range
`i` would panic in the source; the embedding totalises the dead branch with
`getD`). -/
def common_prefix (codes : List ℕ) (i j : ℤ) : ℤ :=
  if j < 0 ∨ j ≥ (codes.length : ℤ) then -1
  else
    let ci := codes.getD i.toNat 0
    let cj := codes.getD j.toNat 0
    if ci ≠ cj then clz32 (ci ^^^ cj)
    else 32 + clz32 (i.toNat ^^^ j.toNat)

/-- Two's-complement wrap of an `i32` value: `l <<= 1` in the source keeps
only the low 32 bits and reinterprets them as signed. -/
def wrap32 (x : ℤ) : ℤ := (x + 2 ^ 31) % 2 ^ 32 - 2 ^ 31

/-- The exponential search `while common_prefix(i, i + l*d) > delta_min
{ l <<= 1 }` of `determine_range` (lines 314-317), fuelled; the doubling is
an `i32` left shift, which silently wraps at `l = 2^30`. -/
def drExpo (codes : List ℕ) (i d delta_min : ℤ) : ℕ → ℤ → Option ℤ
  | 0, _ => none
  | fuel + 1, l =>
    if common_prefix codes i (i + l * d) > delta_min then
      drExpo codes i d delta_min fuel (wrap32 (l * 2))
    else
      some l

/-- The binary search `while t > 0 { ... }` of `determine_range`
(lines 318-325), fuelled (the trip count is logarithmic in `t`). -/
def drBin (codes : List ℕ) (i d delta_min : ℤ) : ℕ → ℤ → ℕ → Option ℤ
  | 0, _, _ => none
  | _fuel + 1, bound, 0 => some bound
  | fuel + 1, bound, t =>
    let bound' := if common_prefix codes i (i + (bound + t) * d) > delta_min
      then bound + t else bound
    drBin codes i d delta_min fuel bound' (t / 2)

/-- `determine_range` (lines 307-328), fuelled through the exponential
search. -/
def determine_range (codes : List ℕ) (i : ℤ) : Option (ℤ × ℤ) := do
  let d := if common_prefix codes i (i + 1) - common_prefix codes i (i - 1) > 0
    then (1 : ℤ) else -1
  let delta_min := common_prefix codes i (i - d)
  let l ← drExpo codes i d delta_min (codes.length + 2) 1
  let bound ← drBin codes i d delta_min ((l / 2).toNat + 1) 0 (l / 2).toNat
  let j := i + bound * d
  pure (min i j, max i j)

/-- The `loop { step = (step + 1) >> 1; ... }` of `find_split`
(lines 333-346), fuelled (the trip count is logarithmic in `step`). -/
def fsLoop (codes : List ℕ) (first last common : ℤ) : ℕ → ℤ → ℕ → Option ℤ
  | 0, _, _ => none
  | fuel + 1, split, step =>
    let step' := (step + 1) / 2
    let new_split := split + step'
    let split' := if new_split < last ∧ common_prefix codes first new_split > common
      then new_split else split
    if step' ≤ 1 then some split'
    else fsLoop codes first last common fuel split' step'

/-- `find_split` (lines 330-348). -/
def find_split (codes : List ℕ) (first last : ℤ) : Option ℤ :=
  let common := common_prefix codes first last
  fsLoop codes first last common ((last - first).toNat + 1) first (last - first).toNat

/-- `TempChild` (lines 352-355). -/
inductive TempChild where
  | leaf (idx : ℕ)
  | internal (idx : ℕ)
deriving Repr, DecidableEq

/-- `TempNode` (lines 356-362). -/
structure TempNode where
  left : Option TempChild
  right : Option TempChild
  object_id : ℤ
  aabb : BvhAABB
deriving Repr, DecidableEq

instance : Inhabited BvhAABB := ⟨⟨0, 0, 0, 0, 0, 0⟩⟩

instance : Inhabited TempNode := ⟨⟨none, none, -1, default⟩⟩

instance : Inhabited Point := ⟨⟨0, 0, 0⟩⟩

instance : Inhabited Vector := ⟨⟨0, 0, 0⟩⟩

instance : Inhabited BoundingBox := ⟨⟨default, default⟩⟩

/-- One iteration of the topology-building loop (lines 390-405): compute the
range and split of internal node `i` and attach its two children, marking
internal children as parented. -/
def topologyStep (codes : List ℕ) (st : List TempNode × List Bool) (i : ℕ) :
    Option (List TempNode × List Bool) := do
  let (internals, has_parent) := st
  let (first, last) ← determine_range codes (i : ℤ)
  let split ← find_split codes first last
  let (lchild, has_parent) :=
    if split = first then (TempChild.leaf split.toNat, has_parent)
    else (TempChild.internal split.toNat, has_parent.set split.toNat true)
  let (rchild, has_parent) :=
    if split + 1 = last then (TempChild.leaf (split + 1).toNat, has_parent)
    else (TempChild.internal (split + 1).toNat, has_parent.set (split + 1).toNat true)
  let internals := internals.set i
    { left := some lchild, right := some rchild, object_id := -1, aabb := default }
  pure (internals, has_parent)

/-- The topology-building loop over all internal nodes (lines 388-405),
starting from the freshly allocated `internals` (lines 377-386) and
`has_parent` (line 389) arrays. -/
def buildTopology (codes : List ℕ) (n : ℕ) : Option (List TempNode × List Bool) :=
  (List.range (n - 1)).foldlM (topologyStep codes)
    (List.replicate (n - 1) { left := none, right := none, object_id := -1, aabb := default },
     List.replicate (n - 1) false)

/-- The root scan (lines 407-414): index of the first unparented internal
node, `0` when every entry is parented (the initialisation value). -/
def findRootIdx (has_parent : List Bool) : ℕ :=
  match has_parent.findIdx? (fun b => !b) with
  | some idx => idx
  | none => 0

/-- `compute_internal` (lines 417-438): post-order computation of the
internal AABBs, mutating the `internals` array (explicit state); fuelled,
with `none` for fuel exhaustion or a missing child (an `expect` panic in
the source). -/
def compute_internal (leaves : List TempNode) :
    ℕ → ℕ → List TempNode → Option (BvhAABB × List TempNode)
  | 0, _, _ => none
  | fuel + 1, idx, internals => do
    let node ← internals.get? idx
    let lc ← node.left
    let rc ← node.right
    let (a, internals) ← match lc with
      | .leaf li => do
          let ln ← leaves.get? li
          pure (ln.aabb, internals)
      | .internal ii => compute_internal leaves fuel ii internals
    let (b, internals) ← match rc with
      | .leaf li => do
          let ln ← leaves.get? li
          pure (ln.aabb, internals)
      | .internal ii => compute_internal leaves fuel ii internals
    let merged := BvhAABB.merge a b
    let cur ← internals.get? idx
    pure (merged, internals.set idx { cur with aabb := merged })

/-- `FlatNode` (lines 104-110). -/
structure FlatNode where
  left : ℤ
  right : ℤ
  object_id : ℤ
  aabb : BvhAABB
deriving Repr, DecidableEq, Inhabited

/-- `build_arena_node` (lines 445-490), fuelled, with the arena as explicit
state; returns the index of the materialised node.  An internal node's slot
is reserved before its children are appended and back-filled afterwards. -/
def build_arena_node (internals leaves : List TempNode) :
    ℕ → TempChild → List FlatNode → Option (ℤ × List FlatNode)
  | 0, _, _ => none
  | _fuel + 1, .leaf li, arena => do
    let ln ← leaves.get? li
    let idx : ℤ := arena.length
    pure (idx,
      arena ++ [{ left := -1, right := -1, object_id := ln.object_id, aabb := ln.aabb }])
  | fuel + 1, .internal ii, arena => do
    let node ← internals.get? ii
    let idx : ℤ := arena.length
    let arena := arena ++ [{ left := -1, right := -1, object_id := -1, aabb := node.aabb }]
    let lc ← node.left
    let rc ← node.right
    let (left_idx, arena) ← build_arena_node internals leaves fuel lc arena
    let (right_idx, arena) ← build_arena_node internals leaves fuel rc arena
    let cur ← arena.get? idx.toNat
    pure (idx, arena.set idx.toNat { cur with left := left_idx, right := right_idx })

/-- The `BVH` index state (lines 112-124).  The `guid`/`name` metadata is
irrelevant to every claim and omitted; `root` is the legacy pointer tree,
which every build leaves as `None` (its node type is never materialised, so
its payload is modelled as `Unit`). -/
structure BVH where
  world_size : ℚ
  object_guids : List String
  arena : List FlatNode
  arena_root : ℤ
  root : Option Unit
deriving Repr, DecidableEq

/-- `BVH::new` (lines 139-149). -/
def BVH.new : BVH :=
  { world_size := 1000, object_guids := [], arena := [], arena_root := -1, root := none }

/-- `BVH::build` (lines 209-501), returning `none` if an internal loop runs
out of fuel or a source `expect`/index panic would fire (never the case on
the inputs reached; see the C4/C5 theorems). -/
def BVH.build (self : BVH) (bounding_boxes : List BoundingBox) : Option BVH :=
  if bounding_boxes.isEmpty then
    some { self with root := none, arena := [], arena_root := -1 }
  else
    let objects := radixSort (buildObjects bounding_boxes self.world_size)
    let n := objects.length
    if n = 1 then
      let id := (objects.headD default).id
      let aabb := BvhAABB.from_bbox (bounding_boxes.getD id default)
      some { self with
        arena := [{ left := -1, right := -1, object_id := (id : ℤ), aabb := aabb }],
        arena_root := 0, root := none }
    else do
      let codes := objects.map (·.morton_code)
      let leaves : List TempNode := objects.map (fun obj =>
        { left := none, right := none, object_id := (obj.id : ℤ),
          aabb := BvhAABB.from_bbox (bounding_boxes.getD obj.id default) })
      let (internals, has_parent) ← buildTopology codes n
      let root_idx := findRootIdx has_parent
      let (_, internals) ← compute_internal leaves (n + 1) root_idx internals
      let (arena_root, arena) ←
        build_arena_node internals leaves (n + 1) (TempChild.internal root_idx) []
      pure { self with arena := arena, arena_root := arena_root, root := none }

/-- `BVH::from_boxes` (lines 202-207). -/
def BVH.from_boxes (bounding_boxes : List BoundingBox) (world_size : ℚ) : Option BVH :=
  BVH.build { BVH.new with world_size := world_size } bounding_boxes

/-- `BVH::build_with_guids` (lines 178-200).  Note the empty-input early
return clears `root` and `object_guids` but not the arena. -/
def BVH.build_with_guids (self : BVH) (boxes_with_guids : List (BoundingBox × String)) :
    Option BVH :=
  if boxes_with_guids.isEmpty then
    some { self with root := none, object_guids := [] }
  else
    let bounding_boxes := boxes_with_guids.map (fun p : BoundingBox × String => p.1)
    let self := { self with object_guids := boxes_with_guids.map (fun p : BoundingBox × String => p.2) }
    let self := { self with world_size := compute_world_size bounding_boxes }
    self.build bounding_boxes

/-- `BVH::aabb_intersect` (lines 592-615; `&self` is unused). -/
def aabb_intersect (aabb1 aabb2 : BoundingBox) : Bool :=
  decide (aabb1.center.x - aabb1.half_size.x ≤ aabb2.center.x + aabb2.half_size.x ∧
    aabb1.center.x + aabb1.half_size.x ≥ aabb2.center.x - aabb2.half_size.x ∧
    aabb1.center.y - aabb1.half_size.y ≤ aabb2.center.y + aabb2.half_size.y ∧
    aabb1.center.y + aabb1.half_size.y ≥ aabb2.center.y - aabb2.half_size.y ∧
    aabb1.center.z - aabb1.half_size.z ≤ aabb2.center.z + aabb2.half_size.z ∧
    aabb1.center.z + aabb1.half_size.z ≥ aabb2.center.z - aabb2.half_size.z)

/-- The iterative stack loop of `find_collisions` (lines 558-587), fuelled;
the stack is a list whose head is the top, so pushing `left` then `right`
leaves `right` on top. -/
def findCollisionsLoop (arena : List FlatNode) (object_id : ℕ) (query_bbox : BoundingBox)
    (bounding_boxes : List BoundingBox) (query_aabb : BvhAABB) :
    ℕ → List ℤ → List ℕ → ℤ → Option (List ℕ × ℤ)
  | _, [], collisions, check_count => some (collisions, check_count)
  | 0, _ :: _, _, _ => none
  | fuel + 1, node_idx :: stack, collisions, check_count => do
    let check_count := check_count + 1
    let node ← arena.get? node_idx.toNat
    if ¬ (query_aabb.intersects node.aabb = true) then
      findCollisionsLoop arena object_id query_bbox bounding_boxes query_aabb
        fuel stack collisions check_count
    else if node.object_id ≥ 0 then
      let node_object_id := node.object_id.toNat
      let collisions :=
        if node_object_id ≠ object_id ∧ node_object_id < bounding_boxes.length ∧
            aabb_intersect query_bbox (bounding_boxes.getD node_object_id default) = true
        then collisions ++ [node_object_id] else collisions
      findCollisionsLoop arena object_id query_bbox bounding_boxes query_aabb
        fuel stack collisions check_count
    else
      findCollisionsLoop arena object_id query_bbox bounding_boxes query_aabb
        fuel ((if node.right ≥ 0 then [node.right] else []) ++
          (if node.left ≥ 0 then [node.left] else []) ++ stack) collisions check_count

/-- `BVH::find_collisions` (lines 540-590). -/
def BVH.find_collisions (self : BVH) (object_id : ℕ) (query_bbox : BoundingBox)
    (bounding_boxes : List BoundingBox) : Option (List ℕ × ℤ) :=
  if self.arena_root < 0 ∨ self.arena.isEmpty then some ([], 0)
  else
    findCollisionsLoop self.arena object_id query_bbox bounding_boxes
      (BvhAABB.from_bbox query_bbox) (self.arena.length + 1) [self.arena_root] [] 0

/-- Insertion of a value into a sorted list (model of `sort_unstable` at
line 713: on `ℕ` with `≤` every correct sort has the same, unique sorted
output, so a structural insertion sort represents it exactly). -/
def insertSorted (x : ℕ) : List ℕ → List ℕ
  | [] => [x]
  | y :: ys => if x ≤ y then x :: y :: ys else y :: insertSorted x ys

/-- Structural sort used to model `colliding_indices.sort_unstable()`. -/
def sortNat (l : List ℕ) : List ℕ := l.foldr insertSorted []

/-- The pairwise traversal loop of `check_all_collisions` (lines 636-706),
fuelled.  Pushes onto the `Vec` stack in source order become a reversed
block prepended to the head-is-top list stack. -/
def checkAllLoop (arena : List FlatNode) :
    ℕ → List (ℤ × ℤ) → List (ℕ × ℕ) → List Bool → ℤ →
    Option (List (ℕ × ℕ) × List Bool × ℤ)
  | _, [], all_collisions, visited, total_checks =>
    some (all_collisions, visited, total_checks)
  | 0, _ :: _, _, _, _ => none
  | fuel + 1, (a_idx, b_idx) :: stack, all_collisions, visited, total_checks => do
    let a ← arena.get? a_idx.toNat
    let b ← arena.get? b_idx.toNat
    if ¬ (a.aabb.intersects b.aabb = true) then
      checkAllLoop arena fuel stack all_collisions visited total_checks
    else
      let total_checks := total_checks + 1
      let a_leaf := a.object_id ≥ 0
      let b_leaf := b.object_id ≥ 0
      if a_leaf ∧ b_leaf then
        let i := a.object_id.toNat
        let j := b.object_id.toNat
        if i < j ∧ i < visited.length ∧ j < visited.length then
          checkAllLoop arena fuel stack (all_collisions ++ [(i, j)])
            ((visited.set i true).set j true) total_checks
        else
          checkAllLoop arena fuel stack all_collisions visited total_checks
      else if a_idx = b_idx then
        let pushes :=
          if a.left ≥ 0 then
            (a.left, a.left) ::
              (if a.right ≥ 0 then [(a.left, a.right), (a.right, a.right)] else [])
          else []
        checkAllLoop arena fuel (pushes.reverse ++ stack) all_collisions visited total_checks
      else
        let pushes :=
          if ¬ a_leaf ∧ ¬ b_leaf then
            (if a.left ≥ 0 ∧ b.left ≥ 0 then [(a.left, b.left)] else []) ++
            (if a.left ≥ 0 ∧ b.right ≥ 0 then [(a.left, b.right)] else []) ++
            (if a.right ≥ 0 ∧ b.left ≥ 0 then [(a.right, b.left)] else []) ++
            (if a.right ≥ 0 ∧ b.right ≥ 0 then [(a.right, b.right)] else [])
          else if a_leaf ∧ ¬ b_leaf then
            (if b.left ≥ 0 then [(a_idx, b.left)] else []) ++
            (if b.right ≥ 0 then [(a_idx, b.right)] else [])
          else
            (if a.left ≥ 0 then [(a.left, b_idx)] else []) ++
            (if a.right ≥ 0 then [(a.right, b_idx)] else [])
        checkAllLoop arena fuel (pushes.reverse ++ stack) all_collisions visited total_checks

/-- `BVH::check_all_collisions` (lines 617-716).  The final `colliding
indices` list is the enumeration of the `visited` flags (already ascending;
the source's `sort_unstable` is a no-op on it, represented by
`List.mergeSort`). -/
def BVH.check_all_collisions (self : BVH) (bounding_boxes : List BoundingBox) :
    Option (List (ℕ × ℕ) × List ℕ × ℤ) :=
  if self.arena_root < 0 ∨ self.arena.isEmpty then some ([], [], 0)
  else do
    let visited : List Bool := List.replicate bounding_boxes.length false
    let (all_collisions, visited, total_checks) ←
      checkAllLoop self.arena
        ((self.arena.length + 1) * (self.arena.length + 1) * 4 + 1)
        [(self.arena_root, self.arena_root)] [] visited 0
    let colliding_indices :=
      sortNat (visited.enum.filterMap (fun p => if p.2 then some p.1 else none))
    pure (all_collisions, colliding_indices, total_checks)

/-- `BVH::check_all_collisions_guids` (lines 720-737). -/
def BVH.check_all_collisions_guids (self : BVH) (bounding_boxes : List BoundingBox) :
    Option (List (String × String)) := do
  let (collision_pairs, _, _) ← self.check_all_collisions bounding_boxes
  pure (collision_pairs.filterMap (fun p =>
    if p.1 < self.object_guids.length ∧ p.2 < self.object_guids.length then
      some (self.object_guids.getD p.1 "", self.object_guids.getD p.2 "")
    else none))

/-! ## The ray/slab test over an IEEE-style value domain -/

/-- IEEE-style `f64` value domain for the ray/slab test: finite rationals
plus the two infinities and NaN.  Only the operations the slab test
performs are defined. -/
inductive F where
  | nan
  | ninf
  | pinf
  | fin (q : ℚ)
deriving Repr, DecidableEq

/-- `a * v` for finite `a` (the slab test multiplies the finite difference
`bound - origin` by the possibly infinite reciprocal): `0 * ±∞ = NaN`. -/
def F.scale (a : ℚ) : F → F
  | .nan => .nan
  | .fin b => .fin (a * b)
  | .pinf => if a > 0 then .pinf else if a < 0 then .ninf else .nan
  | .ninf => if a > 0 then .ninf else if a < 0 then .pinf else .nan

/-- Rust `f64::min`: a NaN argument is ignored. -/
def F.fmin : F → F → F
  | .nan, b => b
  | a, .nan => a
  | .ninf, _ => .ninf
  | _, .ninf => .ninf
  | .pinf, b => b
  | a, .pinf => a
  | .fin a, .fin b => .fin (min a b)

/-- Rust `f64::max`: a NaN argument is ignored. -/
def F.fmax : F → F → F
  | .nan, b => b
  | a, .nan => a
  | .pinf, _ => .pinf
  | _, .pinf => .pinf
  | .ninf, b => b
  | a, .ninf => a
  | .fin a, .fin b => .fin (max a b)

/-- IEEE `a ≤ b` (false when either operand is NaN). -/
def F.leb : F → F → Bool
  | .nan, _ => false
  | _, .nan => false
  | .ninf, _ => true
  | _, .ninf => false
  | _, .pinf => true
  | .pinf, _ => false
  | .fin a, .fin b => decide (a ≤ b)

/-- IEEE `a < b` (false when either operand is NaN). -/
def F.ltb : F → F → Bool
  | .nan, _ => false
  | _, .nan => false
  | .ninf, .ninf => false
  | .ninf, _ => true
  | _, .ninf => false
  | .pinf, _ => false
  | _, .pinf => true
  | .fin a, .fin b => decide (a < b)

/-- `BVH::ray_bvhaabb_intersect` (lines 739-788): the slab method with a
zero direction component treated as an infinite reciprocal. -/
def ray_bvhaabb_intersect (origin : Point) (direction : Vector) (aabb : BvhAABB) :
    Option (F × F) :=
  let min_x := aabb.cx - aabb.hx
  let max_x := aabb.cx + aabb.hx
  let min_y := aabb.cy - aabb.hy
  let max_y := aabb.cy + aabb.hy
  let min_z := aabb.cz - aabb.hz
  let max_z := aabb.cz + aabb.hz
  let invx : F := if direction.x = 0 then .pinf else .fin (1 / direction.x)
  let invy : F := if direction.y = 0 then .pinf else .fin (1 / direction.y)
  let invz : F := if direction.z = 0 then .pinf else .fin (1 / direction.z)
  let tx1 := F.scale (min_x - origin.x) invx
  let tx2 := F.scale (max_x - origin.x) invx
  let tmin := F.fmin tx1 tx2
  let tmax := F.fmax tx1 tx2
  let ty1 := F.scale (min_y - origin.y) invy
  let ty2 := F.scale (max_y - origin.y) invy
  let tmin := F.fmax tmin (F.fmin ty1 ty2)
  let tmax := F.fmin tmax (F.fmax ty1 ty2)
  let tz1 := F.scale (min_z - origin.z) invz
  let tz2 := F.scale (max_z - origin.z) invz
  let tmin := F.fmax tmin (F.fmin tz1 tz2)
  let tmax := F.fmin tmax (F.fmax tz1 tz2)
  if F.leb tmin tmax then some (tmin, tmax) else none

/-- The iterative stack loop of `ray_cast` (lines 816-841), fuelled. -/
def rayCastLoop (arena : List FlatNode) (origin : Point) (direction : Vector) :
    ℕ → List ℤ → List ℕ → Option (List ℕ)
  | _, [], candidates => some candidates
  | 0, _ :: _, _ => none
  | fuel + 1, node_idx :: stack, candidates => do
    let node ← arena.get? node_idx.toNat
    match ray_bvhaabb_intersect origin direction node.aabb with
    | some (_tmin, tmax) =>
      if F.ltb tmax (F.fin 0) then
        rayCastLoop arena origin direction fuel stack candidates
      else if node.object_id ≥ 0 then
        rayCastLoop arena origin direction fuel stack (candidates ++ [node.object_id.toNat])
      else
        rayCastLoop arena origin direction fuel
          ((if node.right ≥ 0 then [node.right] else []) ++
            (if node.left ≥ 0 then [node.left] else []) ++ stack) candidates
    | none => rayCastLoop arena origin direction fuel stack candidates

/-- `BVH::ray_cast` (lines 790-844): clears the candidate buffer, fast-checks
the root, then runs the stack descent; returns hit-any and the buffer.  The
`_find_all` flag is unused by the source. -/
def BVH.ray_cast (self : BVH) (origin : Point) (direction : Vector)
    (candidate_leaf_ids : List ℕ) (_find_all : Bool) : Option (Bool × List ℕ) :=
  let candidate_leaf_ids : List ℕ := []
  if self.arena_root < 0 ∨ self.arena.isEmpty then some (false, candidate_leaf_ids)
  else
    match (self.arena.get? self.arena_root.toNat).map
        (fun root => ray_bvhaabb_intersect origin direction root.aabb) with
    | none => none
    | some none => some (false, candidate_leaf_ids)
    | some (some (_tmin, tmax)) =>
      if F.ltb tmax (F.fin 0) then some (false, candidate_leaf_ids)
      else do
        let candidates ← rayCastLoop self.arena origin direction
          (self.arena.length + 1) [self.arena_root] candidate_leaf_ids
        pure (¬ candidates.isEmpty, candidates)

/-! ## Concrete builds used by claims C1, C2 and C3 -/

/-- Brute-force all-pairs AABB overlap scan over the input boxes: the oracle
that claim C1 compares `check_all_collisions` against. -/
def bruteForcePairs (bounding_boxes : List BoundingBox) : List (ℕ × ℕ) :=
  ((List.range bounding_boxes.length).map (fun i =>
    (List.range bounding_boxes.length).filterMap (fun j =>
      if i < j ∧
          aabb_intersect (bounding_boxes.getD i default) (bounding_boxes.getD j default) = true
      then some (i, j) else none))).flatten

theorem radixSort_single (a : ObjectInfo) : radixSort [a] = [a] :=
  List.perm_singleton.mp (radixSort_perm [a])

/-- The two boxes of the C1/C3 counterexample: box 0 is centred at
`(2,0,0)`, box 1 at the origin, both with half-extent `(2,2,2)`.  They
overlap, but box 1 has the smaller Morton key, so the radix sort puts
object 1 before object 0. -/
def exBoxes : List BoundingBox := [⟨⟨2, 0, 0⟩, ⟨2, 2, 2⟩⟩, ⟨⟨0, 0, 0⟩, ⟨2, 2, 2⟩⟩]

theorem ex_morton0 : calculate_morton_code 2 0 0 10 = 251621366 := by
  norm_num [calculate_morton_code, expand_bits, min_def, max_def]
  try rfl

theorem ex_morton1 : calculate_morton_code 0 0 0 10 = 134217727 := by
  norm_num [calculate_morton_code, expand_bits, min_def, max_def]
  try rfl

theorem ex_buildObjects :
    buildObjects [(⟨⟨2, 0, 0⟩, ⟨2, 2, 2⟩⟩ : BoundingBox), ⟨⟨0, 0, 0⟩, ⟨2, 2, 2⟩⟩] 10
      = [⟨0, 251621366⟩, ⟨1, 134217727⟩] := by
  simp [buildObjects, List.enum, List.enumFrom, ex_morton0, ex_morton1]

theorem ex_radixSort : radixSort [(⟨0, 251621366⟩ : ObjectInfo), ⟨1, 134217727⟩]
    = [⟨1, 134217727⟩, ⟨0, 251621366⟩] := by
  have hperm := radixSort_perm [(⟨0, 251621366⟩ : ObjectInfo), ⟨1, 134217727⟩]
  have hpair := radixSort_pairwise [(⟨0, 251621366⟩ : ObjectInfo), ⟨1, 134217727⟩] (by
    unfold mortonLexLe
    decide)
  rcases perm_pair_cases hperm with h | h
  · exfalso
    rw [h] at hpair
    have := (List.pairwise_cons.mp hpair).1 _ (List.mem_singleton.mpr rfl)
    unfold mortonLexLe at this
    revert this
    decide
  · exact h

theorem ex_topology : buildTopology [134217727, 251621366] 2 =
    some ([{ left := some (TempChild.leaf 0), right := some (TempChild.leaf 1),
             object_id := -1, aabb := ⟨0, 0, 0, 0, 0, 0⟩ }], [false]) := rfl

theorem ex_merge : BvhAABB.merge ⟨0, 0, 0, 2, 2, 2⟩ ⟨2, 0, 0, 2, 2, 2⟩
    = ⟨1, 0, 0, 3, 2, 2⟩ := by
  norm_num [BvhAABB.merge, min_def, max_def]

theorem ex_compute_internal : compute_internal
    [{ left := none, right := none, object_id := 1, aabb := ⟨0, 0, 0, 2, 2, 2⟩ },
     { left := none, right := none, object_id := 0, aabb := ⟨2, 0, 0, 2, 2, 2⟩ }] 3 0
    [{ left := some (TempChild.leaf 0), right := some (TempChild.leaf 1),
       object_id := -1, aabb := ⟨0, 0, 0, 0, 0, 0⟩ }] =
    some (⟨1, 0, 0, 3, 2, 2⟩,
      [{ left := some (TempChild.leaf 0), right := some (TempChild.leaf 1),
         object_id := -1, aabb := ⟨1, 0, 0, 3, 2, 2⟩ }]) := by
  rw [show compute_internal
    [{ left := none, right := none, object_id := 1, aabb := ⟨0, 0, 0, 2, 2, 2⟩ },
     { left := none, right := none, object_id := 0, aabb := ⟨2, 0, 0, 2, 2, 2⟩ }] 3 0
    [{ left := some (TempChild.leaf 0), right := some (TempChild.leaf 1),
       object_id := -1, aabb := ⟨0, 0, 0, 0, 0, 0⟩ }] =
    some (BvhAABB.merge ⟨0, 0, 0, 2, 2, 2⟩ ⟨2, 0, 0, 2, 2, 2⟩,
      [{ left := some (TempChild.leaf 0), right := some (TempChild.leaf 1),
         object_id := -1,
         aabb := BvhAABB.merge ⟨0, 0, 0, 2, 2, 2⟩ ⟨2, 0, 0, 2, 2, 2⟩ }]) from rfl,
    ex_merge]

theorem ex_arena : build_arena_node
    [{ left := some (TempChild.leaf 0), right := some (TempChild.leaf 1),
       object_id := -1, aabb := ⟨1, 0, 0, 3, 2, 2⟩ }]
    [{ left := none, right := none, object_id := 1, aabb := ⟨0, 0, 0, 2, 2, 2⟩ },
     { left := none, right := none, object_id := 0, aabb := ⟨2, 0, 0, 2, 2, 2⟩ }]
    3 (TempChild.internal 0) [] =
    some (0, [⟨1, 2, -1, ⟨1, 0, 0, 3, 2, 2⟩⟩, ⟨-1, -1, 1, ⟨0, 0, 0, 2, 2, 2⟩⟩,
      ⟨-1, -1, 0, ⟨2, 0, 0, 2, 2, 2⟩⟩]) := rfl

/-- The arena built from `exBoxes`: one internal root whose left leaf is
object 1 (smaller Morton key) and whose right leaf is object 0. -/
def exBVH : BVH :=
  ⟨10, [], [⟨1, 2, -1, ⟨1, 0, 0, 3, 2, 2⟩⟩, ⟨-1, -1, 1, ⟨0, 0, 0, 2, 2, 2⟩⟩,
    ⟨-1, -1, 0, ⟨2, 0, 0, 2, 2, 2⟩⟩], 0, none⟩

theorem ex_build : BVH.from_boxes exBoxes 10 = some exBVH := by
  rw [show exBoxes = [⟨⟨2, 0, 0⟩, ⟨2, 2, 2⟩⟩, ⟨⟨0, 0, 0⟩, ⟨2, 2, 2⟩⟩] from rfl]
  unfold BVH.from_boxes BVH.build
  simp [BVH.new, exBVH, ex_buildObjects, ex_radixSort, ex_topology,
    ex_compute_internal, ex_arena, findRootIdx, BvhAABB.from_bbox]

theorem ex_world_size : compute_world_size exBoxes = 10 := by
  norm_num [compute_world_size, exBoxes, min_def, max_def]

theorem ex_int_rr : BvhAABB.intersects ⟨1, 0, 0, 3, 2, 2⟩ ⟨1, 0, 0, 3, 2, 2⟩ = true := by
  norm_num [BvhAABB.intersects]

theorem ex_int_00 : BvhAABB.intersects ⟨2, 0, 0, 2, 2, 2⟩ ⟨2, 0, 0, 2, 2, 2⟩ = true := by
  norm_num [BvhAABB.intersects]

theorem ex_int_10 : BvhAABB.intersects ⟨0, 0, 0, 2, 2, 2⟩ ⟨2, 0, 0, 2, 2, 2⟩ = true := by
  norm_num [BvhAABB.intersects]

theorem ex_int_11 : BvhAABB.intersects ⟨0, 0, 0, 2, 2, 2⟩ ⟨0, 0, 0, 2, 2, 2⟩ = true := by
  norm_num [BvhAABB.intersects]

theorem ex_check_all : BVH.check_all_collisions exBVH exBoxes
    = some ([], [], 4) := by
  rw [show exBoxes = [⟨⟨2, 0, 0⟩, ⟨2, 2, 2⟩⟩, ⟨⟨0, 0, 0⟩, ⟨2, 2, 2⟩⟩] from rfl]
  simp [BVH.check_all_collisions, exBVH, checkAllLoop, ex_int_rr, ex_int_00, ex_int_10,
    ex_int_11, sortNat, List.enum, List.enumFrom]

theorem ex_brute : bruteForcePairs exBoxes = [(0, 1)] := by
  have hab : aabb_intersect ⟨⟨2, 0, 0⟩, ⟨2, 2, 2⟩⟩ ⟨⟨0, 0, 0⟩, ⟨2, 2, 2⟩⟩ = true := by
    norm_num [aabb_intersect]
  rw [show exBoxes = [⟨⟨2, 0, 0⟩, ⟨2, 2, 2⟩⟩, ⟨⟨0, 0, 0⟩, ⟨2, 2, 2⟩⟩] from rfl]
  simp [bruteForcePairs, List.range_succ, hab]

/-- C1 (code bug): on `exBoxes` — two overlapping boxes whose Morton order
inverts their ordinal order — `check_all_collisions` returns no pairs and
no touched ordinals (with 4 node-pair checks), while the brute-force
all-pairs scan of the same list finds the overlapping pair `(0, 1)`.  The
traversal visits each unordered leaf pair exactly once, in Morton order,
and the `i < j` filter silently drops every pair presented in descending
ordinal order. -/
theorem check_all_collisions_drops_pair_C1 :
    compute_world_size exBoxes = 10 ∧
    (BVH.from_boxes exBoxes 10).bind
      (fun bvh => bvh.check_all_collisions exBoxes) = some ([], [], 4) ∧
    bruteForcePairs exBoxes = [(0, 1)] := by
  refine ⟨ex_world_size, ?_, ex_brute⟩
  rw [ex_build]
  simpa using ex_check_all

/-! ## Claim C2: the empty `build_with_guids` keeps a stale arena -/

theorem c2_world_size : compute_world_size [⟨⟨0, 0, 0⟩, ⟨2, 2, 2⟩⟩] = 10 := by
  norm_num [compute_world_size, min_def, max_def]

theorem c2_buildObjects : buildObjects [(⟨⟨0, 0, 0⟩, ⟨2, 2, 2⟩⟩ : BoundingBox)] 10
    = [⟨0, 134217727⟩] := by
  simp [buildObjects, List.enum, List.enumFrom, ex_morton1]

/-- The index state after `build_with_guids` on one box and then
`build_with_guids` on the empty list: the GUID map is cleared but the
one-leaf arena and its root index survive. -/
def c2Stale : BVH := ⟨10, [], [⟨-1, -1, 0, ⟨0, 0, 0, 2, 2, 2⟩⟩], 0, none⟩

theorem c2_build1 : BVH.build_with_guids BVH.new [(⟨⟨0, 0, 0⟩, ⟨2, 2, 2⟩⟩, "g")]
    = some ⟨10, ["g"], [⟨-1, -1, 0, ⟨0, 0, 0, 2, 2, 2⟩⟩], 0, none⟩ := by
  unfold BVH.build_with_guids BVH.build
  simp [BVH.new, c2_world_size, c2_buildObjects, radixSort_single, BvhAABB.from_bbox]

theorem c2_build2 :
    BVH.build_with_guids ⟨10, ["g"], [⟨-1, -1, 0, ⟨0, 0, 0, 2, 2, 2⟩⟩], 0, none⟩ []
      = some c2Stale := rfl

theorem c2_check_all : BVH.check_all_collisions c2Stale [] = some ([], [], 1) := by
  simp [BVH.check_all_collisions, c2Stale, checkAllLoop, ex_int_11, sortNat,
    List.enum, List.enumFrom]

theorem c2_find : BVH.find_collisions c2Stale 0 ⟨⟨0, 0, 0⟩, ⟨2, 2, 2⟩⟩ []
    = some ([], 1) := by
  simp [BVH.find_collisions, c2Stale, findCollisionsLoop, BvhAABB.from_bbox, ex_int_11]

theorem c2_plain_build_clears : BVH.build c2Stale [] = some ⟨10, [], [], -1, none⟩ := rfl

/-- C2 (code bug): building one box through `build_with_guids` and then
calling `build_with_guids` with the empty object set leaves the previous
one-node arena and its root index `0` in place (only the GUID map and the
pointer root are cleared), so subsequent queries still traverse the stale
arena and report one check instead of zero; the plain `build` with an empty
set does clear the arena and reset the root to `-1`. -/
theorem build_with_guids_stale_arena_C2 :
    (BVH.build_with_guids BVH.new [(⟨⟨0, 0, 0⟩, ⟨2, 2, 2⟩⟩, "g")]).bind
      (fun s => s.build_with_guids []) = some c2Stale ∧
    c2Stale.arena_root = 0 ∧
    c2Stale.arena.length = 1 ∧
    BVH.check_all_collisions c2Stale [] = some ([], [], 1) ∧
    BVH.find_collisions c2Stale 0 ⟨⟨0, 0, 0⟩, ⟨2, 2, 2⟩⟩ [] = some ([], 1) ∧
    BVH.build c2Stale [] = some ⟨10, [], [], -1, none⟩ := by
  refine ⟨?_, rfl, rfl, c2_check_all, c2_find, c2_plain_build_clears⟩
  rw [c2_build1]
  simpa using c2_build2

/-! ## Claim C3: out-of-range query ordinals do not panic -/

/-- The `find_collisions` stack loop with the self-exclusion test dropped:
the behaviour C3's amended claim ascribes to an out-of-range ordinal. -/
def findCollisionsLoopNoSelf (arena : List FlatNode) (query_bbox : BoundingBox)
    (bounding_boxes : List BoundingBox) (query_aabb : BvhAABB) :
    ℕ → List ℤ → List ℕ → ℤ → Option (List ℕ × ℤ)
  | _, [], collisions, check_count => some (collisions, check_count)
  | 0, _ :: _, _, _ => none
  | fuel + 1, node_idx :: stack, collisions, check_count => do
    let check_count := check_count + 1
    let node ← arena.get? node_idx.toNat
    if ¬ (query_aabb.intersects node.aabb = true) then
      findCollisionsLoopNoSelf arena query_bbox bounding_boxes query_aabb
        fuel stack collisions check_count
    else if node.object_id ≥ 0 then
      let node_object_id := node.object_id.toNat
      let collisions :=
        if node_object_id < bounding_boxes.length ∧
            aabb_intersect query_bbox (bounding_boxes.getD node_object_id default) = true
        then collisions ++ [node_object_id] else collisions
      findCollisionsLoopNoSelf arena query_bbox bounding_boxes query_aabb
        fuel stack collisions check_count
    else
      findCollisionsLoopNoSelf arena query_bbox bounding_boxes query_aabb
        fuel ((if node.right ≥ 0 then [node.right] else []) ++
          (if node.left ≥ 0 then [node.left] else []) ++ stack) collisions check_count

/-- `find_collisions` without any self-exclusion: the reference behaviour
for an out-of-range query ordinal. -/
def BVH.find_collisions_no_self (self : BVH) (query_bbox : BoundingBox)
    (bounding_boxes : List BoundingBox) : Option (List ℕ × ℤ) :=
  if self.arena_root < 0 ∨ self.arena.isEmpty then some ([], 0)
  else
    findCollisionsLoopNoSelf self.arena query_bbox bounding_boxes
      (BvhAABB.from_bbox query_bbox) (self.arena.length + 1) [self.arena_root] [] 0

theorem findCollisionsLoop_no_self_eq (arena : List FlatNode) (object_id : ℕ)
    (query_bbox : BoundingBox) (bounding_boxes : List BoundingBox) (query_aabb : BvhAABB)
    (h : bounding_boxes.length ≤ object_id) :
    ∀ (fuel : ℕ) (stack : List ℤ) (collisions : List ℕ) (check_count : ℤ),
      findCollisionsLoop arena object_id query_bbox bounding_boxes query_aabb
          fuel stack collisions check_count
        = findCollisionsLoopNoSelf arena query_bbox bounding_boxes query_aabb
          fuel stack collisions check_count := by
  intro fuel
  induction fuel with
  | zero =>
    intro stack collisions check_count
    match stack with
    | [] => rfl
    | _ :: _ => rfl
  | succ f ih =>
    intro stack collisions check_count
    match stack with
    | [] => rfl
    | node_idx :: stack =>
      rcases hget : arena.get? node_idx.toNat with _ | node
      · rw [findCollisionsLoop, findCollisionsLoopNoSelf]
        simp only [hget, bind, Option.bind]
      · rw [findCollisionsLoop, findCollisionsLoopNoSelf]
        simp only [hget, bind, Option.bind]
        by_cases hint : query_aabb.intersects node.aabb = true
        · have hnot1 : ¬ ¬ (query_aabb.intersects node.aabb = true) := not_not_intro hint
          rw [if_neg hnot1, if_neg hnot1]
          by_cases hleaf : node.object_id ≥ 0
          · have hcond : (node.object_id.toNat ≠ object_id ∧
                node.object_id.toNat < bounding_boxes.length ∧
                aabb_intersect query_bbox
                  (bounding_boxes.getD node.object_id.toNat default) = true) ↔
                (node.object_id.toNat < bounding_boxes.length ∧
                aabb_intersect query_bbox
                  (bounding_boxes.getD node.object_id.toNat default) = true) := by
              constructor
              · exact fun hc => hc.2
              · exact fun hc => ⟨by omega, hc⟩
            rw [if_pos hleaf, if_pos hleaf, if_congr hcond rfl rfl]
            exact ih _ _ _
          · rw [if_neg hleaf, if_neg hleaf]
            exact ih _ _ _
        · rw [if_pos hint, if_pos hint]
          exact ih _ _ _

/-- The amended C3: for every index state, query box and box list, a query
ordinal that is not below the box count makes `find_collisions` behave
exactly like the self-exclusion-free query (no panic, no silent empty
result). -/
theorem find_collisions_out_of_range_C3 (self : BVH) (object_id : ℕ)
    (query_bbox : BoundingBox) (bounding_boxes : List BoundingBox)
    (h : bounding_boxes.length ≤ object_id) :
    self.find_collisions object_id query_bbox bounding_boxes
      = self.find_collisions_no_self query_bbox bounding_boxes := by
  unfold BVH.find_collisions BVH.find_collisions_no_self
  by_cases hroot : self.arena_root < 0 ∨ self.arena.isEmpty
  · rw [if_pos hroot, if_pos hroot]
  · rw [if_neg hroot, if_neg hroot]
    exact findCollisionsLoop_no_self_eq self.arena object_id query_bbox bounding_boxes
      (BvhAABB.from_bbox query_bbox) h _ _ _ _

/-- Witness for the amended C3 at a concrete input: a built two-box index
queried with the out-of-range ordinal 5. -/
theorem find_collisions_out_of_range_C3_witness :
    BVH.find_collisions exBVH 5 ⟨⟨2, 0, 0⟩, ⟨2, 2, 2⟩⟩ exBoxes
      = BVH.find_collisions_no_self exBVH ⟨⟨2, 0, 0⟩, ⟨2, 2, 2⟩⟩ exBoxes :=
  find_collisions_out_of_range_C3 exBVH 5 ⟨⟨2, 0, 0⟩, ⟨2, 2, 2⟩⟩ exBoxes
    (by norm_num [exBoxes])

theorem c3_int_q_root : BvhAABB.intersects ⟨2, 0, 0, 2, 2, 2⟩ ⟨1, 0, 0, 3, 2, 2⟩
    = true := by
  norm_num [BvhAABB.intersects]

theorem c3_int_q_leaf1 : BvhAABB.intersects ⟨2, 0, 0, 2, 2, 2⟩ ⟨0, 0, 0, 2, 2, 2⟩
    = true := by
  norm_num [BvhAABB.intersects]

theorem c3_box_self : aabb_intersect ⟨⟨2, 0, 0⟩, ⟨2, 2, 2⟩⟩ ⟨⟨2, 0, 0⟩, ⟨2, 2, 2⟩⟩
    = true := by
  norm_num [aabb_intersect]

theorem c3_box_01 : aabb_intersect ⟨⟨2, 0, 0⟩, ⟨2, 2, 2⟩⟩ ⟨⟨0, 0, 0⟩, ⟨2, 2, 2⟩⟩
    = true := by
  norm_num [aabb_intersect]

/-- C3 counterexample: the claim says an out-of-range ordinal is treated as
fatal (a panic), but on the built two-box index the query with ordinal 5
returns a perfectly ordinary result — both overlapping boxes, three node
checks — rather than failing (`none` models a panic in this embedding). -/
theorem find_collisions_out_of_range_no_panic_C3 :
    BVH.find_collisions exBVH 5 ⟨⟨2, 0, 0⟩, ⟨2, 2, 2⟩⟩ exBoxes = some ([0, 1], 3) := by
  rw [show exBoxes = [⟨⟨2, 0, 0⟩, ⟨2, 2, 2⟩⟩, ⟨⟨0, 0, 0⟩, ⟨2, 2, 2⟩⟩] from rfl]
  simp [BVH.find_collisions, exBVH, findCollisionsLoop, BvhAABB.from_bbox,
    c3_int_q_root, c3_int_q_leaf1, ex_int_00, c3_box_self, c3_box_01]

/-! ## Claim C5: coherence of the stored internal AABBs -/

/-- The AABB stored for a temp child: a leaf's own box or the `aabb` field
currently stored for an internal node. -/
def childStored (internals leaves : List TempNode) : TempChild → BvhAABB
  | .leaf li => (leaves.getD li default).aabb
  | .internal ii => (internals.getD ii default).aabb

/-- Two internal-node arrays with identical topology (only the `aabb`
fields may differ). -/
def sameShape (a b : List TempNode) : Prop :=
  ∀ jj : ℕ, (a.get? jj).map (fun n => (n.left, n.right, n.object_id))
    = (b.get? jj).map (fun n => (n.left, n.right, n.object_id))

theorem sameShape_refl (a : List TempNode) : sameShape a a := fun _ => rfl

theorem sameShape_trans {a b c : List TempNode} (h1 : sameShape a b) (h2 : sameShape b c) :
    sameShape a c := fun jj => (h1 jj).trans (h2 jj)

theorem sameShape_symm {a b : List TempNode} (h : sameShape a b) : sameShape b a :=
  fun jj => (h jj).symm

/-- Coherence of the stored AABBs on the subtree of `ch`, to depth `g`:
every internal node on it stores the merge of its children's stored
boxes. -/
def StoredOK (internals leaves : List TempNode) : ℕ → TempChild → Prop
  | 0, _ => False
  | _g + 1, .leaf li => li < leaves.length
  | g + 1, .internal ii => ∃ node lc rc, internals.get? ii = some node ∧
      node.left = some lc ∧ node.right = some rc ∧
      StoredOK internals leaves g lc ∧ StoredOK internals leaves g rc ∧
      node.aabb = BvhAABB.merge (childStored internals leaves lc)
        (childStored internals leaves rc)

/-- Existentially fuelled coherence. -/
def SOK (internals leaves : List TempNode) (ch : TempChild) : Prop :=
  ∃ g, StoredOK internals leaves g ch

theorem storedOK_mono (internals leaves : List TempNode) :
    ∀ g g' ch, g ≤ g' → StoredOK internals leaves g ch → StoredOK internals leaves g' ch := by
  intro g
  induction g with
  | zero => intro g' ch _ h; exact absurd h (by simp [StoredOK])
  | succ g ih =>
    intro g' ch hle h
    obtain ⟨g'', rfl⟩ : ∃ k, g' = k + 1 := ⟨g' - 1, by omega⟩
    match ch with
    | .leaf li => exact h
    | .internal ii =>
      obtain ⟨node, lc, rc, hget, hl, hr, hsl, hsr, hab⟩ := h
      exact ⟨node, lc, rc, hget, hl, hr, ih g'' lc (by omega) hsl, ih g'' rc (by omega) hsr, hab⟩

theorem sok_internal_elim {internals leaves : List TempNode} {ii : ℕ}
    (h : SOK internals leaves (.internal ii)) :
    ∃ node lc rc, internals.get? ii = some node ∧ node.left = some lc ∧
      node.right = some rc ∧ SOK internals leaves lc ∧ SOK internals leaves rc ∧
      node.aabb = BvhAABB.merge (childStored internals leaves lc)
        (childStored internals leaves rc) := by
  obtain ⟨g, hg⟩ := h
  match g, hg with
  | g + 1, ⟨node, lc, rc, hget, hl, hr, hsl, hsr, hab⟩ =>
    exact ⟨node, lc, rc, hget, hl, hr, ⟨g, hsl⟩, ⟨g, hsr⟩, hab⟩

theorem sok_internal_intro {internals leaves : List TempNode} {ii : ℕ}
    {node : TempNode} {lc rc : TempChild}
    (hget : internals.get? ii = some node) (hl : node.left = some lc)
    (hr : node.right = some rc) (hsl : SOK internals leaves lc)
    (hsr : SOK internals leaves rc)
    (hab : node.aabb = BvhAABB.merge (childStored internals leaves lc)
      (childStored internals leaves rc)) :
    SOK internals leaves (.internal ii) := by
  obtain ⟨gl, hgl⟩ := hsl
  obtain ⟨gr, hgr⟩ := hsr
  exact ⟨max gl gr + 1, node, lc, rc, hget, hl, hr,
    storedOK_mono _ _ gl (max gl gr) lc (le_max_left _ _) hgl,
    storedOK_mono _ _ gr (max gl gr) rc (le_max_right _ _) hgr, hab⟩

/-- Coherent stored values are unique: they are determined by the topology
and the leaves. -/
theorem childStored_unique (leaves : List TempNode) :
    ∀ g (a b : List TempNode) (ch : TempChild) (g' : ℕ), sameShape a b →
      StoredOK a leaves g ch → StoredOK b leaves g' ch →
      childStored a leaves ch = childStored b leaves ch := by
  intro g
  induction g with
  | zero => intro a b ch g' _ h; exact absurd h (by simp [StoredOK])
  | succ g ih =>
    intro a b ch g' hsh ha hb
    match ch with
    | .leaf li => rfl
    | .internal ii =>
      obtain ⟨g'', rfl⟩ : ∃ k, g' = k + 1 := by
        match g', hb with
        | k + 1, _ => exact ⟨k, rfl⟩
      obtain ⟨na, lca, rca, hgeta, hla, hra, hsla, hsra, haba⟩ := ha
      obtain ⟨nb, lcb, rcb, hgetb, hlb, hrb, hslb, hsrb, habb⟩ := hb
      have hshape := hsh ii
      rw [hgeta, hgetb] at hshape
      have hshape' : (na.left, na.right, na.object_id) = (nb.left, nb.right, nb.object_id) := by
        simpa using hshape
      have hlc : lca = lcb := by
        have h1 : na.left = nb.left := congrArg Prod.fst hshape'
        rw [hla, hlb] at h1
        exact Option.some_injective _ h1
      have hrc : rca = rcb := by
        have h1 : na.right = nb.right := congrArg (fun p => p.2.1) hshape'
        rw [hra, hrb] at h1
        exact Option.some_injective _ h1
      subst hlc
      subst hrc
      have el := ih a b lca g'' hsh hsla hslb
      have er := ih a b rca g'' hsh hsra hsrb
      show (a.getD ii default).aabb = (b.getD ii default).aabb
      rw [List.getD_eq_getElem?_getD, List.getD_eq_getElem?_getD,
        ← List.get?_eq_getElem?, ← List.get?_eq_getElem?, hgeta, hgetb]
      simp only [Option.getD_some]
      rw [haba, habb, el, er]

theorem list_get?_lt {α : Type _} {l : List α} {n : ℕ} {a : α} (h : l.get? n = some a) :
    n < l.length := by
  rw [List.get?_eq_getElem?] at h
  exact (List.getElem?_eq_some_iff.mp h).1

theorem list_get?_mem {α : Type _} {l : List α} {n : ℕ} {a : α} (h : l.get? n = some a) :
    a ∈ l := by
  rw [List.get?_eq_getElem?] at h
  exact List.getElem?_mem h

theorem list_getD_of_get? {α : Type _} {l : List α} {n : ℕ} {a : α} (d : α)
    (h : l.get? n = some a) : l.getD n d = a := by
  rw [List.getD_eq_getElem?_getD, ← List.get?_eq_getElem?, h]
  rfl

theorem list_get?_set_self {α : Type _} (l : List α) (i : ℕ) (v : α) (h : i < l.length) :
    (l.set i v).get? i = some v := by
  rw [List.get?_eq_getElem?, List.getElem?_set_self]
  simpa using h

theorem list_get?_set_ne {α : Type _} (l : List α) (i j : ℕ) (v : α) (h : i ≠ j) :
    (l.set i v).get? j = l.get? j := by
  rw [List.get?_eq_getElem?, List.get?_eq_getElem?, List.getElem?_set_ne h]

theorem list_getD_set_ne {α : Type _} (l : List α) (i j : ℕ) (v d : α) (h : i ≠ j) :
    (l.set i v).getD j d = l.getD j d := by
  rw [List.getD_eq_getElem?_getD, List.getD_eq_getElem?_getD, List.getElem?_set_ne h]

theorem list_getD_set_self {α : Type _} (l : List α) (i : ℕ) (v d : α) (h : i < l.length) :
    (l.set i v).getD i d = v := by
  rw [List.getD_eq_getElem?_getD, List.getElem?_set_self (by simpa using h)]
  rfl

theorem list_get?_append {α : Type _} (l1 l2 : List α) (k : ℕ) (h : k < l1.length) :
    (l1 ++ l2).get? k = l1.get? k := by
  rw [List.get?_eq_getElem?, List.get?_eq_getElem?, List.getElem?_append, if_pos h]

theorem list_get?_concat_length {α : Type _} (l : List α) (a : α) :
    (l ++ [a]).get? l.length = some a := by
  rw [List.get?_eq_getElem?, List.getElem?_concat_length]

/-- Overwriting a node's `aabb` field preserves the topology. -/
theorem sameShape_set (a : List TempNode) (idxv : ℕ) (cur : TempNode) (v : BvhAABB)
    (h : a.get? idxv = some cur) : sameShape a (a.set idxv { cur with aabb := v }) := by
  intro jj
  by_cases hj : idxv = jj
  · subst hj
    rw [list_get?_set_self _ _ _ (list_get?_lt h), h]
    rfl
  · rw [list_get?_set_ne _ _ _ _ hj]

theorem childStored_unique_sok {leaves a b : List TempNode} {ch : TempChild}
    (hsh : sameShape a b) (ha : SOK a leaves ch) (hb : SOK b leaves ch) :
    childStored a leaves ch = childStored b leaves ch := by
  obtain ⟨g, hg⟩ := ha
  obtain ⟨g', hg'⟩ := hb
  exact childStored_unique leaves g a b ch g' hsh hg hg'

/-- Coherence transfers to a new state when every changed slot is itself
coherent in the new state. -/
theorem storedOK_transfer (leaves : List TempNode) :
    ∀ g (a b : List TempNode) (ch : TempChild), sameShape a b →
      (∀ jj : ℕ, a.get? jj ≠ b.get? jj → SOK b leaves (.internal jj)) →
      StoredOK a leaves g ch → SOK b leaves ch := by
  intro g
  induction g with
  | zero => intro a b ch _ _ h; exact absurd h (by simp [StoredOK])
  | succ g ih =>
    intro a b ch hsh hdiff h
    match ch with
    | .leaf li => exact ⟨1, h⟩
    | .internal ii =>
      obtain ⟨node, lc, rc, hget, hl, hr, hsl, hsr, hab⟩ := h
      have hbl : SOK b leaves lc := ih a b lc hsh hdiff hsl
      have hbr : SOK b leaves rc := ih a b rc hsh hdiff hsr
      by_cases heq : a.get? ii = b.get? ii
      · have hgetb : b.get? ii = some node := heq ▸ hget
        refine sok_internal_intro hgetb hl hr hbl hbr ?_
        rw [hab, childStored_unique_sok hsh ⟨g, hsl⟩ hbl,
          childStored_unique_sok hsh ⟨g, hsr⟩ hbr]
      · exact hdiff ii heq

/-- Writing a slot that lies in no coherent region preserves every coherent
region at the same fuel. -/
theorem storedOK_set_untouched (leaves a : List TempNode) (idxv : ℕ) (nd : TempNode)
    (hno : ¬ SOK a leaves (.internal idxv)) :
    ∀ g ch, StoredOK a leaves g ch → StoredOK (a.set idxv nd) leaves g ch := by
  intro g
  induction g with
  | zero => intro ch h; exact absurd h (by simp [StoredOK])
  | succ g ih =>
    intro ch h
    match ch with
    | .leaf li => exact h
    | .internal ii =>
      obtain ⟨node, lc, rc, hget, hl, hr, hsl, hsr, hab⟩ := h
      have hii : ii ≠ idxv := fun hc =>
        hno (hc ▸ ⟨g + 1, node, lc, rc, hget, hl, hr, hsl, hsr, hab⟩)
      have hcs : ∀ c, StoredOK a leaves g c →
          childStored (a.set idxv nd) leaves c = childStored a leaves c := by
        intro c hc
        match c with
        | .leaf li => rfl
        | .internal jj =>
          have hjj : jj ≠ idxv := fun hcq => hno (hcq ▸ ⟨g, hc⟩)
          show ((a.set idxv nd).getD jj default).aabb = (a.getD jj default).aabb
          rw [list_getD_set_ne _ _ _ _ _ (fun q => hjj q.symm)]
      refine ⟨node, lc, rc, ?_, hl, hr, ih lc hsl, ih rc hsr, ?_⟩
      · rw [list_get?_set_ne _ _ _ _ (fun hc => hii hc.symm)]
        exact hget
      · rw [hcs lc hsl, hcs rc hsr]
        exact hab

theorem list_set_of_get? {α : Type _} {l : List α} {i : ℕ} {v : α} (h : l.get? i = some v) :
    l.set i v = l := by
  apply List.ext_getElem?
  intro j
  by_cases hj : i = j
  · subst hj
    rw [List.getElem?_set_self (list_get?_lt h), ← List.get?_eq_getElem?, h]
  · rw [List.getElem?_set_ne hj]

theorem sameShape_fields {a b : List TempNode} (hsh : sameShape a b) {ii : ℕ} {na nb : TempNode}
    (ha : a.get? ii = some na) (hb : b.get? ii = some nb) :
    na.left = nb.left ∧ na.right = nb.right ∧ na.object_id = nb.object_id := by
  have h := hsh ii
  rw [ha, hb] at h
  have h' : (na.left, na.right, na.object_id) = (nb.left, nb.right, nb.object_id) := by
    simpa using h
  exact ⟨congrArg Prod.fst h', congrArg (fun p => p.2.1) h', congrArg (fun p => p.2.2) h'⟩

/-- The final write of `compute_internal` keeps every prior coherent region
coherent and makes the written node's region coherent. -/
theorem compute_internal_sok_tail (leaves : List TempNode) {s0 s1 s2 : List TempNode}
    {idx : ℕ} {node cur : TempNode} {lc rc : TempChild} {a b : BvhAABB}
    (hget : s0.get? idx = some node) (hl : node.left = some lc) (hr : node.right = some rc)
    (s01 : sameShape s0 s1) (t01 : ∀ c, SOK s0 leaves c → SOK s1 leaves c)
    (sok1 : SOK s1 leaves lc) (ha1 : a = childStored s1 leaves lc)
    (s12 : sameShape s1 s2) (t12 : ∀ c, SOK s1 leaves c → SOK s2 leaves c)
    (sok2 : SOK s2 leaves rc) (hb2 : b = childStored s2 leaves rc)
    (hcur : s2.get? idx = some cur) :
    sameShape s0 (s2.set idx { cur with aabb := BvhAABB.merge a b }) ∧
    (∀ c, SOK s0 leaves c → SOK (s2.set idx { cur with aabb := BvhAABB.merge a b }) leaves c) ∧
    SOK (s2.set idx { cur with aabb := BvhAABB.merge a b }) leaves (.internal idx) ∧
    BvhAABB.merge a b =
      childStored (s2.set idx { cur with aabb := BvhAABB.merge a b }) leaves (.internal idx) := by
  have hlen : idx < s2.length := list_get?_lt hcur
  have s02 := sameShape_trans s01 s12
  have hfields := sameShape_fields s02 hget hcur
  have hcl : cur.left = some lc := hfields.1 ▸ hl
  have hcr : cur.right = some rc := hfields.2.1 ▸ hr
  have sokL2 : SOK s2 leaves lc := t12 lc sok1
  have ha2 : a = childStored s2 leaves lc :=
    ha1.trans (childStored_unique_sok s12 sok1 sokL2)
  by_cases hE : cur.aabb = BvhAABB.merge a b
  · have hnd : ({ cur with aabb := BvhAABB.merge a b } : TempNode) = cur := by
      rw [← hE]
    have hset : s2.set idx { cur with aabb := BvhAABB.merge a b } = s2 := by
      rw [hnd]
      exact list_set_of_get? hcur
    rw [hset]
    refine ⟨s02, fun c hc => t12 c (t01 c hc), ?_, ?_⟩
    · exact sok_internal_intro hcur hcl hcr sokL2 sok2 (by rw [hE, ha2, hb2])
    · show BvhAABB.merge a b = (s2.getD idx default).aabb
      rw [list_getD_of_get? _ hcur, hE]
  · obtain ⟨nd, hnd⟩ : ∃ nd : TempNode,
        ({ cur with aabb := BvhAABB.merge a b } : TempNode) = nd := ⟨_, rfl⟩
    rw [hnd]
    have hndl : nd.left = cur.left := by rw [← hnd]
    have hndr : nd.right = cur.right := by rw [← hnd]
    have hnda : nd.aabb = BvhAABB.merge a b := by rw [← hnd]
    have hnoSok : ¬ SOK s2 leaves (.internal idx) := by
      intro hs
      obtain ⟨node', lc', rc', hget', hl', hr', _, _, hab'⟩ := sok_internal_elim hs
      rw [hcur] at hget'
      injection hget' with hnode'
      subst hnode'
      rw [hcl] at hl'
      injection hl' with e1
      subst e1
      rw [hcr] at hr'
      injection hr' with e2
      subst e2
      exact hE (by rw [hab', ← ha2, ← hb2])
    have hunt := storedOK_set_untouched leaves s2 idx nd hnoSok
    have tset : ∀ c, SOK s2 leaves c → SOK (s2.set idx nd) leaves c :=
      fun c hc => hc.elim (fun g hg => ⟨g, hunt g c hg⟩)
    have s2' : sameShape s2 (s2.set idx nd) := by
      rw [← hnd]
      exact sameShape_set s2 idx cur _ hcur
    have sokL' := tset lc sokL2
    have sokR' := tset rc sok2
    have hget' : (s2.set idx nd).get? idx = some nd := list_get?_set_self _ _ _ hlen
    have hsok' : SOK (s2.set idx nd) leaves (.internal idx) := by
      refine sok_internal_intro hget' (hndl.trans hcl) (hndr.trans hcr) sokL' sokR' ?_
      rw [hnda, ha2, hb2, childStored_unique_sok s2' sokL2 sokL',
        childStored_unique_sok s2' sok2 sokR']
    refine ⟨sameShape_trans s02 s2', ?_, hsok', ?_⟩
    · intro c hc
      obtain ⟨g, hg⟩ := t12 c (t01 c hc)
      refine storedOK_transfer leaves g s2 _ c s2' ?_ hg
      intro jj hdiff
      by_cases hj : jj = idx
      · subst hj
        exact hsok'
      · exact absurd (list_get?_set_ne s2 idx jj _ (fun q => hj q.symm)).symm hdiff
    · show BvhAABB.merge a b = ((s2.set idx nd).getD idx default).aabb
      rw [list_getD_set_self _ _ _ _ hlen, hnda]

/-- The final stage of one `compute_internal` step: merge, re-fetch and
write back. -/
def ciTail (idx : ℕ) (a : BvhAABB) (z : BvhAABB × List TempNode) :
    Option (BvhAABB × List TempNode) :=
  (z.2.get? idx).bind fun cur =>
  some (BvhAABB.merge a z.1, z.2.set idx { cur with aabb := BvhAABB.merge a z.1 })

/-- The right-child stage of one `compute_internal` step. -/
def ciRight (leaves : List TempNode) (fuel idx : ℕ) (rc : TempChild)
    (y : BvhAABB × List TempNode) : Option (BvhAABB × List TempNode) :=
  match rc with
  | TempChild.leaf ri => (leaves.get? ri).bind fun rn => ciTail idx y.1 (rn.aabb, y.2)
  | TempChild.internal ri =>
      (compute_internal leaves fuel ri y.2).bind fun z => ciTail idx y.1 z

/-- The successor-fuel unfolding of `compute_internal` as a chain of
`Option.bind`s. -/
theorem compute_internal_succ (leaves : List TempNode) (fuel idx : ℕ) (ints : List TempNode) :
    compute_internal leaves (fuel + 1) idx ints =
      (ints.get? idx).bind fun node =>
      node.left.bind fun lc =>
      node.right.bind fun rc =>
      match lc with
      | TempChild.leaf li =>
          (leaves.get? li).bind fun ln => ciRight leaves fuel idx rc (ln.aabb, ints)
      | TempChild.internal ii =>
          (compute_internal leaves fuel ii ints).bind fun y =>
          ciRight leaves fuel idx rc y := by
  simp only [compute_internal]
  apply congrArg
  funext node
  apply congrArg
  funext lc
  apply congrArg
  funext rc
  rcases lc with li | ii <;> rcases rc with ri | ri <;> rfl

/-- `compute_internal` preserves the topology and prior coherent regions,
and returns the (now coherent) stored value of the node it was called on. -/
theorem compute_internal_sok (leaves : List TempNode) :
    ∀ fuel idx ints m ints', compute_internal leaves fuel idx ints = some (m, ints') →
      sameShape ints ints' ∧ (∀ c, SOK ints leaves c → SOK ints' leaves c) ∧
      SOK ints' leaves (.internal idx) ∧ m = childStored ints' leaves (.internal idx) := by
  intro fuel
  induction fuel with
  | zero => intro idx ints m ints' h; exact absurd h (by simp [compute_internal])
  | succ fuel ih =>
    intro idx ints m ints' h
    rw [compute_internal_succ] at h
    simp only [Option.bind_eq_some] at h
    obtain ⟨node, hget, lc, hl, rc, hr, h⟩ := h
    have HL : ∃ a s1, ciRight leaves fuel idx rc (a, s1) = some (m, ints') ∧
        sameShape ints s1 ∧ (∀ c, SOK ints leaves c → SOK s1 leaves c) ∧
        SOK s1 leaves lc ∧ a = childStored s1 leaves lc := by
      cases lc with
      | leaf li =>
        simp only [Option.bind_eq_some] at h
        obtain ⟨ln, hln, hR⟩ := h
        refine ⟨ln.aabb, ints, hR, sameShape_refl ints, fun c hc => hc,
          ⟨1, list_get?_lt hln⟩, ?_⟩
        show ln.aabb = (leaves.getD li default).aabb
        rw [list_getD_of_get? _ hln]
      | internal ii =>
        simp only [Option.bind_eq_some] at h
        obtain ⟨⟨a, s1⟩, hp, hR⟩ := h
        obtain ⟨hs, ht, hsok, ha⟩ := ih ii ints a s1 hp
        exact ⟨a, s1, hR, hs, ht, hsok, ha⟩
    obtain ⟨a, s1, hR, s01, t01, sok1, ha1⟩ := HL
    have HR : ∃ b s2, ciTail idx a (b, s2) = some (m, ints') ∧
        sameShape s1 s2 ∧ (∀ c, SOK s1 leaves c → SOK s2 leaves c) ∧
        SOK s2 leaves rc ∧ b = childStored s2 leaves rc := by
      cases rc with
      | leaf ri =>
        simp only [ciRight, Option.bind_eq_some] at hR
        obtain ⟨rn, hrn, hT⟩ := hR
        refine ⟨rn.aabb, s1, hT, sameShape_refl s1, fun c hc => hc,
          ⟨1, list_get?_lt hrn⟩, ?_⟩
        show rn.aabb = (leaves.getD ri default).aabb
        rw [list_getD_of_get? _ hrn]
      | internal ri =>
        simp only [ciRight, Option.bind_eq_some] at hR
        obtain ⟨⟨b, s2⟩, hq, hT⟩ := hR
        obtain ⟨hs, ht, hsok, hb⟩ := ih ri s1 b s2 hq
        exact ⟨b, s2, hT, hs, ht, hsok, hb⟩
    obtain ⟨b, s2, hT, s12, t12, sok2, hb2⟩ := HR
    simp only [ciTail, Option.bind_eq_some, Option.some.injEq, Prod.mk.injEq] at hT
    obtain ⟨cur, hcur, hm, hs⟩ := hT
    subst hm
    subst hs
    exact compute_internal_sok_tail leaves hget hl hr s01 t01 sok1 ha1
      s12 t12 sok2 hb2 hcur

theorem list_get?_eq_getD {α : Type _} (l : List α) (n : ℕ) (d : α) (h : n < l.length) :
    l.get? n = some (l.getD n d) := by
  rw [List.get?_eq_getElem?, List.getElem?_eq_getElem h, List.getD_eq_getElem?_getD,
    List.getElem?_eq_getElem h]
  rfl

/-- Well-formedness of one arena slot: an internal node points strictly
forward at two in-bounds children and stores the merge of their boxes. -/
def WFAt (arena : List FlatNode) (p : ℕ) : Prop :=
  ∀ node, arena.get? p = some node → node.object_id < 0 →
    (p : ℤ) < node.left ∧ (p : ℤ) < node.right ∧
    node.left.toNat < arena.length ∧ node.right.toNat < arena.length ∧
    node.aabb = BvhAABB.merge ((arena.getD node.left.toNat default).aabb)
      ((arena.getD node.right.toNat default).aabb)

/-- `WFAt` is preserved by any extension that keeps the slots from `lo` on
unchanged. -/
theorem WFAt_mono (a1 a2 : List FlatNode) (lo p : ℕ) (hlen : a1.length ≤ a2.length)
    (hagree : ∀ k, lo ≤ k → k < a1.length → a2.get? k = a1.get? k)
    (hlo : lo ≤ p) (hp : p < a1.length) (h : WFAt a1 p) : WFAt a2 p := by
  intro node hget hoid
  rw [hagree p hlo hp] at hget
  obtain ⟨h1, h2, h3, h4, h5⟩ := h node hget hoid
  have hlt : p < node.left.toNat := by omega
  have hrt : p < node.right.toNat := by omega
  have e1 : a2.getD node.left.toNat default = a1.getD node.left.toNat default := by
    rw [List.getD_eq_getElem?_getD, List.getD_eq_getElem?_getD, ← List.get?_eq_getElem?,
      ← List.get?_eq_getElem?, hagree _ (by omega) h3]
  have e2 : a2.getD node.right.toNat default = a1.getD node.right.toNat default := by
    rw [List.getD_eq_getElem?_getD, List.getD_eq_getElem?_getD, ← List.get?_eq_getElem?,
      ← List.get?_eq_getElem?, hagree _ (by omega) h4]
  exact ⟨h1, h2, lt_of_lt_of_le h3 hlen, lt_of_lt_of_le h4 hlen, by rw [h5, e1, e2]⟩

/-- The successor-fuel unfolding of `build_arena_node` on a leaf child. -/
theorem build_arena_node_leaf (internals leaves : List TempNode) (fuel li : ℕ)
    (arena : List FlatNode) :
    build_arena_node internals leaves (fuel + 1) (.leaf li) arena =
      (leaves.get? li).bind fun ln =>
      some ((arena.length : ℤ),
        arena ++ [{ left := -1, right := -1, object_id := ln.object_id, aabb := ln.aabb }]) := by
  simp only [build_arena_node]
  rfl

/-- The successor-fuel unfolding of `build_arena_node` on an internal
child, as a chain of `Option.bind`s. -/
theorem build_arena_node_internal (internals leaves : List TempNode) (fuel ii : ℕ)
    (arena : List FlatNode) :
    build_arena_node internals leaves (fuel + 1) (.internal ii) arena =
      (internals.get? ii).bind fun node =>
      node.left.bind fun lc =>
      node.right.bind fun rc =>
      (build_arena_node internals leaves fuel lc
        (arena ++ [{ left := -1, right := -1, object_id := -1, aabb := node.aabb }])).bind
          fun pl =>
      (build_arena_node internals leaves fuel rc pl.2).bind fun pr =>
      (pr.2.get? ((arena.length : ℤ)).toNat).bind fun cur =>
      some (((arena.length : ℤ)),
        pr.2.set ((arena.length : ℤ)).toNat { cur with left := pl.1, right := pr.1 }) := by
  simp only [build_arena_node]
  rfl

/-- Main invariant of the arena flattening: each call appends its subtree
after the existing prefix, leaves the prefix untouched, stores the
(coherent) subtree box at its root slot, and every appended slot is
well-formed. -/
theorem build_arena_node_wf (internals leaves : List TempNode)
    (hleaf : ∀ ln ∈ leaves, 0 ≤ ln.object_id) :
    ∀ fuel ch arena idx arena',
      build_arena_node internals leaves fuel ch arena = some (idx, arena') →
      SOK internals leaves ch →
      idx = (arena.length : ℤ) ∧ arena.length < arena'.length ∧
      (∀ k, k < arena.length → arena'.get? k = arena.get? k) ∧
      (∀ nd, arena'.get? arena.length = some nd →
        nd.aabb = childStored internals leaves ch) ∧
      (∀ p, arena.length ≤ p → p < arena'.length → WFAt arena' p) := by
  intro fuel
  induction fuel with
  | zero => intro ch arena idx arena' h _; exact absurd h (by simp [build_arena_node])
  | succ fuel ih =>
    intro ch arena idx arena' h hsok
    cases ch with
    | leaf li =>
      rw [build_arena_node_leaf] at h
      simp only [Option.bind_eq_some, Option.some.injEq, Prod.mk.injEq] at h
      obtain ⟨ln, hln, hidx, harena⟩ := h
      subst hidx
      subst harena
      refine ⟨rfl, by simp, fun k hk => list_get?_append _ _ _ hk, ?_, ?_⟩
      · intro nd hnd
        rw [list_get?_concat_length] at hnd
        injection hnd with e
        subst e
        show ln.aabb = (leaves.getD li default).aabb
        rw [list_getD_of_get? _ hln]
      · intro p hp1 hp2
        simp only [List.length_append, List.length_cons, List.length_nil] at hp2
        have hpe : p = arena.length := by omega
        subst hpe
        intro nd hnd hoid
        rw [list_get?_concat_length] at hnd
        injection hnd with e
        subst e
        exact absurd (hleaf ln (list_get?_mem hln)) (by simpa using hoid)
    | internal ii =>
      obtain ⟨node, lc, rc, hget, hl, hr, sokL, sokR, hab⟩ := sok_internal_elim hsok
      rw [build_arena_node_internal] at h
      simp only [Option.bind_eq_some, Option.some.injEq, Prod.mk.injEq] at h
      obtain ⟨node', hget', lc', hl', rc', hr', ⟨liv, a1⟩, hrecL, ⟨riv, a2⟩, hrecR,
        cur, hcur, hidx, harena⟩ := h
      dsimp only at hrecL hrecR hcur harena
      rw [hget] at hget'
      injection hget' with e
      subst e
      rw [hl] at hl'
      injection hl' with e
      subst e
      rw [hr] at hr'
      injection hr' with e
      subst e
      rw [Int.toNat_natCast] at hcur harena
      subst hidx
      subst harena
      obtain ⟨hidxL, hlenL, agreeL, rootL, wfL⟩ := ih lc _ liv a1 hrecL sokL
      obtain ⟨hidxR, hlenR, agreeR, rootR, wfR⟩ := ih rc a1 riv a2 hrecR sokR
      have hAR : (arena ++
          [({ left := -1, right := -1, object_id := -1, aabb := node.aabb } : FlatNode)]).length =
          arena.length + 1 := by simp
      rw [hAR] at hidxL hlenL agreeL rootL wfL
      have hA1 : arena.length + 1 < a1.length := hlenL
      have hA2 : a1.length < a2.length := hlenR
      have hAcur : arena.length < a2.length := by omega
      -- the reserved slot is still the freshly appended node when re-fetched
      have hcurval : cur =
          ({ left := -1, right := -1, object_id := -1, aabb := node.aabb } : FlatNode) := by
        have e1 : a2.get? arena.length = a1.get? arena.length := agreeR _ (by omega)
        have e2 : a1.get? arena.length = some
            ({ left := -1, right := -1, object_id := -1, aabb := node.aabb } : FlatNode) := by
          rw [agreeL _ (by omega), list_get?_concat_length]
        rw [e1, e2] at hcur
        injection hcur with e
        exact e.symm
      have hlenS : (a2.set arena.length { cur with left := liv, right := riv }).length =
          a2.length := by rw [List.length_set]
      -- `get?` on the final arena
      have hgetS_ne : ∀ k, k ≠ arena.length →
          (a2.set arena.length { cur with left := liv, right := riv }).get? k = a2.get? k :=
        fun k hk => list_get?_set_ne _ _ _ _ (fun q => hk q.symm)
      have hgetS_self : (a2.set arena.length { cur with left := liv, right := riv }).get?
          arena.length = some { cur with left := liv, right := riv } :=
        list_get?_set_self _ _ _ hAcur
      -- boxes stored at the two child root slots
      have hrootL : (a1.getD (arena.length + 1) default).aabb =
          childStored internals leaves lc :=
        rootL _ (list_get?_eq_getD _ _ _ (by omega))
      have hrootR : (a2.getD a1.length default).aabb = childStored internals leaves rc :=
        rootR _ (list_get?_eq_getD _ _ _ (by omega))
      have hgetDL : (a2.set arena.length { cur with left := liv, right := riv }).getD
          (arena.length + 1) default = a1.getD (arena.length + 1) default := by
        rw [list_getD_set_ne _ _ _ _ _ (by omega)]
        rw [List.getD_eq_getElem?_getD, List.getD_eq_getElem?_getD, ← List.get?_eq_getElem?,
          ← List.get?_eq_getElem?, agreeR _ (by omega)]
      have hgetDR : (a2.set arena.length { cur with left := liv, right := riv }).getD
          a1.length default = a2.getD a1.length default := by
        rw [list_getD_set_ne _ _ _ _ _ (by omega)]
      refine ⟨rfl, by rw [hlenS]; omega, ?_, ?_, ?_⟩
      · intro k hk
        rw [hgetS_ne k (by omega), agreeR _ (by omega), agreeL _ (by omega),
          list_get?_append _ _ _ hk]
      · intro nd hnd
        rw [hgetS_self] at hnd
        injection hnd with e
        subst e
        show cur.aabb = (internals.getD ii default).aabb
        rw [hcurval, list_getD_of_get? _ hget]
      · intro p hp1 hp2
        rw [hlenS] at hp2
        rcases lt_trichotomy p (arena.length + 1) with hp | hp | hp
        · -- the root slot itself
          have hpe : p = arena.length := by omega
          subst hpe
          intro nd hnd _
          rw [hgetS_self] at hnd
          injection hnd with e
          subst e
          have hliv : liv = ((arena.length + 1 : ℕ) : ℤ) := hidxL
          have hriv : riv = ((a1.length : ℕ) : ℤ) := hidxR
          have hlt : liv.toNat = arena.length + 1 := by
            rw [hliv, Int.toNat_natCast]
          have hrt : riv.toNat = a1.length := by
            rw [hriv, Int.toNat_natCast]
          refine ⟨?_, ?_, ?_, ?_, ?_⟩
          · show (arena.length : ℤ) < liv
            rw [hliv]
            exact_mod_cast Nat.lt_succ_self arena.length
          · show (arena.length : ℤ) < riv
            rw [hriv]
            exact_mod_cast (by omega : arena.length < a1.length)
          · show liv.toNat < _
            rw [hlt, hlenS]
            omega
          · show riv.toNat < _
            rw [hrt, hlenS]
            omega
          · show cur.aabb = BvhAABB.merge
              (((a2.set arena.length { cur with left := liv, right := riv }).getD
                liv.toNat default).aabb)
              (((a2.set arena.length { cur with left := liv, right := riv }).getD
                riv.toNat default).aabb)
            rw [hlt, hrt, hgetDL, hgetDR, hrootL, hrootR, hcurval]
            exact hab
        · -- inside the left subtree
          subst hp
          exact WFAt_mono a1 _ (arena.length + 1) (arena.length + 1)
            (by rw [hlenS]; omega)
            (fun k hk1 hk2 => by rw [hgetS_ne k (by omega), agreeR _ (by omega)])
            le_rfl hA1 (wfL _ le_rfl hA1)
        · rcases lt_or_le p a1.length with hpl | hpl
          · -- inside the left subtree
            exact WFAt_mono a1 _ (arena.length + 1) p (by rw [hlenS]; omega)
              (fun k hk1 hk2 => by rw [hgetS_ne k (by omega), agreeR _ (by omega)])
              (by omega) hpl (wfL _ (by omega) hpl)
          · -- inside the right subtree
            exact WFAt_mono a2 _ a1.length p (by rw [hlenS])
              (fun k hk1 hk2 => by rw [hgetS_ne k (by omega)])
              hpl hp2 (wfR _ hpl hp2)

/-- The sorted leaf `TempNode`s created by `build` (lines 287-291). -/
def buildLeaves (bbs : List BoundingBox) (ws : ℚ) : List TempNode :=
  (radixSort (buildObjects bbs ws)).map (fun obj =>
    { left := none, right := none, object_id := (obj.id : ℤ),
      aabb := BvhAABB.from_bbox (bbs.getD obj.id default) })

/-- The one-leaf arena of `build`'s single-object case (lines 218-230). -/
def singletonArena (bbs : List BoundingBox) (ws : ℚ) : List FlatNode :=
  [{ left := -1, right := -1,
     object_id := (((radixSort (buildObjects bbs ws)).headD default).id : ℤ),
     aabb := BvhAABB.from_bbox
       (bbs.getD ((radixSort (buildObjects bbs ws)).headD default).id default) }]

/-- `BVH::build` as a chain of `Option.bind`s. -/
theorem BVH_build_eq (self : BVH) (bbs : List BoundingBox) :
    BVH.build self bbs =
      if bbs.isEmpty then some { self with root := none, arena := [], arena_root := -1 }
      else if (radixSort (buildObjects bbs self.world_size)).length = 1 then
        some { self with
          arena := singletonArena bbs self.world_size,
          arena_root := 0, root := none }
      else
        (buildTopology ((radixSort (buildObjects bbs self.world_size)).map (·.morton_code))
          (radixSort (buildObjects bbs self.world_size)).length).bind fun tp =>
        (compute_internal (buildLeaves bbs self.world_size)
          ((radixSort (buildObjects bbs self.world_size)).length + 1)
          (findRootIdx tp.2) tp.1).bind fun ci =>
        (build_arena_node ci.2 (buildLeaves bbs self.world_size)
          ((radixSort (buildObjects bbs self.world_size)).length + 1)
          (TempChild.internal (findRootIdx tp.2)) []).bind fun ba =>
        some { self with arena := ba.2, arena_root := ba.1, root := none } := rfl

/-- C5: in every arena produced by `build`, each internal node (negative
`object_id`) has two valid children — both child indices non-negative and
in bounds — and its AABB is exactly the merge of its two children's
AABBs. -/
theorem arena_internal_merge_C5 (self : BVH) (bbs : List BoundingBox) (bvh : BVH)
    (hbuild : BVH.build self bbs = some bvh) :
    ∀ p, p < bvh.arena.length → (bvh.arena.getD p default).object_id < 0 →
      0 ≤ (bvh.arena.getD p default).left ∧ 0 ≤ (bvh.arena.getD p default).right ∧
      (bvh.arena.getD p default).left.toNat < bvh.arena.length ∧
      (bvh.arena.getD p default).right.toNat < bvh.arena.length ∧
      (bvh.arena.getD p default).aabb = BvhAABB.merge
        ((bvh.arena.getD (bvh.arena.getD p default).left.toNat default).aabb)
        ((bvh.arena.getD (bvh.arena.getD p default).right.toNat default).aabb) := by
  rw [BVH_build_eq] at hbuild
  by_cases hemp : bbs.isEmpty
  · rw [if_pos hemp] at hbuild
    injection hbuild with e
    subst e
    intro p hp
    simp at hp
  · rw [if_neg hemp] at hbuild
    by_cases hn1 : (radixSort (buildObjects bbs self.world_size)).length = 1
    · rw [if_pos hn1] at hbuild
      injection hbuild with e
      subst e
      intro p hp hoid
      have hpe : p = 0 := by
        simp [singletonArena] at hp
        exact hp
      subst hpe
      refine absurd hoid ?_
      show ¬ (((singletonArena bbs self.world_size).getD 0 default).object_id < 0)
      simp [singletonArena]
    · rw [if_neg hn1] at hbuild
      simp only [Option.bind_eq_some] at hbuild
      obtain ⟨tp, hTop, ci, hCI, ba, hBAN, hfinal⟩ := hbuild
      injection hfinal with e
      subst e
      have hsok := (compute_internal_sok _ _ _ _ ci.1 ci.2 (by rw [hCI])).2.2.1
      have hleaf : ∀ ln ∈ buildLeaves bbs self.world_size, 0 ≤ ln.object_id := by
        intro ln hln
        rw [buildLeaves, List.mem_map] at hln
        obtain ⟨obj, _, rfl⟩ := hln
        exact Int.natCast_nonneg obj.id
      obtain ⟨_, _, _, _, wf⟩ := build_arena_node_wf ci.2 _ hleaf _ _ [] ba.1 ba.2
        (by rw [hBAN]) hsok
      intro p hp hoid
      dsimp only at hp hoid ⊢
      have hw := wf p (Nat.zero_le p) hp ((ba.2).getD p default)
        (list_get?_eq_getD _ _ _ hp) hoid
      obtain ⟨w1, w2, w3, w4, w5⟩ := hw
      exact ⟨by omega, by omega, w3, w4, w5⟩

theorem arena_internal_merge_C5_witness :
    BVH.build ⟨10, [], [], -1, none⟩ exBoxes = some exBVH ∧
    0 < exBVH.arena.length ∧ (exBVH.arena.getD 0 default).object_id < 0 ∧
    (0 ≤ (exBVH.arena.getD 0 default).left ∧ 0 ≤ (exBVH.arena.getD 0 default).right ∧
      (exBVH.arena.getD 0 default).left.toNat < exBVH.arena.length ∧
      (exBVH.arena.getD 0 default).right.toNat < exBVH.arena.length ∧
      (exBVH.arena.getD 0 default).aabb = BvhAABB.merge
        ((exBVH.arena.getD (exBVH.arena.getD 0 default).left.toNat default).aabb)
        ((exBVH.arena.getD (exBVH.arena.getD 0 default).right.toNat default).aabb)) :=
  ⟨ex_build, by norm_num [exBVH], by norm_num [exBVH],
    arena_internal_merge_C5 ⟨10, [], [], -1, none⟩ exBoxes exBVH ex_build 0
      (by norm_num [exBVH]) (by norm_num [exBVH])⟩

/-! ## Claim C9: the ray-cast traversal -/

/-- A binary tree view of (part of) an arena. -/
inductive ATree where
  | leaf (oid : ℕ) (box : BvhAABB)
  | node (box : BvhAABB) (l r : ATree)

/-- Number of nodes of an `ATree`. -/
def sizeT : ATree → ℕ
  | .leaf _ _ => 1
  | .node _ l r => 1 + sizeT l + sizeT r

/-- The leaves the `ray_cast` stack traversal reports for a subtree: a node
that fails its own slab test, or passes it entirely behind the origin,
prunes its whole subtree; at a surviving internal node the right subtree is
visited first (it is pushed last, hence popped first). -/
def collectRay (origin : Point) (direction : Vector) : ATree → List ℕ
  | .leaf oid box =>
    match ray_bvhaabb_intersect origin direction box with
    | some p => if F.ltb p.2 (F.fin 0) then [] else [oid]
    | none => []
  | .node box l r =>
    match ray_bvhaabb_intersect origin direction box with
    | some p => if F.ltb p.2 (F.fin 0) then []
        else collectRay origin direction r ++ collectRay origin direction l
    | none => []

/-- `Represents arena i t`: starting at index `i` the arena spells out the
tree `t` (leaves have non-negative `object_id`, internal nodes negative
`object_id` and two valid child indices). -/
def Represents (arena : List FlatNode) : ℤ → ATree → Prop
  | i, .leaf oid box => ∃ fn, arena.get? i.toNat = some fn ∧ 0 ≤ i ∧
      fn.object_id = (oid : ℤ) ∧ fn.aabb = box
  | i, .node box l r => ∃ fn, arena.get? i.toNat = some fn ∧ 0 ≤ i ∧
      fn.object_id < 0 ∧ fn.aabb = box ∧ 0 ≤ fn.left ∧ 0 ≤ fn.right ∧
      Represents arena fn.left l ∧ Represents arena fn.right r

/-- The successor-fuel unfolding of the `ray_cast` stack loop on a
non-empty stack. -/
theorem rayCastLoop_cons (arena : List FlatNode) (origin : Point) (direction : Vector)
    (fuel : ℕ) (i : ℤ) (stack : List ℤ) (acc : List ℕ) :
    rayCastLoop arena origin direction (fuel + 1) (i :: stack) acc =
      (arena.get? i.toNat).bind fun node =>
      match ray_bvhaabb_intersect origin direction node.aabb with
      | some p =>
        if F.ltb p.2 (F.fin 0) then rayCastLoop arena origin direction fuel stack acc
        else if node.object_id ≥ 0 then
          rayCastLoop arena origin direction fuel stack (acc ++ [node.object_id.toNat])
        else
          rayCastLoop arena origin direction fuel
            ((if node.right ≥ 0 then [node.right] else []) ++
              (if node.left ≥ 0 then [node.left] else []) ++ stack) acc
      | none => rayCastLoop arena origin direction fuel stack acc := by
  simp only [rayCastLoop]
  apply congrArg
  funext node
  rcases ray_bvhaabb_intersect origin direction node.aabb with _ | ⟨tmin, tmax⟩ <;> rfl

/-- The stack loop returns its accumulator on an empty stack, at any
fuel. -/
theorem rayCastLoop_nil (arena : List FlatNode) (origin : Point) (direction : Vector)
    (fuel : ℕ) (acc : List ℕ) :
    rayCastLoop arena origin direction fuel [] acc = some acc := by
  cases fuel <;> rfl

/-- Extra fuel never changes a successful run of the stack loop. -/
theorem rayCastLoop_mono (arena : List FlatNode) (origin : Point) (direction : Vector) :
    ∀ fuel k stack acc r, rayCastLoop arena origin direction fuel stack acc = some r →
      rayCastLoop arena origin direction (fuel + k) stack acc = some r := by
  intro fuel
  induction fuel with
  | zero =>
    intro k stack acc r h
    match stack with
    | [] =>
      rw [rayCastLoop_nil] at h
      rw [rayCastLoop_nil]
      exact h
    | _ :: _ => exact absurd h (by simp [rayCastLoop])
  | succ fuel ih =>
    intro k stack acc r h
    match stack with
    | [] =>
      rw [rayCastLoop_nil] at h
      rw [rayCastLoop_nil]
      exact h
    | i :: stack =>
      rw [rayCastLoop_cons] at h
      rw [show fuel + 1 + k = (fuel + k) + 1 from by omega, rayCastLoop_cons]
      simp only [Option.bind_eq_some] at h ⊢
      obtain ⟨node, hget, h⟩ := h
      refine ⟨node, hget, ?_⟩
      revert h
      rcases ray_bvhaabb_intersect origin direction node.aabb with _ | ⟨tmin, tmax⟩
      · intro h
        exact ih k _ _ r h
      · dsimp only
        intro h
        by_cases h1 : F.ltb tmax (F.fin 0)
        · rw [if_pos h1] at h ⊢
          exact ih k _ _ r h
        · rw [if_neg h1] at h ⊢
          by_cases h2 : node.object_id ≥ 0
          · rw [if_pos h2] at h ⊢
            exact ih k _ _ r h
          · rw [if_neg h2] at h ⊢
            exact ih k _ _ r h

/-- Processing a represented subtree on top of the stack appends exactly
its `collectRay` leaves and then continues with the rest of the stack. -/
theorem rayCastLoop_subtree (arena : List FlatNode) (origin : Point) (direction : Vector) :
    ∀ t i rest acc fuel r, Represents arena i t →
      rayCastLoop arena origin direction fuel rest
        (acc ++ collectRay origin direction t) = some r →
      rayCastLoop arena origin direction (fuel + sizeT t) (i :: rest) acc = some r := by
  intro t
  induction t with
  | leaf oid box =>
    intro i rest acc fuel r hrep h
    obtain ⟨fn, hget, hpos, hoid, hbox⟩ := hrep
    rw [show fuel + sizeT (.leaf oid box) = fuel + 1 from rfl, rayCastLoop_cons]
    simp only [Option.bind_eq_some]
    refine ⟨fn, hget, ?_⟩
    rw [hbox]
    simp only [collectRay] at h
    cases hI : ray_bvhaabb_intersect origin direction box with
    | none =>
      simp only [hI] at h
      simp only [hI]
      simpa using h
    | some p =>
      simp only [hI] at h
      simp only [hI]
      by_cases h1 : F.ltb p.2 (F.fin 0)
      · rw [if_pos h1] at h
        rw [if_pos h1]
        simpa using h
      · rw [if_neg h1] at h
        rw [if_neg h1]
        have h2 : fn.object_id ≥ 0 := by rw [hoid]; exact Int.natCast_nonneg oid
        rw [if_pos h2, hoid, Int.toNat_natCast]
        exact h
  | node box l r ihl ihr =>
    intro i rest acc fuel rr hrep h
    obtain ⟨fn, hget, hpos, hoid, hbox, hlp, hrp, hrl, hrr⟩ := hrep
    rw [show fuel + sizeT (.node box l r) = (fuel + sizeT l + sizeT r) + 1 from by
      show fuel + (1 + sizeT l + sizeT r) = fuel + sizeT l + sizeT r + 1
      omega, rayCastLoop_cons]
    simp only [Option.bind_eq_some]
    refine ⟨fn, hget, ?_⟩
    rw [hbox]
    simp only [collectRay] at h
    cases hI : ray_bvhaabb_intersect origin direction box with
    | none =>
      simp only [hI] at h
      simp only [hI]
      rw [List.append_nil] at h
      have hm := rayCastLoop_mono arena origin direction fuel (sizeT l + sizeT r) rest acc rr h
      rwa [← Nat.add_assoc] at hm
    | some p =>
      simp only [hI] at h
      simp only [hI]
      by_cases h1 : F.ltb p.2 (F.fin 0)
      · rw [if_pos h1] at h
        rw [if_pos h1]
        rw [List.append_nil] at h
        have hm := rayCastLoop_mono arena origin direction fuel (sizeT l + sizeT r) rest acc rr h
        rwa [← Nat.add_assoc] at hm
      · rw [if_neg h1] at h
        rw [if_neg h1]
        have h2 : ¬ fn.object_id ≥ 0 := by omega
        rw [if_neg h2, if_pos hrp, if_pos hlp]
        show rayCastLoop arena origin direction (fuel + sizeT l + sizeT r)
          (fn.right :: fn.left :: rest) acc = some rr
        refine ihr fn.right (fn.left :: rest) acc (fuel + sizeT l) rr hrr ?_
        refine ihl fn.left rest (acc ++ collectRay origin direction r) fuel rr hrl ?_
        rw [← List.append_assoc] at h
        exact h

/-- The box at the root of an `ATree`. -/
def boxOf : ATree → BvhAABB
  | .leaf _ b => b
  | .node b _ _ => b

theorem represents_root {arena : List FlatNode} {i : ℤ} {t : ATree}
    (h : Represents arena i t) :
    ∃ fn, arena.get? i.toNat = some fn ∧ 0 ≤ i ∧ fn.aabb = boxOf t := by
  cases t with
  | leaf oid box =>
    obtain ⟨fn, h1, h2, _, h4⟩ := h
    exact ⟨fn, h1, h2, h4⟩
  | node box l r =>
    obtain ⟨fn, h1, h2, _, h4, _⟩ := h
    exact ⟨fn, h1, h2, h4⟩

theorem collectRay_prune_none (origin : Point) (direction : Vector) (t : ATree)
    (hI : ray_bvhaabb_intersect origin direction (boxOf t) = none) :
    collectRay origin direction t = [] := by
  cases t with
  | leaf oid box =>
    rw [show boxOf (.leaf oid box) = box from rfl] at hI
    simp only [collectRay, hI]
  | node box l r =>
    rw [show boxOf (.node box l r) = box from rfl] at hI
    simp only [collectRay, hI]

theorem collectRay_prune_neg (origin : Point) (direction : Vector) (t : ATree)
    (p : F × F) (hI : ray_bvhaabb_intersect origin direction (boxOf t) = some p)
    (h1 : F.ltb p.2 (F.fin 0) = true) :
    collectRay origin direction t = [] := by
  cases t with
  | leaf oid box =>
    rw [show boxOf (.leaf oid box) = box from rfl] at hI
    simp only [collectRay, hI]
    rw [if_pos h1]
  | node box l r =>
    rw [show boxOf (.node box l r) = box from rfl] at hI
    simp only [collectRay, hI]
    rw [if_pos h1]

/-- C9 (amended): on an index whose arena represents a tree `t`, `ray_cast`
returns exactly the leaves reported by the pruned depth-first traversal
`collectRay` (every node on the leaf's root path must pass the slab test
with an intersection not entirely behind the origin; the right subtree of
each surviving internal node is reported first), together with the flag
"at least one candidate"; the input buffer and the `find_all` flag have no
effect.  The original claim's "exactly the leaves whose own AABB passes
the slab test" is refuted by `ray_cast_misses_passing_leaf_C9`. -/
theorem ray_cast_collect_C9 (self : BVH) (origin : Point) (direction : Vector)
    (t : ATree) (ids : List ℕ) (fa : Bool)
    (hrep : Represents self.arena self.arena_root t)
    (hsize : sizeT t ≤ self.arena.length + 1) :
    BVH.ray_cast self origin direction ids fa =
      some ((¬ (collectRay origin direction t).isEmpty : Bool),
        collectRay origin direction t) := by
  obtain ⟨fn, hget, hpos, hbox⟩ := represents_root hrep
  have hne : self.arena.isEmpty = false := by
    cases harena : self.arena with
    | nil => rw [harena] at hget; simp at hget
    | cons a l => rfl
  have hcond : ¬ (self.arena_root < 0 ∨ self.arena.isEmpty = true) := by
    push_neg
    exact ⟨hpos, by rw [hne]; exact Bool.false_ne_true⟩
  simp only [BVH.ray_cast]
  rw [if_neg hcond, hget]
  simp only [Option.map_some']
  rw [hbox]
  cases hI : ray_bvhaabb_intersect origin direction (boxOf t) with
  | none =>
    simp only [hI]
    rw [collectRay_prune_none origin direction t hI]
    simp
  | some p =>
    obtain ⟨tmin, tmax⟩ := p
    simp only [hI]
    by_cases h1 : F.ltb tmax (F.fin 0)
    · rw [if_pos h1]
      rw [collectRay_prune_neg origin direction t (tmin, tmax) hI h1]
      simp
    · rw [if_neg h1]
      have hloop := rayCastLoop_subtree self.arena origin direction t self.arena_root [] []
        (self.arena.length + 1 - sizeT t) (collectRay origin direction t) hrep
        (by rw [rayCastLoop_nil, List.nil_append])
      rw [show self.arena.length + 1 = (self.arena.length + 1 - sizeT t) + sizeT t from by
        omega]
      rw [hloop]
      rfl

/-- The two boxes of the C9 counterexample: box 0 is a flat plate centred
at `(0,5,0)` with zero x-extent, box 1 a cube centred at `(5,5,0)`.  The
ray from the origin along `+y` hits box 0's AABB (slab interval `[4,6]`),
but the merged root box has x-range `[0,6]`, and with a zero x-direction
the slab test computes `0 * inf = NaN` at the root, making `tmin = +inf`
and rejecting the root, so the whole tree is pruned. -/
def c9Boxes : List BoundingBox := [⟨⟨0, 5, 0⟩, ⟨0, 1, 1⟩⟩, ⟨⟨5, 5, 0⟩, ⟨1, 1, 1⟩⟩]

theorem c9_morton0 : calculate_morton_code 0 5 0 12 = 402120559 := by
  norm_num [calculate_morton_code, expand_bits, min_def, max_def]
  try rfl

theorem c9_morton1 : calculate_morton_code 5 5 0 12 = 536071975 := by
  norm_num [calculate_morton_code, expand_bits, min_def, max_def]
  try rfl

theorem c9_buildObjects :
    buildObjects [(⟨⟨0, 5, 0⟩, ⟨0, 1, 1⟩⟩ : BoundingBox), ⟨⟨5, 5, 0⟩, ⟨1, 1, 1⟩⟩] 12
      = [⟨0, 402120559⟩, ⟨1, 536071975⟩] := by
  simp [buildObjects, List.enum, List.enumFrom, c9_morton0, c9_morton1]

theorem c9_radixSort : radixSort [(⟨0, 402120559⟩ : ObjectInfo), ⟨1, 536071975⟩]
    = [⟨0, 402120559⟩, ⟨1, 536071975⟩] := by
  have hperm := radixSort_perm [(⟨0, 402120559⟩ : ObjectInfo), ⟨1, 536071975⟩]
  have hpair := radixSort_pairwise [(⟨0, 402120559⟩ : ObjectInfo), ⟨1, 536071975⟩] (by
    unfold mortonLexLe
    decide)
  rcases perm_pair_cases hperm with h | h
  · exact h
  · exfalso
    rw [h] at hpair
    have := (List.pairwise_cons.mp hpair).1 _ (List.mem_singleton.mpr rfl)
    unfold mortonLexLe at this
    revert this
    decide

theorem c9_topology : buildTopology [402120559, 536071975] 2 =
    some ([{ left := some (TempChild.leaf 0), right := some (TempChild.leaf 1),
             object_id := -1, aabb := ⟨0, 0, 0, 0, 0, 0⟩ }], [false]) := rfl

theorem c9_merge : BvhAABB.merge ⟨0, 5, 0, 0, 1, 1⟩ ⟨5, 5, 0, 1, 1, 1⟩
    = ⟨3, 5, 0, 3, 1, 1⟩ := by
  norm_num [BvhAABB.merge, min_def, max_def]

theorem c9_compute_internal : compute_internal
    [{ left := none, right := none, object_id := 0, aabb := ⟨0, 5, 0, 0, 1, 1⟩ },
     { left := none, right := none, object_id := 1, aabb := ⟨5, 5, 0, 1, 1, 1⟩ }] 3 0
    [{ left := some (TempChild.leaf 0), right := some (TempChild.leaf 1),
       object_id := -1, aabb := ⟨0, 0, 0, 0, 0, 0⟩ }] =
    some (⟨3, 5, 0, 3, 1, 1⟩,
      [{ left := some (TempChild.leaf 0), right := some (TempChild.leaf 1),
         object_id := -1, aabb := ⟨3, 5, 0, 3, 1, 1⟩ }]) := by
  rw [show compute_internal
    [{ left := none, right := none, object_id := 0, aabb := ⟨0, 5, 0, 0, 1, 1⟩ },
     { left := none, right := none, object_id := 1, aabb := ⟨5, 5, 0, 1, 1, 1⟩ }] 3 0
    [{ left := some (TempChild.leaf 0), right := some (TempChild.leaf 1),
       object_id := -1, aabb := ⟨0, 0, 0, 0, 0, 0⟩ }] =
    some (BvhAABB.merge ⟨0, 5, 0, 0, 1, 1⟩ ⟨5, 5, 0, 1, 1, 1⟩,
      [{ left := some (TempChild.leaf 0), right := some (TempChild.leaf 1),
         object_id := -1,
         aabb := BvhAABB.merge ⟨0, 5, 0, 0, 1, 1⟩ ⟨5, 5, 0, 1, 1, 1⟩ }]) from rfl,
    c9_merge]

theorem c9_arena : build_arena_node
    [{ left := some (TempChild.leaf 0), right := some (TempChild.leaf 1),
       object_id := -1, aabb := ⟨3, 5, 0, 3, 1, 1⟩ }]
    [{ left := none, right := none, object_id := 0, aabb := ⟨0, 5, 0, 0, 1, 1⟩ },
     { left := none, right := none, object_id := 1, aabb := ⟨5, 5, 0, 1, 1, 1⟩ }]
    3 (TempChild.internal 0) [] =
    some (0, [⟨1, 2, -1, ⟨3, 5, 0, 3, 1, 1⟩⟩, ⟨-1, -1, 0, ⟨0, 5, 0, 0, 1, 1⟩⟩,
      ⟨-1, -1, 1, ⟨5, 5, 0, 1, 1, 1⟩⟩]) := rfl

/-- The arena built from `c9Boxes`: one internal root, leaf 0 on the left,
leaf 1 on the right. -/
def c9BVH : BVH :=
  ⟨12, [], [⟨1, 2, -1, ⟨3, 5, 0, 3, 1, 1⟩⟩, ⟨-1, -1, 0, ⟨0, 5, 0, 0, 1, 1⟩⟩,
    ⟨-1, -1, 1, ⟨5, 5, 0, 1, 1, 1⟩⟩], 0, none⟩

theorem c9_build : BVH.from_boxes c9Boxes 12 = some c9BVH := by
  rw [show c9Boxes = [⟨⟨0, 5, 0⟩, ⟨0, 1, 1⟩⟩, ⟨⟨5, 5, 0⟩, ⟨1, 1, 1⟩⟩] from rfl]
  unfold BVH.from_boxes BVH.build
  simp [BVH.new, c9BVH, c9_buildObjects, c9_radixSort, c9_topology,
    c9_compute_internal, c9_arena, findRootIdx, BvhAABB.from_bbox]

theorem c9_slab_leaf0 : ray_bvhaabb_intersect ⟨0, 0, 0⟩ ⟨0, 1, 0⟩ ⟨0, 5, 0, 0, 1, 1⟩
    = some (F.fin 4, F.fin 6) := by
  norm_num [ray_bvhaabb_intersect, F.scale, F.fmin, F.fmax, F.leb]

theorem c9_slab_root : ray_bvhaabb_intersect ⟨0, 0, 0⟩ ⟨0, 1, 0⟩ ⟨3, 5, 0, 3, 1, 1⟩
    = none := by
  norm_num [ray_bvhaabb_intersect, F.scale, F.fmin, F.fmax, F.leb]

/-- C9: the original claim is false.  On the index built from `c9Boxes`,
the ray from the origin along `+y` yields no candidates and a `false` hit
flag, although leaf 0's own AABB passes the slab test with interval
`[4,6]`, entirely in front of the origin: the root's merged box computes
`0 * inf = NaN` in the x slab, `f64::min/max` then discard the NaN, the
root is rejected, and the traversal never reaches the leaf. -/
theorem ray_cast_misses_passing_leaf_C9 :
    (BVH.from_boxes c9Boxes 12).bind
      (fun bvh => BVH.ray_cast bvh ⟨0, 0, 0⟩ ⟨0, 1, 0⟩ [] true) = some (false, []) ∧
    ray_bvhaabb_intersect ⟨0, 0, 0⟩ ⟨0, 1, 0⟩
      (BvhAABB.from_bbox (c9Boxes.getD 0 ⟨⟨0, 0, 0⟩, ⟨0, 0, 0⟩⟩)) = some (F.fin 4, F.fin 6) ∧
    F.ltb (F.fin 6) (F.fin 0) = false := by
  refine ⟨?_, ?_, by norm_num [F.ltb]⟩
  · rw [c9_build]
    show BVH.ray_cast c9BVH ⟨0, 0, 0⟩ ⟨0, 1, 0⟩ [] true = some (false, [])
    simp [BVH.ray_cast, c9BVH, c9_slab_root]
  · rw [show BvhAABB.from_bbox (c9Boxes.getD 0 ⟨⟨0, 0, 0⟩, ⟨0, 0, 0⟩⟩)
      = (⟨0, 5, 0, 0, 1, 1⟩ : BvhAABB) from rfl]
    exact c9_slab_leaf0

/-- The tree spelled out by `c9BVH`'s arena. -/
def c9Tree : ATree :=
  ATree.node ⟨3, 5, 0, 3, 1, 1⟩ (ATree.leaf 0 ⟨0, 5, 0, 0, 1, 1⟩)
    (ATree.leaf 1 ⟨5, 5, 0, 1, 1, 1⟩)

theorem c9_represents : Represents c9BVH.arena c9BVH.arena_root c9Tree := by
  refine ⟨⟨1, 2, -1, ⟨3, 5, 0, 3, 1, 1⟩⟩, rfl, le_refl 0, by norm_num, rfl,
    by norm_num, by norm_num, ?_, ?_⟩
  · exact ⟨⟨-1, -1, 0, ⟨0, 5, 0, 0, 1, 1⟩⟩, rfl, by norm_num, rfl, rfl⟩
  · exact ⟨⟨-1, -1, 1, ⟨5, 5, 0, 1, 1, 1⟩⟩, rfl, by norm_num, rfl, rfl⟩

theorem ray_cast_collect_C9_witness :
    Represents c9BVH.arena c9BVH.arena_root c9Tree ∧
    sizeT c9Tree ≤ c9BVH.arena.length + 1 ∧
    BVH.ray_cast c9BVH ⟨0, 0, 0⟩ ⟨0, 1, 0⟩ [] true =
      some ((¬ (collectRay ⟨0, 0, 0⟩ ⟨0, 1, 0⟩ c9Tree).isEmpty : Bool),
        collectRay ⟨0, 0, 0⟩ ⟨0, 1, 0⟩ c9Tree) :=
  ⟨c9_represents, by norm_num [sizeT, c9Tree, c9BVH],
    ray_cast_collect_C9 c9BVH ⟨0, 0, 0⟩ ⟨0, 1, 0⟩ c9Tree [] true c9_represents
      (by norm_num [sizeT, c9Tree, c9BVH])⟩

/-! ## Claim C4: bit-level theory of the common-prefix function -/

theorem xor_div_pow (k : ℕ) : ∀ x y : ℕ, (x ^^^ y) / 2 ^ k = (x / 2 ^ k) ^^^ (y / 2 ^ k) := by
  induction k with
  | zero => simp
  | succ k ih =>
    intro x y
    rw [pow_succ', ← Nat.div_div_eq_div_mul, Nat.xor_div_two, ih]
    simp only [Nat.div_div_eq_div_mul]

/-- Two naturals agree above bit `k` iff their xor is below `2 ^ k`. -/
theorem xor_lt_two_pow_iff (x y k : ℕ) : x ^^^ y < 2 ^ k ↔ x / 2 ^ k = y / 2 ^ k := by
  constructor
  · intro h
    have h0 : (x ^^^ y) / 2 ^ k = 0 := Nat.div_eq_of_lt h
    rw [xor_div_pow] at h0
    exact Nat.xor_eq_zero.mp h0
  · intro h
    have h0 : (x ^^^ y) / 2 ^ k = 0 := by
      rw [xor_div_pow, h, Nat.xor_self]
    exact (Nat.div_eq_zero_iff (by positivity)).mp h0

theorem key_div_large (c i s : ℕ) (hi : i < 2 ^ 32) (hs : 32 ≤ s) :
    (c * 2 ^ 32 + i) / 2 ^ s = c / 2 ^ (s - 32) := by
  have h1 : (2 : ℕ) ^ s = 2 ^ 32 * 2 ^ (s - 32) := by
    rw [← pow_add]
    congr 1
    omega
  rw [h1, ← Nat.div_div_eq_div_mul]
  congr 1
  rw [mul_comm c, Nat.mul_add_div (by positivity), Nat.div_eq_of_lt hi, Nat.add_zero]

theorem key_div_small (c i s : ℕ) (hs : s ≤ 32) :
    (c * 2 ^ 32 + i) / 2 ^ s = c * 2 ^ (32 - s) + i / 2 ^ s := by
  have h1 : c * 2 ^ 32 = 2 ^ s * (c * 2 ^ (32 - s)) := by
    have h2 : (2 : ℕ) ^ 32 = 2 ^ s * 2 ^ (32 - s) := by
      rw [← pow_add]
      congr 1
      omega
    rw [h2]
    ring
  rw [h1, Nat.mul_add_div (by positivity)]

/-- The augmented sort key: the 30-bit Morton code in the high half, the
leaf position in the low half. -/
def Kkey (codes : List ℕ) (i : ℕ) : ℕ := codes.getD i 0 * 2 ^ 32 + i

theorem clz32_eq_log2 (x : ℕ) (hx : x ≠ 0) (hx64 : x < 2 ^ 64) :
    clz32 x = 31 - Int.ofNat (Nat.log2 x) := by
  unfold clz32
  rw [if_neg hx, log2floor_eq_log2 64 x hx64]

theorem log2_eq_of_bounds {x t : ℕ} (h1 : 2 ^ t ≤ x) (h2 : x < 2 ^ (t + 1)) :
    Nat.log2 x = t := by
  have hx : x ≠ 0 := by
    have h0 : 0 < x := lt_of_lt_of_le (Nat.pos_pow_of_pos t (by norm_num)) h1
    omega
  have ha : Nat.log2 x < t + 1 := (Nat.log2_lt hx).mpr h2
  have hb : ¬ Nat.log2 x < t := fun hc => absurd ((Nat.log2_lt hx).mp hc) (by omega)
  omega

/-- The Kkey view of `common_prefix`: on distinct valid indices it is
`63 − log2` of the xor of the two augmented keys. -/
theorem common_prefix_formula (codes : List ℕ) (hc : ∀ c ∈ codes, c < 2 ^ 30)
    (hn : codes.length < 2 ^ 31) (i j : ℕ) (hi : i < codes.length) (hj : j < codes.length)
    (hij : i ≠ j) :
    common_prefix codes i j = 63 - Int.ofNat (Nat.log2 (Kkey codes i ^^^ Kkey codes j)) := by
  have hmem : ∀ k, k < codes.length → codes.getD k 0 ∈ codes := by
    intro k hk
    rw [List.getD_eq_getElem?_getD, List.getElem?_eq_getElem hk]
    exact List.getElem_mem hk
  have hci : codes.getD i 0 < 2 ^ 30 := hc _ (hmem i hi)
  have hcj : codes.getD j 0 < 2 ^ 30 := hc _ (hmem j hj)
  have hi32 : i < 2 ^ 32 := by omega
  have hj32 : j < 2 ^ 32 := by omega
  unfold common_prefix
  rw [if_neg (by push_neg; exact ⟨Int.natCast_nonneg j, by exact_mod_cast hj⟩)]
  simp only [Int.toNat_natCast]
  by_cases hcij : codes.getD i 0 = codes.getD j 0
  · rw [if_neg (by simpa using hcij)]
    have hxne : i ^^^ j ≠ 0 := by
      rw [Ne, Nat.xor_eq_zero]
      exact hij
    have hx64 : i ^^^ j < 2 ^ 64 :=
      lt_of_lt_of_le (Nat.xor_lt_two_pow hi32 hj32) (by norm_num)
    rw [clz32_eq_log2 _ hxne hx64]
    have hu31 : Nat.log2 (i ^^^ j) < 32 :=
      (Nat.log2_lt hxne).mpr (Nat.xor_lt_two_pow hi32 hj32)
    have hkey : Nat.log2 (Kkey codes i ^^^ Kkey codes j) = Nat.log2 (i ^^^ j) := by
      apply log2_eq_of_bounds
      · by_contra hcon
        push_neg at hcon
        rw [xor_lt_two_pow_iff, Kkey, Kkey,
          key_div_small _ _ _ (by omega), key_div_small _ _ _ (by omega), hcij] at hcon
        have : i / 2 ^ Nat.log2 (i ^^^ j) = j / 2 ^ Nat.log2 (i ^^^ j) := by omega
        rw [← xor_lt_two_pow_iff] at this
        exact absurd this (not_lt.mpr (Nat.log2_self_le hxne))
      · rw [xor_lt_two_pow_iff, Kkey, Kkey,
          key_div_small _ _ _ (by omega), key_div_small _ _ _ (by omega), hcij]
        have : i / 2 ^ (Nat.log2 (i ^^^ j) + 1) = j / 2 ^ (Nat.log2 (i ^^^ j) + 1) := by
          rw [← xor_lt_two_pow_iff]
          exact Nat.lt_log2_self
        omega
    rw [hkey]
    simp only [Int.ofNat_eq_natCast]
    push_cast
    omega
  · rw [if_pos (by simpa using hcij)]
    have hxne : codes.getD i 0 ^^^ codes.getD j 0 ≠ 0 := by
      rw [Ne, Nat.xor_eq_zero]
      exact hcij
    have hx64 : codes.getD i 0 ^^^ codes.getD j 0 < 2 ^ 64 :=
      lt_of_lt_of_le (Nat.xor_lt_two_pow hci hcj) (by norm_num)
    rw [clz32_eq_log2 _ hxne hx64]
    have hkey : Nat.log2 (Kkey codes i ^^^ Kkey codes j)
        = 32 + Nat.log2 (codes.getD i 0 ^^^ codes.getD j 0) := by
      apply log2_eq_of_bounds
      · by_contra hcon
        push_neg at hcon
        rw [xor_lt_two_pow_iff, Kkey, Kkey,
          key_div_large _ _ _ hi32 (by omega), key_div_large _ _ _ hj32 (by omega),
          show 32 + Nat.log2 (codes.getD i 0 ^^^ codes.getD j 0) - 32
            = Nat.log2 (codes.getD i 0 ^^^ codes.getD j 0) from by omega,
          ← xor_lt_two_pow_iff] at hcon
        exact absurd hcon (not_lt.mpr (Nat.log2_self_le hxne))
      · rw [show 32 + Nat.log2 (codes.getD i 0 ^^^ codes.getD j 0) + 1
            = 32 + (Nat.log2 (codes.getD i 0 ^^^ codes.getD j 0) + 1) from by omega,
          xor_lt_two_pow_iff, Kkey, Kkey,
          key_div_large _ _ _ hi32 (by omega), key_div_large _ _ _ hj32 (by omega),
          show 32 + (Nat.log2 (codes.getD i 0 ^^^ codes.getD j 0) + 1) - 32
            = Nat.log2 (codes.getD i 0 ^^^ codes.getD j 0) + 1 from by omega,
          ← xor_lt_two_pow_iff]
        exact Nat.lt_log2_self
    rw [hkey]
    simp only [Int.ofNat_eq_natCast]
    push_cast
    omega

/-- The hypotheses under which the Karras topology is analysed: 30-bit
codes, an `i32`-faithful length, and codes sorted ascending (the state
after the radix sort). -/
def GoodCodes (codes : List ℕ) : Prop :=
  (∀ c ∈ codes, c < 2 ^ 30) ∧ codes.length < 2 ^ 31 ∧
  ∀ a b : ℕ, a < b → b < codes.length → codes.getD a 0 ≤ codes.getD b 0

theorem getD_mem_of_lt {α : Type _} (l : List α) (k : ℕ) (d : α) (hk : k < l.length) :
    l.getD k d ∈ l := by
  rw [List.getD_eq_getElem?_getD, List.getElem?_eq_getElem hk]
  exact List.getElem_mem hk

theorem Kkey_lt_two_pow (codes : List ℕ) (h : GoodCodes codes) (i : ℕ)
    (hi : i < codes.length) : Kkey codes i < 2 ^ 63 := by
  have hc := h.1 _ (getD_mem_of_lt codes i 0 hi)
  have hn := h.2.1
  unfold Kkey
  nlinarith [hc, hn, hi]

theorem Kkey_lt (codes : List ℕ) (h : GoodCodes codes) (a b : ℕ) (hab : a < b)
    (hb : b < codes.length) : Kkey codes a < Kkey codes b := by
  obtain ⟨hc, hn, hsort⟩ := h
  have hcab : codes.getD a 0 ≤ codes.getD b 0 := hsort a b hab hb
  unfold Kkey
  rcases lt_or_eq_of_le hcab with hlt | heq
  · have ha32 : a < 2 ^ 32 := by omega
    nlinarith [ha32, hlt]
  · rw [heq]
    omega

theorem cp_symm (codes : List ℕ) (h : GoodCodes codes) (i j : ℕ) (hi : i < codes.length)
    (hj : j < codes.length) : common_prefix codes i j = common_prefix codes j i := by
  by_cases hij : i = j
  · rw [hij]
  · rw [ common_prefix_formula codes h.1 h.2.1 i j hi hj hij,
      common_prefix_formula codes h.1 h.2.1 j i hj hi (fun q => hij q.symm),
      Nat.xor_comm]

theorem log2_xor_chain {x y z : ℕ} (hxy : x < y) (hyz : y < z) :
    Nat.log2 (x ^^^ z) = max (Nat.log2 (x ^^^ y)) (Nat.log2 (y ^^^ z)) := by
  have hxyne : x ^^^ y ≠ 0 := by rw [Ne, Nat.xor_eq_zero]; omega
  have hyzne : y ^^^ z ≠ 0 := by rw [Ne, Nat.xor_eq_zero]; omega
  apply log2_eq_of_bounds
  · -- the max is attained: beyond it at least one agreement fails
    rcases max_cases (Nat.log2 (x ^^^ y)) (Nat.log2 (y ^^^ z)) with ⟨hM, hge⟩ | ⟨hM, hge⟩ <;>
      rw [hM] <;> by_contra hcon <;> push_neg at hcon <;>
      rw [xor_lt_two_pow_iff] at hcon
    · have hdx : x / 2 ^ Nat.log2 (x ^^^ y) ≤ y / 2 ^ Nat.log2 (x ^^^ y) :=
        Nat.div_le_div_right (le_of_lt hxy)
      have hdy : y / 2 ^ Nat.log2 (x ^^^ y) ≤ z / 2 ^ Nat.log2 (x ^^^ y) :=
        Nat.div_le_div_right (le_of_lt hyz)
      have hxeq : x / 2 ^ Nat.log2 (x ^^^ y) = y / 2 ^ Nat.log2 (x ^^^ y) := by omega
      rw [← xor_lt_two_pow_iff] at hxeq
      exact absurd hxeq (not_lt.mpr (Nat.log2_self_le hxyne))
    · have hdx : x / 2 ^ Nat.log2 (y ^^^ z) ≤ y / 2 ^ Nat.log2 (y ^^^ z) :=
        Nat.div_le_div_right (le_of_lt hxy)
      have hdy : y / 2 ^ Nat.log2 (y ^^^ z) ≤ z / 2 ^ Nat.log2 (y ^^^ z) :=
        Nat.div_le_div_right (le_of_lt hyz)
      have hyeq : y / 2 ^ Nat.log2 (y ^^^ z) = z / 2 ^ Nat.log2 (y ^^^ z) := by omega
      rw [← xor_lt_two_pow_iff] at hyeq
      exact absurd hyeq (not_lt.mpr (Nat.log2_self_le hyzne))
  · rw [xor_lt_two_pow_iff]
    have h1 : x / 2 ^ (max (Nat.log2 (x ^^^ y)) (Nat.log2 (y ^^^ z)) + 1)
        = y / 2 ^ (max (Nat.log2 (x ^^^ y)) (Nat.log2 (y ^^^ z)) + 1) := by
      rw [← xor_lt_two_pow_iff]
      exact lt_of_lt_of_le Nat.lt_log2_self
        (Nat.pow_le_pow_right (by norm_num) (by omega))
    have h2 : y / 2 ^ (max (Nat.log2 (x ^^^ y)) (Nat.log2 (y ^^^ z)) + 1)
        = z / 2 ^ (max (Nat.log2 (x ^^^ y)) (Nat.log2 (y ^^^ z)) + 1) := by
      rw [← xor_lt_two_pow_iff]
      exact lt_of_lt_of_le Nat.lt_log2_self
        (Nat.pow_le_pow_right (by norm_num) (by omega))
    rw [h1, h2]

/-- The two-step minimum rule for the common-prefix function. -/
theorem cp_min_rule (codes : List ℕ) (h : GoodCodes codes) (a b c : ℕ) (hab : a < b)
    (hbc : b < c) (hc : c < codes.length) :
    common_prefix codes a c
      = min ( common_prefix codes a b) ( common_prefix codes b c) := by
  have ha : a < codes.length := by omega
  have hb : b < codes.length := by omega
  rw [ common_prefix_formula codes h.1 h.2.1 a c ha hc (by omega),
    common_prefix_formula codes h.1 h.2.1 a b ha hb (by omega),
    common_prefix_formula codes h.1 h.2.1 b c hb hc (by omega),
    log2_xor_chain (Kkey_lt codes h a b hab hb) (Kkey_lt codes h b c hbc hc)]
  simp only [Int.ofNat_eq_natCast]
  push_cast
  omega

theorem cp_self (codes : List ℕ) (i : ℕ) (hi : i < codes.length) :
    common_prefix codes i i = 64 := by
  unfold common_prefix
  rw [if_neg (by push_neg; exact ⟨Int.natCast_nonneg i, by exact_mod_cast hi⟩)]
  simp only [Int.toNat_natCast, ite_not]
  rw [if_pos trivial, Nat.xor_self]
  rfl

theorem cp_out_of_range (codes : List ℕ) (i : ℤ) (j : ℤ)
    (hj : j < 0 ∨ (codes.length : ℤ) ≤ j) : common_prefix codes i j = -1 := by
  unfold common_prefix
  rw [if_pos]
  rcases hj with hj | hj
  · exact Or.inl hj
  · exact Or.inr (by omega)

theorem cp_ge_neg_one (codes : List ℕ) (h : GoodCodes codes) (i : ℕ)
    (hi : i < codes.length) (j : ℤ) : -1 ≤ common_prefix codes i j := by
  by_cases hjr : j < 0 ∨ (codes.length : ℤ) ≤ j
  · rw [cp_out_of_range codes i j hjr]
  · push_neg at hjr
    obtain ⟨hj0, hjl⟩ := hjr
    obtain ⟨jn, rfl⟩ : ∃ jn : ℕ, j = (jn : ℤ) := ⟨j.toNat, by omega⟩
    have hjn : jn < codes.length := by exact_mod_cast hjl
    by_cases hij : i = jn
    · rw [hij, cp_self codes jn hjn]
      norm_num
    · rw [ common_prefix_formula codes h.1 h.2.1 i jn hi hjn hij]
      have hb1 := Kkey_lt_two_pow codes h i hi
      have hb2 := Kkey_lt_two_pow codes h jn hjn
      have hlt : Kkey codes i ^^^ Kkey codes jn < 2 ^ 63 := Nat.xor_lt_two_pow hb1 hb2
      have hne : Kkey codes i ^^^ Kkey codes jn ≠ 0 := by
        rw [Ne, Nat.xor_eq_zero]
        intro hc
        rcases lt_trichotomy i jn with hq | hq | hq
        · exact absurd hc (Nat.ne_of_lt (Kkey_lt codes h i jn hq hjn))
        · exact hij hq
        · exact absurd hc.symm (Nat.ne_of_lt (Kkey_lt codes h jn i hq hi))
      have hlog : Nat.log2 (Kkey codes i ^^^ Kkey codes jn) < 63 := (Nat.log2_lt hne).mpr hlt
      simp only [Int.ofNat_eq_natCast]
      omega

/-- `common_prefix` on two in-range indices (whole-number cast form). -/
def cpN (codes : List ℕ) (a b : ℕ) : ℤ := common_prefix codes a b

theorem cpN_min_rule (codes : List ℕ) (h : GoodCodes codes) (a b c : ℕ) (hab : a < b)
    (hbc : b < c) (hc : c < codes.length) :
    cpN codes a c = min (cpN codes a b) (cpN codes b c) :=
  cp_min_rule codes h a b c hab hbc hc

/-- A common prefix beats `v` iff every adjacent pair in the run does. -/
theorem cp_run_gt (codes : List ℕ) (h : GoodCodes codes) :
    ∀ d (a : ℕ) (v : ℤ), a + d + 1 < codes.length →
      (v < cpN codes a (a + d + 1) ↔
        ∀ x : ℕ, a ≤ x → x ≤ a + d → v < cpN codes x (x + 1)) := by
  intro d
  induction d with
  | zero =>
    intro a v ha
    constructor
    · intro hgt x hx1 hx2
      have hxe : x = a := by omega
      subst hxe
      simpa using hgt
    · intro hall
      simpa using hall a le_rfl (by omega)
  | succ d ih =>
    intro a v ha
    rw [show a + (d + 1) + 1 = a + d + 2 from by omega]
    rw [show (a + d + 2 : ℕ) = (a + d + 1) + 1 from by omega,
      cpN_min_rule codes h a (a + d + 1) ((a + d + 1) + 1) (by omega) (by omega) (by omega),
      lt_min_iff, ih a v (by omega)]
    constructor
    · intro ⟨h1, h2⟩ x hx1 hx2
      by_cases hxd : x ≤ a + d
      · exact h1 x hx1 hxd
      · have hxe : x = a + d + 1 := by omega
        subst hxe
        exact h2
    · intro hall
      exact ⟨fun x hx1 hx2 => hall x hx1 (by omega),
        hall (a + d + 1) (by omega) (by omega)⟩

/-- Moving the far end further away can only shorten the common prefix. -/
theorem cp_anti_right (codes : List ℕ) (h : GoodCodes codes) (a b c : ℕ) (hab : a < b)
    (hbc : b ≤ c) (hc : c < codes.length) : cpN codes a c ≤ cpN codes a b := by
  rcases lt_or_eq_of_le hbc with hlt | heq
  · rw [cpN_min_rule codes h a b c hab hlt hc]
    exact min_le_left _ _
  · rw [heq]

theorem cp_anti_left (codes : List ℕ) (h : GoodCodes codes) (a b c : ℕ) (hab : a ≤ b)
    (hbc : b < c) (hc : c < codes.length) : cpN codes a c ≤ cpN codes b c := by
  rcases lt_or_eq_of_le hab with hlt | heq
  · rw [cpN_min_rule codes h a b c hlt hbc hc]
    exact min_le_right _ _
  · rw [heq]

theorem cpN_formula (codes : List ℕ) (h : GoodCodes codes) (z : ℕ)
    (hz : z + 1 < codes.length) :
    cpN codes z (z + 1) = 63 - (Nat.log2 (Kkey codes z ^^^ Kkey codes (z + 1)) : ℤ) := by
  rw [cpN, common_prefix_formula codes h.1 h.2.1 z (z + 1) (by omega) hz (by omega)]
  simp [Int.ofNat_eq_natCast]

theorem adj_xor_ne (codes : List ℕ) (h : GoodCodes codes) (z : ℕ)
    (hz : z + 1 < codes.length) : Kkey codes z ^^^ Kkey codes (z + 1) ≠ 0 := by
  rw [Ne, Nat.xor_eq_zero]
  exact Nat.ne_of_lt (Kkey_lt codes h z (z + 1) (by omega) hz)

/-- In a run whose adjacent common prefixes all reach `m`, at most one
adjacent pair has common prefix exactly `m`: the critical bit of a sorted
run flips only once. -/
theorem adj_min_unique (codes : List ℕ) (h : GoodCodes codes) (f l : ℕ) (m : ℤ)
    (hl : l < codes.length)
    (hall : ∀ x : ℕ, f ≤ x → x < l → m ≤ cpN codes x (x + 1))
    (x y : ℕ) (hfx : f ≤ x) (hxy : x < y) (hyl : y < l)
    (hxm : cpN codes x (x + 1) = m) (hym : cpN codes y (y + 1) = m) : False := by
  have hx1 : x + 1 < codes.length := by omega
  have hy1 : y + 1 < codes.length := by omega
  rw [cpN_formula codes h x hx1] at hxm
  rw [cpN_formula codes h y hy1] at hym
  set t := Nat.log2 (Kkey codes x ^^^ Kkey codes (x + 1)) with ht
  have hty : Nat.log2 (Kkey codes y ^^^ Kkey codes (y + 1)) = t := by omega
  -- every adjacent pair in [x, y] agrees above bit t
  have hagree : ∀ z : ℕ, x ≤ z → z ≤ y →
      Kkey codes z / 2 ^ (t + 1) = Kkey codes (z + 1) / 2 ^ (t + 1) := by
    intro z hz1 hz2
    have hz1l : z + 1 < codes.length := by omega
    have hcp := hall z (by omega) (by omega)
    rw [cpN_formula codes h z hz1l] at hcp
    have hlog : Nat.log2 (Kkey codes z ^^^ Kkey codes (z + 1)) ≤ t := by omega
    rw [← xor_lt_two_pow_iff]
    exact lt_of_lt_of_le Nat.lt_log2_self (Nat.pow_le_pow_right (by norm_num) (by omega))
  have hchain : ∀ dz : ℕ, x + dz ≤ y + 1 →
      Kkey codes (x + dz) / 2 ^ (t + 1) = Kkey codes x / 2 ^ (t + 1) := by
    intro dz
    induction dz with
    | zero => intro _; rfl
    | succ dz ihz =>
      intro hle
      have h1 := ihz (by omega)
      have hadj := hagree (x + dz) (by omega) (by omega)
      rw [show x + (dz + 1) = (x + dz) + 1 from rfl, ← hadj]
      exact h1
  -- the level-t quotients live in a two-element block and cannot jump twice
  have hg2 : ∀ z : ℕ, x ≤ z → z ≤ y + 1 →
      Kkey codes z / 2 ^ t / 2 = Kkey codes x / 2 ^ (t + 1) := by
    intro z hz1 hz2
    rw [Nat.div_div_eq_div_mul, ← pow_succ]
    have hch := hchain (z - x) (by omega)
    rw [show x + (z - x) = z from by omega] at hch
    exact hch
  have hjx : Kkey codes x / 2 ^ t ≠ Kkey codes (x + 1) / 2 ^ t := by
    intro hcon
    rw [← xor_lt_two_pow_iff] at hcon
    exact absurd hcon (not_lt.mpr (Nat.log2_self_le (adj_xor_ne codes h x hx1)))
  have hjy : Kkey codes y / 2 ^ t ≠ Kkey codes (y + 1) / 2 ^ t := by
    intro hcon
    rw [← xor_lt_two_pow_iff] at hcon
    have hle := Nat.log2_self_le (adj_xor_ne codes h y hy1)
    rw [hty] at hle
    exact absurd hcon (not_lt.mpr hle)
  have hmono : ∀ a b : ℕ, a ≤ b → b < codes.length →
      Kkey codes a / 2 ^ t ≤ Kkey codes b / 2 ^ t := by
    intro a b hab hb
    rcases lt_or_eq_of_le hab with hlt | heq
    · exact Nat.div_le_div_right (le_of_lt (Kkey_lt codes h a b hlt hb))
    · rw [heq]
  have e1 := hg2 x le_rfl (by omega)
  have e2 := hg2 (x + 1) (by omega) (by omega)
  have e3 := hg2 y (by omega) (by omega)
  have e4 := hg2 (y + 1) (by omega) (by omega)
  have m1 := hmono x (x + 1) (by omega) hx1
  have m2 := hmono (x + 1) y (by omega) (by omega)
  have m3 := hmono y (y + 1) (by omega) hy1
  omega

/-! ### Loop lemmas for `determine_range` and `find_split` -/

theorem cp_gt_neg_one_range (codes : List ℕ) (i j : ℤ)
    (h : -1 < common_prefix codes i j) : 0 ≤ j ∧ j < (codes.length : ℤ) := by
  by_cases h0 : j < 0 ∨ (codes.length : ℤ) ≤ j
  · rw [cp_out_of_range codes i j h0] at h
    omega
  · push_neg at h0
    exact ⟨h0.1, h0.2⟩

theorem drExpo_succ (codes : List ℕ) (i d delta_min : ℤ) (fuel : ℕ) (l : ℤ) :
    drExpo codes i d delta_min (fuel + 1) l =
      if common_prefix codes i (i + l * d) > delta_min then
        drExpo codes i d delta_min fuel (wrap32 (l * 2))
      else some l := rfl

theorem wrap32_eq_self (x : ℤ) (h1 : -2 ^ 31 ≤ x) (h2 : x < 2 ^ 31) :
    wrap32 x = x := by
  unfold wrap32
  omega

theorem wrap32_top : wrap32 (2 ^ 31) = -2 ^ 31 := by
  unfold wrap32
  decide

theorem drExpo_spec (codes : List ℕ) (i d delta_min : ℤ) (M : ℤ)
    (hM : ∀ b : ℤ, M ≤ b → ¬ common_prefix codes i (i + b * d) > delta_min)
    (hM30 : M ≤ 2 ^ 30) :
    ∀ fuel (l : ℤ), 0 < l → M ≤ l * 2 ^ fuel →
      ∃ (L : ℤ) (k : ℕ), drExpo codes i d delta_min (fuel + 1) l = some L ∧
        L = l * 2 ^ k ∧ ¬ common_prefix codes i (i + L * d) > delta_min := by
  intro fuel
  induction fuel with
  | zero =>
    intro l hl hM2
    have hMl : M ≤ l := by simpa using hM2
    refine ⟨l, 0, ?_, by ring, hM l hMl⟩
    rw [drExpo_succ, if_neg (hM l hMl)]
  | succ fuel ih =>
    intro l hl hM2
    by_cases hP : common_prefix codes i (i + l * d) > delta_min
    · rw [drExpo_succ, if_pos hP]
      have hlM : l < M := by
        by_contra hc
        push_neg at hc
        exact (hM l hc) hP
      have hw : wrap32 (l * 2) = l * 2 :=
        wrap32_eq_self _ (by omega) (by omega)
      rw [hw]
      have hM3 : M ≤ l * 2 * 2 ^ fuel := by
        calc M ≤ l * 2 ^ (fuel + 1) := hM2
        _ = l * 2 * 2 ^ fuel := by ring
      obtain ⟨L, k, hL, hLk, hnP⟩ := ih (l * 2) (by omega) hM3
      exact ⟨L, k + 1, hL, by rw [hLk]; ring, hnP⟩
    · rw [drExpo_succ, if_neg hP]
      exact ⟨l, 0, rfl, by ring, hP⟩

theorem drBin_t_zero (codes : List ℕ) (i d delta_min : ℤ) (fuel : ℕ) (bound : ℤ) :
    drBin codes i d delta_min (fuel + 1) bound 0 = some bound := rfl

theorem drBin_succ (codes : List ℕ) (i d delta_min : ℤ) (fuel : ℕ) (bound : ℤ) (t : ℕ) :
    drBin codes i d delta_min (fuel + 1) bound (t + 1) =
      drBin codes i d delta_min fuel
        (if common_prefix codes i (i + (bound + ((t : ℤ) + 1)) * d) > delta_min
          then bound + ((t : ℤ) + 1) else bound) ((t + 1) / 2) := by
  show drBin codes i d delta_min (fuel + 1) bound (t + 1) =
      drBin codes i d delta_min fuel
        (if common_prefix codes i (i + (bound + ((t + 1 : ℕ) : ℤ)) * d) > delta_min
          then bound + ((t + 1 : ℕ) : ℤ) else bound) ((t + 1) / 2)
  rfl

theorem drBin_some (codes : List ℕ) (i d delta_min : ℤ) :
    ∀ fuel (t : ℕ) (bound : ℤ), t < fuel →
      ∃ r, drBin codes i d delta_min fuel bound t = some r ∧ bound ≤ r ∧
        (r = bound ∨ common_prefix codes i (i + r * d) > delta_min) := by
  intro fuel
  induction fuel with
  | zero => intro t bound h; exact absurd h (by omega)
  | succ fuel ih =>
    intro t bound h
    match t with
    | 0 => exact ⟨bound, drBin_t_zero codes i d delta_min fuel bound, le_rfl, Or.inl rfl⟩
    | t + 1 =>
      rw [drBin_succ]
      by_cases hP : common_prefix codes i (i + (bound + ((t : ℤ) + 1)) * d) > delta_min
      · rw [if_pos hP]
        obtain ⟨r, hr, hbr, hor⟩ := ih ((t + 1) / 2) (bound + ((t : ℤ) + 1)) (by omega)
        refine ⟨r, hr, by omega, ?_⟩
        rcases hor with hor | hor
        · rw [hor]; exact Or.inr hP
        · exact Or.inr hor
      · rw [if_neg hP]
        obtain ⟨r, hr, hbr, hor⟩ := ih ((t + 1) / 2) bound (by omega)
        exact ⟨r, hr, hbr, hor⟩

theorem drBin_spec (codes : List ℕ) (i d delta_min : ℤ) (A : ℤ)
    (hmax : ∀ b : ℤ, common_prefix codes i (i + b * d) > delta_min → b ≤ A)
    (hdc : ∀ b : ℤ, 0 ≤ b → b ≤ A → common_prefix codes i (i + b * d) > delta_min) :
    ∀ fuel (t : ℕ) (bound : ℤ), t + 1 ≤ fuel → (t = 0 ∨ ∃ k : ℕ, t = 2 ^ k) →
      0 ≤ bound → bound ≤ A → (t = 0 → A = bound) →
      (1 ≤ t → A ≤ bound + 2 * (t : ℤ) - 1) →
      drBin codes i d delta_min fuel bound t = some A := by
  intro fuel
  induction fuel with
  | zero => intro t bound h; exact absurd h (by omega)
  | succ fuel ih =>
    intro t bound hfuel hpow hb0 hbA h0 h1
    match t with
    | 0 => rw [drBin_t_zero, h0 rfl]
    | t + 1 =>
      rcases hpow with hpow | ⟨k, hk⟩
      · exact absurd hpow (by omega)
      have hup : A ≤ bound + 2 * ((t : ℤ) + 1) - 1 := by
        have := h1 (by omega)
        push_cast at this ⊢
        omega
      rw [drBin_succ]
      by_cases hP : common_prefix codes i (i + (bound + ((t : ℤ) + 1)) * d) > delta_min
      · rw [if_pos hP]
        have hble : bound + ((t : ℤ) + 1) ≤ A := hmax _ hP
        match k, hk with
        | 0, hk =>
          have ht0 : t = 0 := by omega
          subst ht0
          apply ih 0 (bound + ((0 : ℤ) + 1)) (by omega) (Or.inl rfl) (by omega) hble
          · intro _
            norm_num at hble hup ⊢
            omega
          · intro hc; exact absurd hc (by omega)
        | k + 1, hk =>
          have ht2 : t + 1 = 2 * 2 ^ k := by rw [hk, pow_succ]; ring
          have htd : (t + 1) / 2 = 2 ^ k := by omega
          have hcast : ((t : ℤ) + 1) = 2 * ((((t + 1) / 2 : ℕ)) : ℤ) := by
            rw [htd]
            exact_mod_cast ht2
          apply ih ((t + 1) / 2) (bound + ((t : ℤ) + 1)) (by omega)
            (Or.inr ⟨k, htd⟩) (by omega) hble
          · intro hc
            rw [htd] at hc
            exact absurd hc (by positivity)
          · intro _
            omega
      · rw [if_neg hP]
        have hAlt : A ≤ bound + ((t : ℤ) + 1) - 1 := by
          by_contra hc
          push_neg at hc
          exact hP (hdc _ (by omega) (by omega))
        match k, hk with
        | 0, hk =>
          have ht0 : t = 0 := by omega
          subst ht0
          apply ih 0 bound (by omega) (Or.inl rfl) hb0 hbA
          · intro _; omega
          · intro hc; exact absurd hc (by omega)
        | k + 1, hk =>
          have ht2 : t + 1 = 2 * 2 ^ k := by rw [hk, pow_succ]; ring
          have htd : (t + 1) / 2 = 2 ^ k := by omega
          have hcast : ((t : ℤ) + 1) = 2 * ((((t + 1) / 2 : ℕ)) : ℤ) := by
            rw [htd]
            exact_mod_cast ht2
          apply ih ((t + 1) / 2) bound (by omega) (Or.inr ⟨k, htd⟩) hb0 hbA
          · intro hc
            rw [htd] at hc
            exact absurd hc (by positivity)
          · intro _
            omega

theorem fsLoop_succ (codes : List ℕ) (first last common : ℤ) (fuel : ℕ)
    (split : ℤ) (step : ℕ) :
    fsLoop codes first last common (fuel + 1) split step =
      (if ((step + 1) / 2 : ℕ) ≤ 1 then
        some (if split + (((step + 1) / 2 : ℕ) : ℤ) < last ∧
            common_prefix codes first (split + (((step + 1) / 2 : ℕ) : ℤ)) > common
          then split + (((step + 1) / 2 : ℕ) : ℤ) else split)
      else fsLoop codes first last common fuel
        (if split + (((step + 1) / 2 : ℕ) : ℤ) < last ∧
            common_prefix codes first (split + (((step + 1) / 2 : ℕ) : ℤ)) > common
          then split + (((step + 1) / 2 : ℕ) : ℤ) else split) ((step + 1) / 2)) := rfl

theorem fsLoop_some (codes : List ℕ) (first last common : ℤ) :
    ∀ fuel (split : ℤ) (step : ℕ), step < fuel →
      ∃ r, fsLoop codes first last common fuel split step = some r ∧ split ≤ r := by
  intro fuel
  induction fuel with
  | zero => intro split step h; exact absurd h (by omega)
  | succ fuel ih =>
    intro split step h
    rw [fsLoop_succ]
    have hsp : split ≤ (if split + (((step + 1) / 2 : ℕ) : ℤ) < last ∧
        common_prefix codes first (split + (((step + 1) / 2 : ℕ) : ℤ)) > common
      then split + (((step + 1) / 2 : ℕ) : ℤ) else split) := by
      split
      · have : (0 : ℤ) ≤ (((step + 1) / 2 : ℕ) : ℤ) := Int.natCast_nonneg _
        omega
      · exact le_rfl
    by_cases hle : ((step + 1) / 2 : ℕ) ≤ 1
    · rw [if_pos hle]
      exact ⟨_, rfl, hsp⟩
    · rw [if_neg hle]
      obtain ⟨r, hr, hsr⟩ := ih _ ((step + 1) / 2) (by omega)
      exact ⟨r, hr, le_trans hsp hsr⟩

theorem determine_range_eq (codes : List ℕ) (i d0 dm0 : ℤ)
    (hd : d0 = if common_prefix codes i (i + 1) - common_prefix codes i (i - 1) > 0
      then (1 : ℤ) else -1)
    (hdm : dm0 = common_prefix codes i (i - d0)) :
    determine_range codes i =
      (drExpo codes i d0 dm0 (codes.length + 2) 1).bind fun l =>
      (drBin codes i d0 dm0 ((l / 2).toNat + 1) 0 (l / 2).toNat).bind fun bound =>
      some (min i (i + bound * d0), max i (i + bound * d0)) := by
  subst hd
  subst hdm
  rfl

/-- Generic termination of the (wrapping) exponential search: from any
power of two it halts, either at a failing power or right after the wrap
to `i32::MIN`. -/
theorem drExpo_term (codes : List ℕ) (i d delta_min : ℤ)
    (hM : ∀ b : ℤ, (codes.length : ℤ) ≤ b →
      ¬ common_prefix codes i (i + b * d) > delta_min)
    (hneg : ¬ common_prefix codes i (i + (-2 ^ 31) * d) > delta_min) :
    ∀ fuel (k : ℕ), k ≤ 30 → (codes.length : ℤ) ≤ 2 ^ k * 2 ^ fuel →
      ∃ L, drExpo codes i d delta_min (fuel + 1) (2 ^ k) = some L := by
  intro fuel
  induction fuel with
  | zero =>
    intro k hk hb
    have hb2 : (codes.length : ℤ) ≤ 2 ^ k := by simpa using hb
    rw [drExpo_succ, if_neg (hM (2 ^ k) hb2)]
    exact ⟨_, rfl⟩
  | succ fuel ih =>
    intro k hk hb
    by_cases hP : common_prefix codes i (i + 2 ^ k * d) > delta_min
    · rw [drExpo_succ, if_pos hP]
      have h2kn : (2 : ℤ) ^ k < (codes.length : ℤ) := by
        by_contra hc
        push_neg at hc
        exact (hM (2 ^ k) hc) hP
      by_cases hk30 : k = 30
      · subst hk30
        rw [show (2 : ℤ) ^ 30 * 2 = 2 ^ 31 from by norm_num, wrap32_top,
          drExpo_succ, if_neg hneg]
        exact ⟨_, rfl⟩
      · have hk' : k + 1 ≤ 30 := by omega
        have hpow : (2 : ℤ) ^ (k + 1) ≤ 2 ^ 30 :=
          pow_le_pow_right (by norm_num) hk'
        have hpos : (0 : ℤ) < 2 ^ (k + 1) := by positivity
        rw [show (2 : ℤ) ^ k * 2 = 2 ^ (k + 1) from by rw [pow_succ],
          wrap32_eq_self _ (by omega) (by omega)]
        apply ih (k + 1) hk'
        have he : (2 : ℤ) ^ k * 2 ^ (fuel + 1) = 2 ^ (k + 1) * 2 ^ fuel := by ring
        omega
    · rw [drExpo_succ, if_neg hP]
      exact ⟨_, rfl⟩

theorem determine_range_some (codes : List ℕ) (h : GoodCodes codes) (i : ℕ)
    (hi1 : i + 1 < codes.length) :
    ∃ f l : ℕ, determine_range codes (i : ℤ) = some ((f : ℤ), (l : ℤ)) ∧
      f ≤ i ∧ i ≤ l ∧ l < codes.length := by
  set d : ℤ := if common_prefix codes (i : ℤ) ((i : ℤ) + 1) -
      common_prefix codes (i : ℤ) ((i : ℤ) - 1) > 0 then (1 : ℤ) else -1 with hd
  set dm : ℤ := common_prefix codes (i : ℤ) ((i : ℤ) - d) with hdm
  have hd1 : d = 1 ∨ d = -1 := by rw [hd]; split <;> [exact Or.inl rfl; exact Or.inr rfl]
  have hdmg : -1 ≤ dm := by rw [hdm]; exact cp_ge_neg_one codes h i (by omega) _
  have hic : (i : ℤ) < (codes.length : ℤ) := by exact_mod_cast (by omega : i < codes.length)
  have hM : ∀ b : ℤ, (codes.length : ℤ) ≤ b →
      ¬ common_prefix codes (i : ℤ) ((i : ℤ) + b * d) > dm := by
    intro b hb hP
    have hr := cp_gt_neg_one_range codes (i : ℤ) ((i : ℤ) + b * d) (by omega)
    rcases hd1 with hd' | hd' <;> rw [hd'] at hr <;>
      simp only [mul_one, mul_neg_one] at hr <;> omega
  have h2p : (codes.length : ℤ) ≤ 1 * 2 ^ (codes.length + 1) := by
    have h1 : (codes.length : ℤ) < 2 ^ codes.length := by
      exact_mod_cast Nat.lt_two_pow codes.length
    have h2 : (2 : ℤ) ^ codes.length ≤ 2 ^ (codes.length + 1) :=
      pow_le_pow_right (by norm_num) (by omega)
    rw [one_mul]
    linarith
  have hn31 : (codes.length : ℤ) < 2 ^ 31 := by exact_mod_cast h.2.1
  have hneg : ¬ common_prefix codes (i : ℤ) ((i : ℤ) + (-2 ^ 31) * d) > dm := by
    intro hP
    have hr := cp_gt_neg_one_range codes (i : ℤ) ((i : ℤ) + (-2 ^ 31) * d) (by omega)
    rcases hd1 with hd' | hd' <;> rw [hd'] at hr <;>
      simp only [mul_one, mul_neg_one, neg_neg] at hr <;> omega
  obtain ⟨L, hL⟩ := drExpo_term codes (i : ℤ) d dm hM hneg (codes.length + 1) 0
    (by omega) (by simpa using h2p)
  have hL2 : drExpo codes (i : ℤ) d dm (codes.length + 2) 1 = some L := by
    have he : ((2 : ℤ) ^ 0) = 1 := by norm_num
    rw [← he]
    exact hL
  obtain ⟨r, hrB, hr0, hror⟩ :=
    drBin_some codes (i : ℤ) d dm ((L / 2).toNat + 1) ((L / 2).toNat) 0 (by omega)
  have hj : 0 ≤ (i : ℤ) + r * d ∧ (i : ℤ) + r * d < (codes.length : ℤ) := by
    rcases hror with hror | hror
    · rw [hror, zero_mul, add_zero]
      exact ⟨Int.natCast_nonneg i, hic⟩
    · exact cp_gt_neg_one_range codes (i : ℤ) ((i : ℤ) + r * d) (by omega)
  refine ⟨(min (i : ℤ) ((i : ℤ) + r * d)).toNat,
    (max (i : ℤ) ((i : ℤ) + r * d)).toNat, ?_, ?_, ?_, ?_⟩
  · rw [determine_range_eq codes (i : ℤ) d dm hd hdm, hL2]
    simp only [Option.some_bind]
    rw [hrB]
    simp only [Option.some_bind]
    rw [Int.toNat_of_nonneg (le_min (Int.natCast_nonneg i) hj.1),
      Int.toNat_of_nonneg (le_trans (Int.natCast_nonneg i) (le_max_left _ _))]
  · have h1 := min_le_left (i : ℤ) ((i : ℤ) + r * d)
    omega
  · have h1 := le_max_left (i : ℤ) ((i : ℤ) + r * d)
    omega
  · have h1 := max_lt hic hj.2
    omega

theorem find_split_some (codes : List ℕ) (first last : ℤ) :
    ∃ s, find_split codes first last = some s ∧ first ≤ s := by
  obtain ⟨r, hr, hsr⟩ := fsLoop_some codes first last ( common_prefix codes first last)
    ((last - first).toNat + 1) first ((last - first).toNat) (by omega)
  exact ⟨r, hr, hsr⟩

theorem fsLoop_spec (codes : List ℕ) (first last common : ℤ) (A : ℤ)
    (hAl : A < last)
    (hup : ∀ s : ℤ, first < s → s < last →
      ¬ common_prefix codes first s > common → A < s)
    (hmax : ∀ s : ℤ, first < s → s < last →
      common_prefix codes first s > common → s ≤ A) :
    ∀ fuel (split : ℤ) (step : ℕ), step ≤ fuel → 1 ≤ step →
      first ≤ split → split ≤ A → A ≤ split + (step : ℤ) - 1 →
      fsLoop codes first last common fuel split step = some A := by
  intro fuel
  induction fuel with
  | zero => intro split step h h1; exact absurd h (by omega)
  | succ fuel ih =>
    intro split step hfuel hstep hfs hsA hA
    rw [fsLoop_succ]
    set step' : ℕ := (step + 1) / 2 with hstep'
    have hs1 : 1 ≤ step' := by omega
    have hs2 : step ≤ 2 * step' := by omega
    set new : ℤ := split + ((step' : ℕ) : ℤ) with hnew
    have hfn : first < new := by
      have : (1 : ℤ) ≤ ((step' : ℕ) : ℤ) := by exact_mod_cast hs1
      omega
    have hinv : (if new < last ∧ common_prefix codes first new > common
        then new else split) ≤ A ∧
        A ≤ (if new < last ∧ common_prefix codes first new > common
        then new else split) + (step' : ℤ) - 1 ∧
        first ≤ (if new < last ∧ common_prefix codes first new > common
        then new else split) := by
      by_cases hbr : new < last ∧ common_prefix codes first new > common
      · rw [if_pos hbr]
        have h1 := hmax new hfn hbr.1 hbr.2
        have h2 : (step : ℤ) ≤ 2 * ((step' : ℕ) : ℤ) := by exact_mod_cast hs2
        refine ⟨h1, by omega, by omega⟩
      · rw [if_neg hbr]
        refine ⟨hsA, ?_, hfs⟩
        by_cases hlt : new < last
        · have hncp : ¬ common_prefix codes first new > common := by
            intro hc; exact hbr ⟨hlt, hc⟩
          have := hup new hfn hlt hncp
          omega
        · omega
    by_cases hle : step' ≤ 1
    · rw [if_pos hle]
      have hse : step' = 1 := by omega
      obtain ⟨hi1, hi2, _⟩ := hinv
      rw [hse] at hi2
      norm_num at hi2
      congr 1
      omega
    · rw [if_neg hle]
      obtain ⟨hi1, hi2, hi3⟩ := hinv
      exact ih _ step' (by omega) (by omega) hi3 hi1 hi2

/-! ### The topology loop writes each internal node once -/

/-- The children attached to internal node `i` by iteration `i` of the
topology loop (lines 390-405), as a function of `codes` and `i` alone. -/
def nodeChildren (codes : List ℕ) (i : ℕ) : Option (TempChild × TempChild) :=
  (determine_range codes (i : ℤ)).bind fun fl =>
  (find_split codes fl.1 fl.2).bind fun split =>
  some (if split = fl.1 then TempChild.leaf split.toNat
      else TempChild.internal split.toNat,
    if split + 1 = fl.2 then TempChild.leaf (split + 1).toNat
      else TempChild.internal (split + 1).toNat)

theorem topologyStep_eq (codes : List ℕ) (ints : List TempNode) (hp : List Bool) (i : ℕ) :
    topologyStep codes (ints, hp) i =
      (determine_range codes (i : ℤ)).bind fun fl =>
      (find_split codes fl.1 fl.2).bind fun split =>
      (fun p1 p2 =>
        some (ints.set i
          { left := some p1.1, right := some p2.1, object_id := -1, aabb := default },
          p2.2))
        (if split = fl.1 then (TempChild.leaf split.toNat, hp)
          else (TempChild.internal split.toNat, hp.set split.toNat true))
        (if split + 1 = fl.2
          then (TempChild.leaf (split + 1).toNat,
            (if split = fl.1 then (TempChild.leaf split.toNat, hp)
              else (TempChild.internal split.toNat, hp.set split.toNat true)).2)
          else (TempChild.internal (split + 1).toNat,
            (if split = fl.1 then (TempChild.leaf split.toNat, hp)
              else (TempChild.internal split.toNat, hp.set split.toNat true)).2.set
              (split + 1).toNat true)) := rfl

theorem topologyStep_some (codes : List ℕ) (h : GoodCodes codes) (ints : List TempNode)
    (hp : List Bool) (i : ℕ) (hi1 : i + 1 < codes.length) :
    ∃ lc rc hp', nodeChildren codes i = some (lc, rc) ∧
      topologyStep codes (ints, hp) i = some (ints.set i
        { left := some lc, right := some rc, object_id := -1, aabb := default }, hp') ∧
      hp'.length = hp.length ∧ hp'.get? 0 = hp.get? 0 := by
  obtain ⟨f, l, hdr, hfi, hil, hln⟩ := determine_range_some codes h i hi1
  obtain ⟨s, hfs, hs⟩ := find_split_some codes (f : ℤ) (l : ℤ)
  have h0s : (0 : ℤ) ≤ s := le_trans (Int.natCast_nonneg f) hs
  have hnc : nodeChildren codes i = some
      (if s = (f : ℤ) then TempChild.leaf s.toNat else TempChild.internal s.toNat,
       if s + 1 = (l : ℤ) then TempChild.leaf (s + 1).toNat
         else TempChild.internal (s + 1).toNat) := by
    unfold nodeChildren
    rw [hdr]
    simp only [Option.some_bind]
    rw [hfs]
    simp only [Option.some_bind]
  have hts := topologyStep_eq codes ints hp i
  rw [hdr] at hts
  simp only [Option.some_bind] at hts
  rw [hfs] at hts
  simp only [Option.some_bind] at hts
  by_cases hc1 : s = (f : ℤ)
  · rw [if_pos hc1] at hnc hts
    by_cases hc2 : s + 1 = (l : ℤ)
    · rw [if_pos hc2] at hnc hts
      exact ⟨_, _, hp, hnc, hts, rfl, rfl⟩
    · rw [if_neg hc2] at hnc hts
      refine ⟨_, _, _, hnc, hts, ?_, ?_⟩
      · simp
      · exact list_get?_set_ne hp (s + 1).toNat 0 true (by omega)
  · rw [if_neg hc1] at hnc hts
    have hs1 : 1 ≤ s := by omega
    by_cases hc2 : s + 1 = (l : ℤ)
    · rw [if_pos hc2] at hnc hts
      refine ⟨_, _, _, hnc, hts, ?_, ?_⟩
      · simp
      · exact list_get?_set_ne hp s.toNat 0 true (by omega)
    · rw [if_neg hc2] at hnc hts
      refine ⟨_, _, _, hnc, hts, ?_, ?_⟩
      · simp
      · rw [list_get?_set_ne _ (s + 1).toNat 0 true (by omega),
          list_get?_set_ne hp s.toNat 0 true (by omega)]

/-- The freshly allocated internal node array (lines 377-386). -/
def initInternals (n : ℕ) : List TempNode :=
  List.replicate (n - 1) { left := none, right := none, object_id := -1, aabb := default }

theorem buildTopology_fold (codes : List ℕ) (h : GoodCodes codes) (n : ℕ)
    (hn : n = codes.length) (hn2 : 2 ≤ n) :
    ∀ m, m ≤ n - 1 → ∃ ints hp,
      (List.range m).foldlM (topologyStep codes)
        (initInternals n, List.replicate (n - 1) false) = some (ints, hp) ∧
      ints.length = n - 1 ∧ hp.get? 0 = some false ∧
      (∀ i, i < m → ∃ lc rc, nodeChildren codes i = some (lc, rc) ∧
        ints.get? i = some { left := some lc, right := some rc, object_id := -1,
                             aabb := default }) := by
  intro m
  induction m with
  | zero =>
    intro _
    refine ⟨initInternals n, List.replicate (n - 1) false, rfl, by simp [initInternals], ?_,
      fun i hi => absurd hi (by omega)⟩
    have hpos : 0 < n - 1 := by omega
    simp [List.get?_eq_getElem?, List.getElem?_replicate, hpos]
  | succ m ih =>
    intro hm
    obtain ⟨ints, hp, hfold, hlen, hp0, hdesc⟩ := ih (by omega)
    obtain ⟨lc, rc, hp', hnc, hstep, hplen, hpget⟩ :=
      topologyStep_some codes h ints hp m (by omega)
    refine ⟨ints.set m { left := some lc, right := some rc, object_id := -1,
                         aabb := default }, hp', ?_, by simp [hlen], by rw [hpget]; exact hp0, ?_⟩
    · rw [List.range_succ, List.foldlM_append, hfold]
      simp only [Option.bind_eq_bind, Option.some_bind, List.foldlM_cons, List.foldlM_nil]
      rw [hstep]
      rfl
    · intro i hi
      by_cases him : i = m
      · subst him
        exact ⟨lc, rc, hnc, by rw [list_get?_set_self _ _ _ (by omega)]⟩
      · obtain ⟨lc2, rc2, hnc2, hget2⟩ := hdesc i (by omega)
        exact ⟨lc2, rc2, hnc2, by rw [list_get?_set_ne _ m i _ (by omega)]; exact hget2⟩

theorem buildTopology_spec (codes : List ℕ) (h : GoodCodes codes) (n : ℕ)
    (hn : n = codes.length) (hn2 : 2 ≤ n) :
    ∃ ints hp, buildTopology codes n = some (ints, hp) ∧
      ints.length = n - 1 ∧ hp.get? 0 = some false ∧
      (∀ i, i < n - 1 → ∃ lc rc, nodeChildren codes i = some (lc, rc) ∧
        ints.get? i = some { left := some lc, right := some rc, object_id := -1,
                             aabb := default }) := by
  obtain ⟨ints, hp, hfold, hrest⟩ := buildTopology_fold codes h n hn hn2 (n - 1) le_rfl
  exact ⟨ints, hp, hfold, hrest⟩

/-! ### The Karras range invariant -/

/-- The adjacent common prefix `δ(x)` between leaves `x` and `x+1`
(equal to `-1` when `x + 1` is out of range). -/
def delta (codes : List ℕ) (x : ℕ) : ℤ := cpN codes x (x + 1)

/-- The adjacent common prefix just left of position `f` (`-1` at the
array edge). -/
def deltaL (codes : List ℕ) (f : ℕ) : ℤ := if f = 0 then -1 else delta codes (f - 1)

theorem cpN_le_63 (codes : List ℕ) (h : GoodCodes codes) (a b : ℕ)
    (ha : a < codes.length) (hb : b < codes.length) (hab : a ≠ b) :
    cpN codes a b ≤ 63 := by
  rw [cpN, common_prefix_formula codes h.1 h.2.1 a b ha hb hab]
  simp only [Int.ofNat_eq_natCast]
  omega

theorem cpN_nonneg (codes : List ℕ) (h : GoodCodes codes) (a b : ℕ)
    (ha : a < codes.length) (hb : b < codes.length) (hab : a ≠ b) :
    0 ≤ cpN codes a b := by
  rw [cpN, common_prefix_formula codes h.1 h.2.1 a b ha hb hab]
  have hka := Kkey_lt_two_pow codes h a ha
  have hkb := Kkey_lt_two_pow codes h b hb
  have hlt : Kkey codes a ^^^ Kkey codes b < 2 ^ 63 := Nat.xor_lt_two_pow hka hkb
  have hne : Kkey codes a ^^^ Kkey codes b ≠ 0 := by
    rw [Ne, Nat.xor_eq_zero]
    intro hc
    rcases lt_trichotomy a b with hq | hq | hq
    · exact absurd hc (Nat.ne_of_lt (Kkey_lt codes h a b hq hb))
    · exact hab hq
    · exact absurd hc.symm (Nat.ne_of_lt (Kkey_lt codes h b a hq ha))
  have hlog : Nat.log2 (Kkey codes a ^^^ Kkey codes b) < 63 := (Nat.log2_lt hne).mpr hlt
  simp only [Int.ofNat_eq_natCast]
  omega

theorem delta_ge_neg_one (codes : List ℕ) (h : GoodCodes codes) (x : ℕ)
    (hx : x < codes.length) : -1 ≤ delta codes x :=
  cp_ge_neg_one codes h x hx _

theorem delta_le_63 (codes : List ℕ) (h : GoodCodes codes) (x : ℕ)
    (hx : x + 1 < codes.length) : delta codes x ≤ 63 :=
  cpN_le_63 codes h x (x + 1) (by omega) hx (by omega)

theorem delta_nonneg (codes : List ℕ) (h : GoodCodes codes) (x : ℕ)
    (hx : x + 1 < codes.length) : 0 ≤ delta codes x :=
  cpN_nonneg codes h x (x + 1) (by omega) hx (by omega)

theorem delta_oor (codes : List ℕ) (x : ℕ) (hx : codes.length ≤ x + 1) :
    delta codes x = -1 := by
  unfold delta cpN
  exact cp_out_of_range codes x (((x + 1 : ℕ) : ℤ)) (Or.inr (by exact_mod_cast hx))

theorem deltaL_ge_neg_one (codes : List ℕ) (h : GoodCodes codes) (f : ℕ)
    (hf : f < codes.length) : -1 ≤ deltaL codes f := by
  unfold deltaL
  split
  · omega
  · exact delta_ge_neg_one codes h (f - 1) (by omega)

theorem deltaL_le_63 (codes : List ℕ) (h : GoodCodes codes) (f : ℕ)
    (hf : f < codes.length) : deltaL codes f ≤ 63 := by
  unfold deltaL
  split
  · omega
  · rename_i hf0
    exact delta_le_63 codes h (f - 1) (by omega)

/-- The common-prefix run characterisation restated on half-open index
ranges. -/
theorem cp_run_iff (codes : List ℕ) (h : GoodCodes codes) (a m : ℕ) (ham : a < m)
    (hm : m < codes.length) (v : ℤ) :
    v < cpN codes a m ↔ ∀ x, a ≤ x → x < m → v < delta codes x := by
  have hrun := cp_run_gt codes h (m - a - 1) a v (by omega)
  rw [show a + (m - a - 1) + 1 = m from by omega] at hrun
  rw [hrun]
  exact ⟨fun hh x hx1 hx2 => hh x hx1 (by omega), fun hh x hx1 hx2 => hh x hx1 (by omega)⟩

theorem cp_min_le (codes : List ℕ) (h : GoodCodes codes) (f l x : ℕ) (hfl : f < l)
    (hl : l < codes.length) (hx : f ≤ x) (hxl : x < l) :
    cpN codes f l ≤ delta codes x := by
  by_contra hc
  push_neg at hc
  exact absurd ((cp_run_iff codes h f l hfl hl (delta codes x)).mp hc x hx hxl)
    (lt_irrefl _)

theorem cp_min_attained (codes : List ℕ) (h : GoodCodes codes) (f l : ℕ) (hfl : f < l)
    (hl : l < codes.length) :
    ∃ x, f ≤ x ∧ x < l ∧ delta codes x = cpN codes f l := by
  by_contra hc
  push_neg at hc
  have hall : ∀ x, f ≤ x → x < l → cpN codes f l < delta codes x := by
    intro x hx1 hx2
    have h1 := cp_min_le codes h f l x hfl hl hx1 hx2
    have h2 := hc x hx1 hx2
    omega
  exact absurd ((cp_run_iff codes h f l hfl hl (cpN codes f l)).mpr hall) (lt_irrefl _)

/-- The invariant of a Karras internal node `i` covering leaf range
`[f, l]`: the node index sits at the end of its range adjacent to the
larger boundary prefix, and every adjacent prefix inside the range beats
both boundary prefixes. -/
def NodeRange (codes : List ℕ) (i f l : ℕ) : Prop :=
  f < l ∧ l < codes.length ∧
  ((i = f ∧ delta codes l ≤ deltaL codes f) ∨
    (i = l ∧ deltaL codes f ≤ delta codes l)) ∧
  ∀ x, f ≤ x → x < l → max (deltaL codes f) (delta codes l) < delta codes x

theorem nodeRange_boundary (codes : List ℕ) (h : GoodCodes codes) {i f l : ℕ}
    (hnr : NodeRange codes i f l) :
    max (deltaL codes f) (delta codes l) < cpN codes f l := by
  obtain ⟨hfl, hl, _, hin⟩ := hnr
  exact (cp_run_iff codes h f l hfl hl _).mpr hin

/-- `find_split` on a node range returns the unique position of the
minimal adjacent prefix. -/
theorem find_split_spec (codes : List ℕ) (h : GoodCodes codes) {i f l : ℕ}
    (hnr : NodeRange codes i f l) :
    ∃ s : ℕ, find_split codes (f : ℤ) (l : ℤ) = some ((s : ℕ) : ℤ) ∧ f ≤ s ∧ s < l ∧
      delta codes s = cpN codes f l ∧
      ∀ x, f ≤ x → x < l → x ≠ s → cpN codes f l < delta codes x := by
  obtain ⟨hfl, hl, hend, hin⟩ := hnr
  obtain ⟨s0, hs1, hs2, hs3⟩ := cp_min_attained codes h f l hfl hl
  have huniq : ∀ x, f ≤ x → x < l → x ≠ s0 → cpN codes f l < delta codes x := by
    intro x hx1 hx2 hxs
    have hge := cp_min_le codes h f l x hfl hl hx1 hx2
    rcases lt_or_eq_of_le hge with hlt | heq
    · exact hlt
    · exfalso
      have hall : ∀ z : ℕ, f ≤ z → z < l → cpN codes f l ≤ cpN codes z (z + 1) :=
        fun z hz1 hz2 => cp_min_le codes h f l z hfl hl hz1 hz2
      rcases lt_trichotomy x s0 with hx' | hx' | hx'
      · exact adj_min_unique codes h f l (cpN codes f l) hl hall x s0 hx1 hx' hs2
          heq.symm hs3
      · exact hxs hx'
      · exact adj_min_unique codes h f l (cpN codes f l) hl hall s0 x hs1 hx' hx2
          hs3 heq.symm
  have hup : ∀ t : ℤ, (f : ℤ) < t → t < (l : ℤ) →
      ¬ common_prefix codes (f : ℤ) t > common_prefix codes (f : ℤ) (l : ℤ) →
      ((s0 : ℕ) : ℤ) < t := by
    intro t ht1 ht2 hncp
    by_contra hc
    push_neg at hc
    obtain ⟨tn, rfl⟩ : ∃ tn : ℕ, t = (tn : ℤ) := ⟨t.toNat, by omega⟩
    have htn1 : f < tn := by exact_mod_cast ht1
    have htn2 : tn < l := by exact_mod_cast ht2
    have htn3 : tn ≤ s0 := by exact_mod_cast hc
    apply hncp
    show cpN codes f l < cpN codes f tn
    rw [cp_run_iff codes h f tn htn1 (by omega) _]
    intro x hx1 hx2
    exact huniq x hx1 (by omega) (by omega)
  have hmax : ∀ t : ℤ, (f : ℤ) < t → t < (l : ℤ) →
      common_prefix codes (f : ℤ) t > common_prefix codes (f : ℤ) (l : ℤ) →
      t ≤ ((s0 : ℕ) : ℤ) := by
    intro t ht1 ht2 hcp
    by_contra hc
    push_neg at hc
    obtain ⟨tn, rfl⟩ : ∃ tn : ℕ, t = (tn : ℤ) := ⟨t.toNat, by omega⟩
    have htn1 : f < tn := by exact_mod_cast ht1
    have htn2 : tn < l := by exact_mod_cast ht2
    have htn3 : s0 < tn := by exact_mod_cast hc
    have hrun := (cp_run_iff codes h f tn htn1 (by omega)
      (cpN codes f l)).mp hcp s0 hs1 htn3
    rw [show delta codes s0 = cpN codes f l from hs3] at hrun
    exact absurd hrun (lt_irrefl _)
  have hstep : (((l : ℤ) - (f : ℤ)).toNat : ℤ) = (l : ℤ) - (f : ℤ) := by omega
  refine ⟨s0, ?_, hs1, hs2, hs3, huniq⟩
  show fsLoop codes (f : ℤ) (l : ℤ) ( common_prefix codes (f : ℤ) (l : ℤ))
    (((l : ℤ) - (f : ℤ)).toNat + 1) (f : ℤ) (((l : ℤ) - (f : ℤ)).toNat) =
    some ((s0 : ℕ) : ℤ)
  apply fsLoop_spec codes (f : ℤ) (l : ℤ) _ ((s0 : ℕ) : ℤ)
    (by exact_mod_cast hs2) hup hmax
  · omega
  · omega
  · exact le_rfl
  · exact_mod_cast hs1
  · have hc2 : ((s0 : ℕ) : ℤ) < (l : ℤ) := by exact_mod_cast hs2
    omega

/-- The two children ranges produced by a split inherit the range
invariant whenever they are not single leaves. -/
theorem nodeRange_children (codes : List ℕ) (h : GoodCodes codes) {i f l s : ℕ}
    (hnr : NodeRange codes i f l) (hs1 : f ≤ s) (hs2 : s < l)
    (hs3 : delta codes s = cpN codes f l)
    (huniq : ∀ x, f ≤ x → x < l → x ≠ s → cpN codes f l < delta codes x) :
    (f < s → NodeRange codes s f s) ∧ (s + 1 < l → NodeRange codes (s + 1) (s + 1) l) := by
  obtain ⟨hfl, hl, hend, hin⟩ := hnr
  have hbnd := nodeRange_boundary codes h ⟨hfl, hl, hend, hin⟩
  have hdL : deltaL codes f < cpN codes f l :=
    lt_of_le_of_lt (le_max_left _ _) hbnd
  have hdR : delta codes l < cpN codes f l :=
    lt_of_le_of_lt (le_max_right _ _) hbnd
  constructor
  · intro hfs
    refine ⟨hfs, by omega, Or.inr ⟨rfl, ?_⟩, ?_⟩
    · rw [hs3]
      exact le_of_lt hdL
    · intro x hx1 hx2
      rw [hs3, max_eq_right (le_of_lt hdL)]
      exact huniq x hx1 (by omega) (by omega)
  · intro hsl
    have hdl1 : deltaL codes (s + 1) = delta codes s := by
      unfold deltaL
      rw [if_neg (by omega), Nat.add_sub_cancel]
    refine ⟨hsl, hl, Or.inl ⟨rfl, ?_⟩, ?_⟩
    · rw [hdl1, hs3]
      exact le_of_lt hdR
    · intro x hx1 hx2
      rw [hdl1, hs3, max_eq_left (le_of_lt hdR)]
      exact huniq x (by omega) hx2 (by omega)

theorem delta_le_63x (codes : List ℕ) (h : GoodCodes codes) (x : ℕ)
    (hx : x < codes.length) : delta codes x ≤ 63 := by
  by_cases hx1 : x + 1 < codes.length
  · exact delta_le_63 codes h x hx1
  · rw [delta_oor codes x (by omega)]
    norm_num

theorem cp_right_edge (codes : List ℕ) (l : ℕ) :
    common_prefix codes (l : ℤ) ((l : ℤ) + 1) = delta codes l := by
  unfold delta cpN
  congr 1

theorem cp_left_edge (codes : List ℕ) (h : GoodCodes codes) (f : ℕ)
    (hf : f < codes.length) :
    common_prefix codes (f : ℤ) ((f : ℤ) - 1) = deltaL codes f := by
  unfold deltaL
  by_cases hf0 : f = 0
  · subst hf0
    rw [if_pos rfl]
    apply cp_out_of_range
    left
    norm_num
  · rw [if_neg hf0]
    have e : ((f : ℤ) - 1) = ((f - 1 : ℕ) : ℤ) := by omega
    rw [e, cp_symm codes h f (f - 1) hf (by omega)]
    show cpN codes (f - 1) f = delta codes (f - 1)
    unfold delta
    rw [show f - 1 + 1 = f from by omega]

/-- Assembly of `determine_range` from a characterised maximal offset `A`. -/
theorem determine_range_of_spec (codes : List ℕ) (i : ℕ) (d0 dm0 A : ℤ)
    (hd : d0 = if common_prefix codes (i : ℤ) ((i : ℤ) + 1) -
      common_prefix codes (i : ℤ) ((i : ℤ) - 1) > 0 then (1 : ℤ) else -1)
    (hdm : dm0 = common_prefix codes (i : ℤ) ((i : ℤ) - d0))
    (hA1 : 1 ≤ A) (hA30 : A + 1 ≤ 2 ^ 30)
    (hmaxP : ∀ b : ℤ, common_prefix codes (i : ℤ) ((i : ℤ) + b * d0) > dm0 → b ≤ A)
    (hdcP : ∀ b : ℤ, 0 ≤ b → b ≤ A →
      common_prefix codes (i : ℤ) ((i : ℤ) + b * d0) > dm0)
    (hNb : A + 1 ≤ 2 ^ (codes.length + 1)) :
    determine_range codes (i : ℤ) =
      some (min (i : ℤ) ((i : ℤ) + A * d0), max (i : ℤ) ((i : ℤ) + A * d0)) := by
  have hM : ∀ b : ℤ, A + 1 ≤ b →
      ¬ common_prefix codes (i : ℤ) ((i : ℤ) + b * d0) > dm0 := by
    intro b hb hP
    have := hmaxP b hP
    omega
  have h2p : A + 1 ≤ 1 * 2 ^ (codes.length + 1) := by rw [one_mul]; exact hNb
  obtain ⟨L, k, hL, hLk, hnP⟩ :=
    drExpo_spec codes (i : ℤ) d0 dm0 (A + 1) hM hA30 (codes.length + 1) 1 one_pos h2p
  have hL2 : drExpo codes (i : ℤ) d0 dm0 (codes.length + 2) 1 = some L := hL
  have hLval : L = 2 ^ k := by rw [hLk]; ring
  have hAL : A < L := by
    by_contra hc
    push_neg at hc
    exact hnP (hdcP L (by rw [hLval]; positivity) hc)
  have hk1 : 1 ≤ k := by
    by_contra hc
    push_neg at hc
    have hk0 : k = 0 := by omega
    rw [hk0] at hLval
    norm_num at hLval
    omega
  have hhalf : L / 2 = (2 : ℤ) ^ (k - 1) := by
    rw [hLval, show k = (k - 1) + 1 from by omega, pow_succ]
    exact Int.mul_ediv_cancel _ (by norm_num)
  have htoNat : (L / 2).toNat = 2 ^ (k - 1) := by
    have hc2 : ((2 ^ (k - 1) : ℕ) : ℤ) = (2 : ℤ) ^ (k - 1) := by push_cast; ring
    rw [hhalf, ← hc2, Int.toNat_natCast]
  have hcastL : (((L / 2).toNat : ℕ) : ℤ) = L / 2 := by
    rw [htoNat]
    push_cast
    rw [hhalf]
  have h2L : 2 * (L / 2) = L := by
    rw [hhalf, hLval]
    have hps : (2 : ℤ) ^ k = 2 ^ (k - 1) * 2 := by
      rw [← pow_succ]
      congr 1
      omega
    rw [hps]
    ring
  have harg0 : (L / 2).toNat = 0 → A = 0 := by
    intro hc
    rw [htoNat] at hc
    exact absurd hc (by positivity)
  have harg1 : 1 ≤ (L / 2).toNat → A ≤ 0 + 2 * (((L / 2).toNat : ℕ) : ℤ) - 1 := by
    intro _
    rw [hcastL]
    omega
  have hbin := drBin_spec codes (i : ℤ) d0 dm0 A hmaxP hdcP ((L / 2).toNat + 1)
    ((L / 2).toNat) 0 le_rfl (Or.inr ⟨k - 1, htoNat⟩) le_rfl (by omega) harg0 harg1
  rw [determine_range_eq codes (i : ℤ) d0 dm0 hd hdm, hL2]
  simp only [Option.some_bind]
  rw [hbin]
  simp only [Option.some_bind]

/-- Under the range invariant, `determine_range` recovers exactly the
node's range. -/
theorem determine_range_correct (codes : List ℕ) (h : GoodCodes codes)
    (hn30 : codes.length ≤ 2 ^ 30) {i f l : ℕ} (hnr : NodeRange codes i f l) :
    determine_range codes (i : ℤ) = some (((f : ℕ) : ℤ), ((l : ℕ) : ℤ)) := by
  obtain ⟨hfl, hl, hend, hin⟩ := hnr
  have hdL63 := deltaL_le_63 codes h f (by omega)
  have hdLn1 := deltaL_ge_neg_one codes h f (by omega)
  have hdl63 := delta_le_63x codes h l hl
  have hdln1 := delta_ge_neg_one codes h l hl
  have hmx1 := le_max_left (deltaL codes f) (delta codes l)
  have hmx2 := le_max_right (deltaL codes f) (delta codes l)
  have hNb : ((l - f : ℕ) : ℤ) + 1 ≤ 2 ^ (codes.length + 1) := by
    have h1 : ((l - f + 1 : ℕ) : ℤ) ≤ (codes.length : ℤ) := by
      exact_mod_cast (by omega : l - f + 1 ≤ codes.length)
    have h2 : (codes.length : ℤ) < 2 ^ codes.length := by
      exact_mod_cast Nat.lt_two_pow codes.length
    have h3 : (2 : ℤ) ^ codes.length ≤ 2 ^ (codes.length + 1) :=
      pow_le_pow_right (by norm_num) (by omega)
    push_cast at h1
    linarith
  have hA1 : (1 : ℤ) ≤ ((l - f : ℕ) : ℤ) := by
    exact_mod_cast (by omega : 1 ≤ l - f)
  have hlfc : ((l - f : ℕ) : ℤ) = (l : ℤ) - (f : ℤ) := by omega
  rcases hend with ⟨hif, hRL⟩ | ⟨hil, hLR⟩
  · subst hif
    have hcnd : common_prefix codes (i : ℤ) ((i : ℤ) + 1) -
        common_prefix codes (i : ℤ) ((i : ℤ) - 1) > 0 := by
      rw [cp_right_edge codes i, cp_left_edge codes h i (by omega)]
      have := hin i le_rfl hfl
      omega
    have hd0 : (if common_prefix codes (i : ℤ) ((i : ℤ) + 1) -
        common_prefix codes (i : ℤ) ((i : ℤ) - 1) > 0 then (1 : ℤ) else -1) = 1 := by
      rw [if_pos hcnd]
    have hmaxP : ∀ b : ℤ,
        common_prefix codes (i : ℤ) ((i : ℤ) + b * 1) > deltaL codes i →
        b ≤ ((l - i : ℕ) : ℤ) := by
      intro b hP
      rw [mul_one] at hP
      have hrange := cp_gt_neg_one_range codes (i : ℤ) ((i : ℤ) + b) (by omega)
      by_contra hc
      push_neg at hc
      obtain ⟨mn, hmn⟩ : ∃ mn : ℕ, ((i : ℤ) + b) = (mn : ℤ) :=
        ⟨((i : ℤ) + b).toNat, by omega⟩
      have hmn2 : l < mn := by omega
      have hmnlen : mn < codes.length := by
        have h5 := hrange.2
        rw [hmn] at h5
        exact_mod_cast h5
      rw [hmn] at hP
      have hrun := (cp_run_iff codes h i mn (by omega) hmnlen (deltaL codes i)).mp hP
        l (by omega) hmn2
      omega
    have hdcP : ∀ b : ℤ, 0 ≤ b → b ≤ ((l - i : ℕ) : ℤ) →
        common_prefix codes (i : ℤ) ((i : ℤ) + b * 1) > deltaL codes i := by
      intro b hb0 hbA
      rw [mul_one]
      obtain ⟨bn, rfl⟩ : ∃ bn : ℕ, b = (bn : ℤ) := ⟨b.toNat, by omega⟩
      have hbn : bn ≤ l - i := by exact_mod_cast hbA
      have hcast : ((i : ℤ) + (bn : ℤ)) = ((i + bn : ℕ) : ℤ) := by push_cast; ring
      rw [hcast]
      rcases Nat.eq_zero_or_pos bn with hbz | hbz
      · subst hbz
        rw [show ((i + 0 : ℕ) : ℤ) = (i : ℤ) from by norm_num,
          cp_self codes i (by omega)]
        omega
      · show deltaL codes i < cpN codes i (i + bn)
        rw [cp_run_iff codes h i (i + bn) (by omega) (by omega)]
        intro x hx1 hx2
        have := hin x hx1 (by omega)
        omega
    have hmain := determine_range_of_spec codes i 1 (deltaL codes i) ((l - i : ℕ) : ℤ)
      hd0.symm (cp_left_edge codes h i (by omega)).symm hA1
      (by exact_mod_cast (by omega : l - i + 1 ≤ 2 ^ 30)) hmaxP hdcP hNb
    rw [hmain]
    have hj : ((i : ℤ) + ((l - i : ℕ) : ℤ) * 1) = (l : ℤ) := by
      rw [mul_one, hlfc]
      ring
    rw [hj, min_eq_left (by exact_mod_cast le_of_lt hfl),
      max_eq_right (by exact_mod_cast le_of_lt hfl)]
  · subst hil
    have hl1 : 1 ≤ i := by omega
    have hinl := hin (i - 1) (by omega) (by omega)
    have hleft : common_prefix codes (i : ℤ) ((i : ℤ) - 1) = delta codes (i - 1) := by
      have h5 := cp_left_edge codes h i hl
      unfold deltaL at h5
      rw [if_neg (by omega)] at h5
      exact h5
    have hcnd : ¬ ( common_prefix codes (i : ℤ) ((i : ℤ) + 1) -
        common_prefix codes (i : ℤ) ((i : ℤ) - 1) > 0) := by
      rw [cp_right_edge codes i, hleft]
      omega
    have hd0 : (if common_prefix codes (i : ℤ) ((i : ℤ) + 1) -
        common_prefix codes (i : ℤ) ((i : ℤ) - 1) > 0 then (1 : ℤ) else -1) = -1 := by
      rw [if_neg hcnd]
    have hdm : delta codes i = common_prefix codes (i : ℤ) ((i : ℤ) - (-1)) := by
      rw [show ((i : ℤ) - (-1)) = (i : ℤ) + 1 from by ring, cp_right_edge]
    have hmaxP : ∀ b : ℤ,
        common_prefix codes (i : ℤ) ((i : ℤ) + b * (-1)) > delta codes i →
        b ≤ ((i - f : ℕ) : ℤ) := by
      intro b hP
      have hrange := cp_gt_neg_one_range codes (i : ℤ) ((i : ℤ) + b * (-1)) (by omega)
      by_contra hc
      push_neg at hc
      obtain ⟨mn, hmn⟩ : ∃ mn : ℕ, ((i : ℤ) + b * (-1)) = (mn : ℤ) :=
        ⟨((i : ℤ) + b * (-1)).toNat, by omega⟩
      have hifc : ((i - f : ℕ) : ℤ) = (i : ℤ) - (f : ℤ) := by omega
      have hmnf : mn < f := by
        have h6 : ((i : ℤ) + b * (-1)) < (f : ℤ) := by
          rw [mul_neg_one]
          omega
        omega
      have hf1 : 1 ≤ f := by omega
      rw [hmn] at hP
      rw [cp_symm codes h i mn hl (by omega)] at hP
      have hrun := (cp_run_iff codes h mn i (by omega) hl (delta codes i)).mp hP
        (f - 1) (by omega) (by omega)
      have hdlf2 : deltaL codes f = delta codes (f - 1) := by
        unfold deltaL
        rw [if_neg (by omega)]
      omega
    have hdcP : ∀ b : ℤ, 0 ≤ b → b ≤ ((i - f : ℕ) : ℤ) →
        common_prefix codes (i : ℤ) ((i : ℤ) + b * (-1)) > delta codes i := by
      intro b hb0 hbA
      obtain ⟨bn, rfl⟩ : ∃ bn : ℕ, b = (bn : ℤ) := ⟨b.toNat, by omega⟩
      have hbn : bn ≤ i - f := by exact_mod_cast hbA
      have hcast : ((i : ℤ) + (bn : ℤ) * (-1)) = ((i - bn : ℕ) : ℤ) := by
        rw [mul_neg_one]
        omega
      rw [hcast]
      rcases Nat.eq_zero_or_pos bn with hbz | hbz
      · subst hbz
        rw [show ((i - 0 : ℕ) : ℤ) = (i : ℤ) from by norm_num,
          cp_self codes i (by omega)]
        omega
      · rw [cp_symm codes h i (i - bn) hl (by omega)]
        show delta codes i < cpN codes (i - bn) i
        rw [cp_run_iff codes h (i - bn) i (by omega) hl]
        intro x hx1 hx2
        have := hin x (by omega) hx2
        omega
    have hmain := determine_range_of_spec codes i (-1) (delta codes i) ((i - f : ℕ) : ℤ)
      hd0.symm hdm (by exact_mod_cast (by omega : 1 ≤ i - f))
      (by exact_mod_cast (by omega : i - f + 1 ≤ 2 ^ 30)) hmaxP hdcP
      (by
        have h1 : ((i - f + 1 : ℕ) : ℤ) ≤ (codes.length : ℤ) := by
          exact_mod_cast (by omega : i - f + 1 ≤ codes.length)
        have h2 : (codes.length : ℤ) < 2 ^ codes.length := by
          exact_mod_cast Nat.lt_two_pow codes.length
        have h3 : (2 : ℤ) ^ codes.length ≤ 2 ^ (codes.length + 1) :=
          pow_le_pow_right (by norm_num) (by omega)
        push_cast at h1
        linarith)
    rw [hmain]
    have hifc : ((i - f : ℕ) : ℤ) = (i : ℤ) - (f : ℤ) := by omega
    have hj : ((i : ℤ) + ((i - f : ℕ) : ℤ) * (-1)) = (f : ℤ) := by
      rw [mul_neg_one, hifc]
      ring
    rw [hj, min_eq_right (by exact_mod_cast le_of_lt hfl),
      max_eq_left (by exact_mod_cast le_of_lt hfl)]

/-! ### The recursive partition spelled out by the stored topology -/

/-- `Subtree internals leaves c f l`: starting from the child reference `c`,
the stored `left`/`right` fields spell out a binary tree whose leaf
references are exactly `f, f+1, …, l` in order. -/
inductive Subtree (internals leaves : List TempNode) : TempChild → ℕ → ℕ → Prop where
  | leaf (p : ℕ) (hp : p < leaves.length) :
      Subtree internals leaves (TempChild.leaf p) p p
  | node (i f s l : ℕ) (cl cr : TempChild) (nd : TempNode)
      (hget : internals.get? i = some nd) (hl : nd.left = some cl)
      (hr : nd.right = some cr) (hsl : Subtree internals leaves cl f s)
      (hsr : Subtree internals leaves cr (s + 1) l) :
      Subtree internals leaves (TempChild.internal i) f l

theorem subtree_le {internals leaves : List TempNode} :
    ∀ {c : TempChild} {f l : ℕ}, Subtree internals leaves c f l → f ≤ l := by
  intro c f l hs
  induction hs with
  | leaf p hp => exact le_rfl
  | node i f s l cl cr nd hget hl hr hsl hsr ihl ihr => omega

theorem sameShape_get? {a b : List TempNode} (hsh : sameShape a b) {ii : ℕ}
    {na : TempNode} (ha : a.get? ii = some na) : ∃ nb, b.get? ii = some nb := by
  have h := hsh ii
  rw [ha] at h
  cases hb : b.get? ii with
  | none => rw [hb] at h; simp at h
  | some nb => exact ⟨nb, rfl⟩

theorem subtree_shape {a b leaves : List TempNode} (hsh : sameShape a b) :
    ∀ {c : TempChild} {f l : ℕ}, Subtree a leaves c f l → Subtree b leaves c f l := by
  intro c f l hs
  induction hs with
  | leaf p hp => exact Subtree.leaf p hp
  | node i f s l cl cr nd hget hl hr hsl hsr ihl ihr =>
    obtain ⟨nd', hget'⟩ := sameShape_get? hsh hget
    obtain ⟨hfl, hfr, _⟩ := sameShape_fields hsh hget hget'
    exact Subtree.node i f s l cl cr nd' hget' (hfl ▸ hl) (hfr ▸ hr) ihl ihr

theorem subtree_leaf_elim {ints leaves : List TempNode} {li f l : ℕ}
    (hs : Subtree ints leaves (TempChild.leaf li) f l) :
    li < leaves.length ∧ f = li ∧ l = li := by
  cases hs with
  | leaf p hp => exact ⟨hp, rfl, rfl⟩

theorem list_get?_some {α : Type _} (l : List α) (k : ℕ) (h : k < l.length) :
    ∃ v, l.get? k = some v := by
  rw [List.get?_eq_getElem?, List.getElem?_eq_getElem h]
  exact ⟨_, rfl⟩

/-- The written topology spells out a `Subtree` on every node range. -/
theorem nodeRange_subtree (codes : List ℕ) (h : GoodCodes codes)
    (hn30 : codes.length ≤ 2 ^ 30)
    (ints leaves : List TempNode) (hleaves : leaves.length = codes.length)
    (hdesc : ∀ j, j < codes.length - 1 → ∃ lc rc, nodeChildren codes j = some (lc, rc) ∧
      ints.get? j = some { left := some lc, right := some rc, object_id := -1,
                           aabb := default }) :
    ∀ sz i f l, l - f ≤ sz → NodeRange codes i f l → i < codes.length - 1 →
      Subtree ints leaves (TempChild.internal i) f l := by
  intro sz
  induction sz with
  | zero =>
    intro i f l hle hnr
    obtain ⟨hfl, _, _, _⟩ := hnr
    exact absurd hle (by omega)
  | succ sz ih =>
    intro i f l hle hnr hi
    obtain ⟨hfl, hl, hend, hin⟩ := hnr
    obtain ⟨s, hfs, hs1, hs2, hs3, huniq⟩ := find_split_spec codes h ⟨hfl, hl, hend, hin⟩
    have hdr := determine_range_correct codes h hn30 ⟨hfl, hl, hend, hin⟩
    obtain ⟨hchL, hchR⟩ :=
      nodeRange_children codes h ⟨hfl, hl, hend, hin⟩ hs1 hs2 hs3 huniq
    obtain ⟨lc, rc, hnc, hget⟩ := hdesc i hi
    have hnc2 : nodeChildren codes i = some
        (if ((s : ℕ) : ℤ) = ((f : ℕ) : ℤ) then TempChild.leaf ((s : ℕ) : ℤ).toNat
          else TempChild.internal ((s : ℕ) : ℤ).toNat,
         if ((s : ℕ) : ℤ) + 1 = ((l : ℕ) : ℤ) then TempChild.leaf (((s : ℕ) : ℤ) + 1).toNat
          else TempChild.internal (((s : ℕ) : ℤ) + 1).toNat) := by
      unfold nodeChildren
      rw [hdr]
      simp only [Option.some_bind]
      rw [hfs]
      simp only [Option.some_bind]
    have hE := hnc.symm.trans hnc2
    simp only [Option.some_inj, Prod.mk.injEq] at hE
    have hsN : (((s : ℕ) : ℤ)).toNat = s := Int.toNat_natCast s
    have hsN1 : (((s : ℕ) : ℤ) + 1).toNat = s + 1 := by omega
    have hLsub : Subtree ints leaves lc f s := by
      by_cases hsf : s = f
      · subst hsf
        rw [hE.1, if_pos rfl, hsN]
        exact Subtree.leaf s (by rw [hleaves]; omega)
      · rw [hE.1, if_neg (by intro hc; exact hsf (by exact_mod_cast hc)), hsN]
        exact ih s f s (by omega) (hchL (by omega)) (by omega)
    have hRsub : Subtree ints leaves rc (s + 1) l := by
      by_cases hsl2 : s + 1 = l
      · subst hsl2
        rw [hE.2, if_pos (by push_cast; ring), hsN1]
        exact Subtree.leaf (s + 1) (by rw [hleaves]; omega)
      · rw [hE.2, if_neg (by intro hc; exact hsl2 (by exact_mod_cast hc)), hsN1]
        exact ih (s + 1) (s + 1) l (by omega) (hchR (by omega)) (by omega)
    exact Subtree.node i f s l lc rc _ hget rfl rfl hLsub hRsub

theorem ciTail_some (idx : ℕ) (a : BvhAABB) (z : BvhAABB × List TempNode)
    {cur : TempNode} (hcur : z.2.get? idx = some cur) :
    ∃ res, ciTail idx a z = some res := by
  unfold ciTail
  rw [hcur]
  exact ⟨_, rfl⟩

/-- `compute_internal` succeeds on any spelled-out subtree, on any state of
the same shape, with fuel at least the range size. -/
theorem subtree_ci_some (leaves ints0 : List TempNode) :
    ∀ {c : TempChild} {f l : ℕ}, Subtree ints0 leaves c f l →
      ∀ {j : ℕ}, c = TempChild.internal j →
      ∀ (ints : List TempNode) (fuel : ℕ), sameShape ints0 ints → l - f + 1 ≤ fuel →
      ∃ res, compute_internal leaves fuel j ints = some res := by
  intro c f l hs
  induction hs with
  | leaf p hp => intro j hc; exact absurd hc (by simp)
  | node i f s l cl cr nd hget hl hr hsl hsr ihl ihr =>
    intro j hc ints fuel hsh hfuel
    injection hc with hji
    subst hji
    have hfs := subtree_le hsl
    have hsl1 := subtree_le hsr
    obtain ⟨fuel, rfl⟩ : ∃ fl, fuel = fl + 1 := ⟨fuel - 1, by omega⟩
    rw [compute_internal_succ]
    obtain ⟨nd', hget'⟩ := sameShape_get? hsh hget
    obtain ⟨hfl', hfr', _⟩ := sameShape_fields hsh hget hget'
    rw [hget']
    simp only [Option.some_bind]
    rw [← hfl', hl]
    simp only [Option.some_bind]
    rw [← hfr', hr]
    simp only [Option.some_bind]
    have hRight : ∀ (a : BvhAABB) (st : List TempNode), sameShape ints0 st →
        ∃ res, ciRight leaves fuel i cr (a, st) = some res := by
      intro a st hshst
      cases cr with
      | leaf ri =>
        obtain ⟨hri, _, _⟩ := subtree_leaf_elim hsr
        obtain ⟨rn, hrn⟩ := list_get?_some leaves ri hri
        rw [show ciRight leaves fuel i (TempChild.leaf ri) (a, st) =
          (leaves.get? ri).bind fun rn => ciTail i a (rn.aabb, st) from rfl, hrn]
        simp only [Option.some_bind]
        obtain ⟨ndi, hndi⟩ := sameShape_get? hshst hget
        exact ciTail_some i a _ hndi
      | internal ri =>
        obtain ⟨⟨a2, st2⟩, hci2⟩ := ihr rfl st fuel hshst (by omega)
        rw [show ciRight leaves fuel i (TempChild.internal ri) (a, st) =
          (compute_internal leaves fuel ri st).bind fun z => ciTail i a z from rfl, hci2]
        simp only [Option.some_bind]
        have hsh2 : sameShape ints0 st2 :=
          sameShape_trans hshst (compute_internal_sok leaves fuel ri st a2 st2 hci2).1
        obtain ⟨ndi, hndi⟩ := sameShape_get? hsh2 hget
        exact ciTail_some i a _ hndi
    cases cl with
    | leaf li =>
      obtain ⟨hli, hfli, hsli⟩ := subtree_leaf_elim hsl
      obtain ⟨ln, hln⟩ := list_get?_some leaves li hli
      show ∃ res, (leaves.get? li).bind
        (fun ln => ciRight leaves fuel i cr (ln.aabb, ints)) = some res
      rw [hln]
      simp only [Option.some_bind]
      exact hRight ln.aabb ints hsh
    | internal ii =>
      obtain ⟨⟨a1, st1⟩, hci1⟩ := ihl rfl ints fuel hsh (by omega)
      show ∃ res, (compute_internal leaves fuel ii ints).bind
        (fun y => ciRight leaves fuel i cr y) = some res
      rw [hci1]
      simp only [Option.some_bind]
      exact hRight a1 st1
        (sameShape_trans hsh (compute_internal_sok leaves fuel ii ints a1 st1 hci1).1)

/-- Arena leaf discriminator: leaf nodes carry the (nonnegative) object
ordinal, internal nodes carry `-1`. -/
def isLeafNode (nd : FlatNode) : Bool := decide (0 ≤ nd.object_id)

theorem ban_leaf_eq (internals leaves : List TempNode) (fuel : ℕ) (li : ℕ)
    (arena : List FlatNode) :
    build_arena_node internals leaves (fuel + 1) (TempChild.leaf li) arena =
      (leaves.get? li).bind fun ln =>
      some ((arena.length : ℤ), arena ++
        [{ left := -1, right := -1, object_id := ln.object_id, aabb := ln.aabb }]) := rfl

theorem ban_internal_eq (internals leaves : List TempNode) (fuel : ℕ) (ii : ℕ)
    (arena : List FlatNode) :
    build_arena_node internals leaves (fuel + 1) (TempChild.internal ii) arena =
      (internals.get? ii).bind fun node =>
      node.left.bind fun lc =>
      node.right.bind fun rc =>
      (build_arena_node internals leaves fuel lc (arena ++
        [{ left := -1, right := -1, object_id := -1, aabb := node.aabb }])).bind fun y =>
      (build_arena_node internals leaves fuel rc y.2).bind fun z =>
      (z.2.get? ((arena.length : ℤ)).toNat).bind fun cur =>
      some ((arena.length : ℤ),
        z.2.set ((arena.length : ℤ)).toNat { cur with left := y.1, right := z.1 }) := rfl

/-- `build_arena_node` on a spelled-out subtree appends exactly the
`2·(range size) − 1` nodes of the subtree, its leaf entries carrying the
object ids of leaves `f..l` in order. -/
theorem subtree_ban (internals leaves : List TempNode)
    (hids : ∀ p, p < leaves.length → 0 ≤ (leaves.getD p default).object_id) :
    ∀ {c : TempChild} {f l : ℕ}, Subtree internals leaves c f l →
      ∀ (fuel : ℕ) (arena : List FlatNode), l - f + 1 ≤ fuel →
      ∃ blk, build_arena_node internals leaves fuel c arena =
          some ((arena.length : ℤ), arena ++ blk) ∧
        blk.length = 2 * (l - f + 1) - 1 ∧
        (blk.filter isLeafNode).map (fun nd => nd.object_id) =
          (List.range' f (l - f + 1)).map (fun p => (leaves.getD p default).object_id) := by
  intro c f l hs
  induction hs with
  | leaf p hp =>
    intro fuel arena hfuel
    obtain ⟨fl, rfl⟩ : ∃ fl, fuel = fl + 1 := ⟨fuel - 1, by omega⟩
    obtain ⟨ln, hln⟩ := list_get?_some leaves p hp
    have hlnD : leaves.getD p default = ln := list_getD_of_get? default hln
    refine ⟨[{ left := -1, right := -1, object_id := ln.object_id, aabb := ln.aabb }],
      ?_, by simp, ?_⟩
    · rw [ban_leaf_eq, hln]
      simp only [Option.some_bind]
    · have hpos : isLeafNode
          { left := -1, right := -1, object_id := ln.object_id, aabb := ln.aabb } = true := by
        unfold isLeafNode
        rw [decide_eq_true_iff]
        rw [← hlnD]
        exact hids p hp
      rw [List.filter_cons_of_pos (by exact hpos)]
      show [ln.object_id] = List.map (fun q => (leaves.getD q default).object_id)
        (List.range' p (p - p + 1))
      rw [show p - p + 1 = 1 from by omega]
      show [ln.object_id] = [(leaves.getD p default).object_id]
      rw [hlnD]
  | node i f s l cl cr nd hget hl hr hsl hsr ihl ihr =>
    intro fuel arena hfuel
    have hfs := subtree_le hsl
    have hsl1 := subtree_le hsr
    obtain ⟨fl, rfl⟩ : ∃ fl, fuel = fl + 1 := ⟨fuel - 1, by omega⟩
    rw [ban_internal_eq, hget]
    simp only [Option.some_bind]
    rw [hl]
    simp only [Option.some_bind]
    rw [hr]
    simp only [Option.some_bind]
    set h0 : FlatNode := { left := -1, right := -1, object_id := -1, aabb := nd.aabb }
      with hh0
    obtain ⟨blkL, hbanL, hlenL, hidsL⟩ := ihl fl (arena ++ [h0]) (by omega)
    obtain ⟨blkR, hbanR, hlenR, hidsR⟩ := ihr fl ((arena ++ [h0]) ++ blkL) (by omega)
    rw [hbanL]
    simp only [Option.some_bind]
    rw [hbanR]
    simp only [Option.some_bind]
    have hgetc : (((arena ++ [h0]) ++ blkL) ++ blkR).get? ((arena.length : ℤ)).toNat =
        some h0 := by
      rw [Int.toNat_natCast]
      rw [list_get?_append ((arena ++ [h0]) ++ blkL) blkR arena.length
        (by simp only [List.length_append, List.length_cons, List.length_nil]; omega)]
      rw [list_get?_append (arena ++ [h0]) blkL arena.length
        (by simp only [List.length_append, List.length_cons, List.length_nil]; omega)]
      exact list_get?_concat_length arena h0
    rw [hgetc]
    simp only [Option.some_bind]
    refine ⟨{ left := ((arena ++ [h0]).length : ℤ), right := (((arena ++ [h0]) ++ blkL).length : ℤ), object_id := -1, aabb := nd.aabb } :: (blkL ++ blkR), ?_, ?_, ?_⟩
    · rw [Int.toNat_natCast]
      simp only [Option.some_inj, Prod.mk.injEq]
      refine ⟨trivial, ?_⟩
      rw [List.append_assoc, List.append_assoc, List.set_append, if_neg (by omega)]
      simp only [Nat.sub_self]
      rw [List.singleton_append, List.set_cons_zero]
    · simp only [List.length_cons, List.length_append]
      omega
    · rw [List.filter_cons]
      have hhdrneg : isLeafNode { left := ((arena ++ [h0]).length : ℤ), right := (((arena ++ [h0]) ++ blkL).length : ℤ), object_id := (-1 : ℤ), aabb := nd.aabb } = false := rfl
      rw [hhdrneg]
      simp only [Bool.false_eq_true, if_false]
      rw [List.filter_append, List.map_append, hidsL, hidsR]
      rw [show l - (s + 1) + 1 = l - s from by omega]
      rw [show s + 1 = f + (s - f + 1) from by omega]
      rw [← List.map_append]
      have hra : List.range' f (s - f + 1) ++ List.range' (f + (s - f + 1)) (l - s) =
          List.range' f ((s - f + 1) + (l - s)) := by
        have h9 := List.range'_append f (s - f + 1) (l - s) 1
        simpa [Nat.add_comm] using h9
      rw [hra, show (s - f + 1) + (l - s) = l - f + 1 from by omega]

/-- The root node of the Karras tree covers the whole leaf range. -/
theorem nodeRange_root (codes : List ℕ) (h : GoodCodes codes) (hn2 : 2 ≤ codes.length) :
    NodeRange codes 0 0 (codes.length - 1) := by
  have h1 : deltaL codes 0 = -1 := by unfold deltaL; rw [if_pos rfl]
  have h2 : delta codes (codes.length - 1) = -1 := delta_oor codes _ (by omega)
  refine ⟨by omega, by omega, Or.inl ⟨rfl, by rw [h1, h2]⟩, ?_⟩
  intro x hx1 hx2
  have h3 := delta_nonneg codes h x (by omega)
  rw [h1, h2]
  simp only [max_self]
  omega

/-- The Morton codes produced inside `build` satisfy the sortedness and
width hypotheses of the topology analysis. -/
theorem goodCodes_build (bbs : List BoundingBox) (ws : ℚ) (hlen : bbs.length < 2 ^ 31) :
    GoodCodes ((radixSort (buildObjects bbs ws)).map (fun o => o.morton_code)) := by
  have hmem : ∀ e ∈ radixSort (buildObjects bbs ws), e.morton_code < 2 ^ 30 := by
    intro e he
    have he2 := (radixSort_perm _).mem_iff.mp he
    rw [buildObjects, List.mem_map] at he2
    obtain ⟨p, _, rfl⟩ := he2
    exact calculate_morton_code_lt _ _ _ _
  refine ⟨?_, ?_, ?_⟩
  · intro c hc
    rw [List.mem_map] at hc
    obtain ⟨e, he, rfl⟩ := hc
    exact hmem e he
  · rw [List.length_map, (radixSort_perm _).length_eq, buildObjects_length]
    exact hlen
  · intro a b hab hb
    rw [List.length_map] at hb
    have hsorted := radixSort_pairwise _ (buildObjects_pairwise_init bbs ws)
    rw [List.pairwise_iff_getElem] at hsorted
    have ha : a < (radixSort (buildObjects bbs ws)).length := by omega
    have hrel := hsorted a b ha hb hab
    unfold mortonLexLe at hrel
    rw [List.getD_eq_getElem?_getD, List.getD_eq_getElem?_getD,
      List.getElem?_eq_getElem (by rw [List.length_map]; omega),
      List.getElem?_eq_getElem (by rw [List.length_map]; exact hb)]
    simp only [List.getElem_map, Option.getD_some]
    have h1 := hmem _ (List.getElem_mem ha)
    have h2 := hmem _ (List.getElem_mem hb)
    rcases hrel with hlt | ⟨heq, _⟩
    · rw [Nat.mod_eq_of_lt h1, Nat.mod_eq_of_lt h2] at hlt
      exact le_of_lt hlt
    · rw [Nat.mod_eq_of_lt h1, Nat.mod_eq_of_lt h2] at heq
      exact le_of_eq heq

theorem range'_map_getD {α β : Type _} (M : List α) (d : α) (g : α → β) :
    (List.range' 0 M.length).map (fun p => g (M.getD p d)) = M.map g := by
  apply List.ext_getElem
  · simp
  · intro k h1 h2
    simp only [List.getElem_map, List.getElem_range', List.getD_eq_getElem?_getD]
    rw [List.getElem?_eq_getElem (by simpa using h2)]
    simp

theorem buildObjects_map_id (bbs : List BoundingBox) (ws : ℚ) :
    (buildObjects bbs ws).map (fun o => o.id) = List.range bbs.length := by
  rw [buildObjects, List.map_map]
  exact List.enum_map_fst bbs

theorem findRootIdx_zero (hp : List Bool) (h : hp.get? 0 = some false) :
    findRootIdx hp = 0 := by
  unfold findRootIdx
  cases hp with
  | nil => simp at h
  | cons b tl =>
    simp only [List.get?_cons_zero, Option.some_inj] at h
    subst h
    simp [List.findIdx?_cons]

/-- The computational core of the `N ≥ 2` build: the arena is one flat
block of `2N - 1` nodes whose leaf entries carry the sorted objects' ids in
traversal order. -/
theorem build_ge2 (self : BVH) (bbs : List BoundingBox) (hlen : bbs.length ≤ 2 ^ 30)
    (hn2 : 2 ≤ bbs.length) :
    ∃ blk : List FlatNode,
      BVH.build self bbs = some { self with arena := blk, arena_root := 0, root := none } ∧
      blk.length = 2 * bbs.length - 1 ∧
      (blk.filter isLeafNode).map (fun nd => nd.object_id) =
        (radixSort (buildObjects bbs self.world_size)).map (fun o => (o.id : ℤ)) := by
  set ws := self.world_size with hws
  set objects := radixSort (buildObjects bbs ws) with hobj
  have hOlen : objects.length = bbs.length := by
    rw [hobj, (radixSort_perm _).length_eq, buildObjects_length]
  set codes := objects.map (fun o => o.morton_code) with hcodes
  have hClen : codes.length = bbs.length := by rw [hcodes, List.length_map, hOlen]
  have hGood : GoodCodes codes := goodCodes_build bbs ws (by omega)
  set leaves := objects.map (fun obj =>
    ({ left := none, right := none, object_id := (obj.id : ℤ),
       aabb := BvhAABB.from_bbox (bbs.getD obj.id default) } : TempNode)) with hlv
  have hLlen : leaves.length = codes.length := by
    rw [hlv, List.length_map, hcodes, List.length_map]
  have hids : ∀ p, p < leaves.length → 0 ≤ (leaves.getD p default).object_id := by
    intro p hpp
    rw [hlv, List.length_map] at hpp
    rw [hlv, List.getD_eq_getElem?_getD,
      List.getElem?_eq_getElem (by rw [List.length_map]; exact hpp)]
    simp only [List.getElem_map, Option.getD_some]
    exact Int.natCast_nonneg _
  have hnc : objects.length = codes.length := by rw [hcodes, List.length_map]
  obtain ⟨ints, hp, hBT, hIlen, hp0, hdesc⟩ :=
    buildTopology_spec codes hGood objects.length hnc (by omega)
  have hroot0 : findRootIdx hp = 0 := findRootIdx_zero hp hp0
  have hRoot : NodeRange codes 0 0 (codes.length - 1) := nodeRange_root codes hGood (by omega)
  have hdesc' : ∀ j, j < codes.length - 1 → ∃ lc rc, nodeChildren codes j = some (lc, rc) ∧
      ints.get? j = some { left := some lc, right := some rc, object_id := -1,
                           aabb := default } := by
    intro j hj
    exact hdesc j (by omega)
  have hSub : Subtree ints leaves (TempChild.internal 0) 0 (codes.length - 1) :=
    nodeRange_subtree codes hGood (by omega) ints leaves hLlen hdesc' codes.length 0 0
      (codes.length - 1) (by omega) hRoot (by omega)
  obtain ⟨⟨aabbR, ints2⟩, hCI⟩ := subtree_ci_some leaves ints hSub rfl ints
    (objects.length + 1) (sameShape_refl ints) (by omega)
  have hshape := (compute_internal_sok leaves (objects.length + 1) 0 ints aabbR ints2 hCI).1
  have hSub2 := subtree_shape hshape hSub
  obtain ⟨blk, hBAN, hBlen, hBids⟩ :=
    subtree_ban ints2 leaves hids hSub2 (objects.length + 1) [] (by omega)
  refine ⟨blk, ?_, ?_, ?_⟩
  · have hne : ¬ (bbs.isEmpty = true) := by
      rw [List.isEmpty_iff]
      intro hc
      rw [hc] at hn2
      simp at hn2
    unfold BVH.build
    rw [if_neg hne]
    dsimp only
    rw [← hws, ← hobj, if_neg (by omega), ← hcodes, ← hlv, hBT]
    simp only [Option.bind_eq_bind, Option.some_bind]
    rw [hroot0, hCI]
    simp only [Option.bind_eq_bind, Option.some_bind]
    rw [hBAN]
    simp only [Option.bind_eq_bind, Option.some_bind]
    rfl
  · rw [hBlen]
    omega
  · rw [hBids, show codes.length - 1 - 0 + 1 = leaves.length from by omega,
      range'_map_getD leaves default (fun nd => nd.object_id), hlv, List.map_map]
    rfl

/-- A single-box build materialises exactly one leaf. -/
theorem build_single (self : BVH) (b : BoundingBox) :
    BVH.build self [b] = some { self with
      arena := [{ left := -1, right := -1, object_id := ((0 : ℕ) : ℤ),
                  aabb := BvhAABB.from_bbox b }],
      arena_root := 0, root := none } := by
  have hbo : buildObjects [b] self.world_size =
      [{ id := 0, morton_code := calculate_morton_code b.center.x b.center.y b.center.z self.world_size }] := rfl
  unfold BVH.build
  rw [if_neg (by simp)]
  rw [hbo, radixSort_single]
  rfl

/-! ### The `i32` shift wrap at `N = 2^30 + 1` duplicate-key boxes -/

/-- A box whose centre is the origin. -/
def wideBox : BoundingBox := ⟨⟨0, 0, 0⟩, ⟨1, 1, 1⟩⟩

/-- `2^30 + 1` identical boxes: every Morton code is equal, so the root
node's exponential search runs to offset `2^30` and the next `l <<= 1`
wraps. -/
def bigBoxes : List BoundingBox := List.replicate (2 ^ 30 + 1) wideBox

/-- The (shared) Morton code of every `wideBox` at world size `1000`. -/
def cBig : ℕ := calculate_morton_code 0 0 0 1000

/-- The code array inside `build` on `bigBoxes`. -/
def bigCodes : List ℕ := List.replicate (2 ^ 30 + 1) cBig

/-- The leaf array inside `build` on `bigBoxes`. -/
def bigLeaves : List TempNode := (List.range (2 ^ 30 + 1)).map (fun k : ℕ =>
  { left := none, right := none, object_id := (k : ℤ),
    aabb := BvhAABB.from_bbox wideBox })

theorem getD_replicate {α : Type _} (n : ℕ) (a d : α) (k : ℕ) (hk : k < n) :
    (List.replicate n a).getD k d = a := by
  rw [List.getD_eq_getElem?_getD, List.getElem?_replicate, if_pos hk]
  rfl

theorem bigBoxes_length : bigBoxes.length = 2 ^ 30 + 1 :=
  List.length_replicate _ _

theorem bigCodes_length : bigCodes.length = 2 ^ 30 + 1 :=
  List.length_replicate _ _

theorem bigObjects_eq : buildObjects bigBoxes 1000 =
    (List.range (2 ^ 30 + 1)).map (fun k => (⟨k, cBig⟩ : ObjectInfo)) := by
  apply List.ext_getElem
  · rw [buildObjects_length, bigBoxes_length, List.length_map, List.length_range]
  · intro k h1 h2
    rw [buildObjects_getElem bigBoxes 1000 k h1]
    rw [List.getElem_map, List.getElem_range]
    have hk : k < 2 ^ 30 + 1 := by
      rw [buildObjects_length, bigBoxes_length] at h1
      exact h1
    rw [show bigBoxes.getD k ⟨⟨0, 0, 0⟩, ⟨0, 0, 0⟩⟩ = wideBox from
      getD_replicate _ _ _ k hk]
    rfl

/-- Strict-key / tie-ordinal order on object records. -/
def rLex (a b : ObjectInfo) : Prop :=
  a.morton_code < b.morton_code ∨ (a.morton_code = b.morton_code ∧ a.id ≤ b.id)

theorem rLex_antisymm : ∀ a b : ObjectInfo, rLex a b → rLex b a → a = b := by
  intro a b hab hba
  cases a
  cases b
  unfold rLex at hab hba
  simp only [ObjectInfo.mk.injEq] at *
  omega

/-- A list already in stable Morton order is a fixed point of the radix
sort. -/
theorem radixSort_sorted_fix (L : List ObjectInfo)
    (hcode : ∀ e ∈ L, e.morton_code < 2 ^ 30)
    (hinit : L.Pairwise (mortonLexLe (2 ^ 0)))
    (hsort : L.Pairwise rLex) : radixSort L = L := by
  have h1 := radixSort_perm L
  have h2 := radixSort_pairwise L hinit
  have h3 : (radixSort L).Pairwise rLex := by
    refine h2.imp_of_mem ?_
    intro a b ha hb hl
    have ha2 := hcode a (h1.mem_iff.mp ha)
    have hb2 := hcode b (h1.mem_iff.mp hb)
    unfold mortonLexLe at hl
    unfold rLex
    rw [Nat.mod_eq_of_lt ha2, Nat.mod_eq_of_lt hb2] at hl
    exact hl
  haveI : IsAntisymm ObjectInfo rLex := ⟨rLex_antisymm⟩
  exact List.eq_of_perm_of_sorted h1 h3 hsort

theorem bigSort_eq : radixSort (buildObjects bigBoxes 1000) =
    buildObjects bigBoxes 1000 := by
  apply radixSort_sorted_fix
  · intro e he
    rw [bigObjects_eq, List.mem_map] at he
    obtain ⟨k, _, rfl⟩ := he
    exact calculate_morton_code_lt _ _ _ _
  · exact buildObjects_pairwise_init _ _
  · rw [bigObjects_eq, List.pairwise_iff_getElem]
    intro a b ha hb hab
    rw [List.length_map, List.length_range] at ha hb
    simp only [List.getElem_map, List.getElem_range]
    exact Or.inr ⟨rfl, le_of_lt hab⟩

theorem bigCodes_eq :
    (buildObjects bigBoxes 1000).map (fun o => o.morton_code) = bigCodes := by
  rw [show bigCodes = List.replicate (2 ^ 30 + 1) cBig from rfl]
  refine List.eq_replicate.mpr ⟨?_, ?_⟩
  · rw [List.length_map, buildObjects_length, bigBoxes_length]
  · intro b hb
    rw [List.mem_map] at hb
    obtain ⟨o, ho, rfl⟩ := hb
    rw [bigObjects_eq, List.mem_map] at ho
    obtain ⟨q, hq, rfl⟩ := ho
    rfl

theorem bigLeaves_eq : (buildObjects bigBoxes 1000).map (fun obj =>
      ({ left := none, right := none, object_id := (obj.id : ℤ),
         aabb := BvhAABB.from_bbox (bigBoxes.getD obj.id default) } : TempNode)) =
    bigLeaves := by
  apply List.ext_getElem?
  intro k
  rw [bigObjects_eq, List.getElem?_map, List.getElem?_map,
    show bigLeaves = (List.range (2 ^ 30 + 1)).map (fun k : ℕ =>
      ({ left := none, right := none, object_id := (k : ℤ),
         aabb := BvhAABB.from_bbox wideBox } : TempNode)) from rfl,
    List.getElem?_map]
  by_cases hk : k < 2 ^ 30 + 1
  · rw [List.getElem?_range hk]
    simp only [Option.map_some']
    rw [show bigBoxes.getD k default = wideBox from getD_replicate _ _ _ k hk]
  · rw [List.getElem?_eq_none (by rw [List.length_range]; omega)]
    rfl

theorem bigLeaves_get (k : ℕ) (hk : k < 2 ^ 30 + 1) :
    bigLeaves.get? k = some ⟨none, none, (k : ℤ), BvhAABB.from_bbox wideBox⟩ := by
  rw [show bigLeaves = (List.range (2 ^ 30 + 1)).map (fun k : ℕ =>
      ({ left := none, right := none, object_id := (k : ℤ),
         aabb := BvhAABB.from_bbox wideBox } : TempNode)) from rfl]
  rw [List.get?_eq_getElem?, List.getElem?_map, List.getElem?_range hk]
  rfl

theorem bigLeaves_length : bigLeaves.length = 2 ^ 30 + 1 := by
  rw [show bigLeaves = (List.range (2 ^ 30 + 1)).map (fun k : ℕ =>
      ({ left := none, right := none, object_id := (k : ℤ),
         aabb := BvhAABB.from_bbox wideBox } : TempNode)) from rfl]
  rw [List.length_map, List.length_range]

theorem bigCodes_mem (c : ℕ) (hc : c ∈ bigCodes) : c = cBig := by
  rw [show bigCodes = List.replicate (2 ^ 30 + 1) cBig from rfl] at hc
  exact (List.mem_replicate.mp hc).2

theorem goodCodes_big : GoodCodes bigCodes := by
  refine ⟨?_, ?_, ?_⟩
  · intro c hc
    rw [bigCodes_mem c hc]
    exact calculate_morton_code_lt _ _ _ _
  · rw [bigCodes_length]
    norm_num
  · intro a b hab hb
    rw [bigCodes_length] at hb
    rw [show bigCodes.getD a 0 = cBig from getD_replicate _ _ _ a (by omega),
      show bigCodes.getD b 0 = cBig from getD_replicate _ _ _ b hb]

theorem clz32_nonneg (x : ℕ) (hx : x < 2 ^ 32) : 0 ≤ clz32 x := by
  unfold clz32
  by_cases h0 : x = 0
  · rw [if_pos h0]
    norm_num
  · rw [if_neg h0]
    rw [log2floor_eq_log2 64 x (lt_trans hx (by norm_num))]
    have hlt : Nat.log2 x < 32 := (Nat.log2_lt h0).mpr hx
    simp only [Int.ofNat_eq_natCast]
    omega

theorem cp_big_eq (i j : ℤ) (hi0 : 0 ≤ i) (hin : i < 2 ^ 30 + 1)
    (hj0 : 0 ≤ j) (hjn : j < 2 ^ 30 + 1) :
    common_prefix bigCodes i j = 32 + clz32 (i.toNat ^^^ j.toNat) := by
  have hcnd : ¬(j < 0 ∨ j ≥ (bigCodes.length : ℤ)) := by
    rw [bigCodes_length]
    push_neg
    constructor
    · exact hj0
    · exact_mod_cast hjn
  unfold common_prefix
  rw [if_neg hcnd]
  rw [show bigCodes.getD i.toNat 0 = cBig from getD_replicate _ _ _ _ (by omega),
    show bigCodes.getD j.toNat 0 = cBig from getD_replicate _ _ _ _ (by omega)]
  rw [if_neg (by simp)]

theorem cp_big_pos (i j : ℤ) (hi0 : 0 ≤ i) (hin : i < 2 ^ 30 + 1)
    (hj0 : 0 ≤ j) (hjn : j < 2 ^ 30 + 1) :
    -1 < common_prefix bigCodes i j := by
  rw [cp_big_eq i j hi0 hin hj0 hjn]
  have hx : i.toNat ^^^ j.toNat < 2 ^ 32 :=
    Nat.xor_lt_two_pow (by omega) (by omega)
  have := clz32_nonneg (i.toNat ^^^ j.toNat) hx
  omega

theorem clz32_one : clz32 1 = 31 := by decide

theorem clz32_three : clz32 3 = 30 := by decide

theorem cpB01 : common_prefix bigCodes 0 1 = 63 := by
  rw [cp_big_eq 0 1 (by norm_num) (by norm_num) (by norm_num) (by norm_num)]
  rw [show (0 : ℤ).toNat ^^^ (1 : ℤ).toNat = 1 from by decide, clz32_one]
  norm_num

theorem cpB10 : common_prefix bigCodes 1 0 = 63 := by
  rw [cp_big_eq 1 0 (by norm_num) (by norm_num) (by norm_num) (by norm_num)]
  rw [show (1 : ℤ).toNat ^^^ (0 : ℤ).toNat = 1 from by decide, clz32_one]
  norm_num

theorem cpB12 : common_prefix bigCodes 1 2 = 62 := by
  rw [cp_big_eq 1 2 (by norm_num) (by norm_num) (by norm_num) (by norm_num)]
  rw [show (1 : ℤ).toNat ^^^ (2 : ℤ).toNat = 3 from by decide, clz32_three]
  norm_num

/-- The exponential search of `determine_range` at node `0` of the
duplicate-code array runs through every power of two and halts only by
wrapping to `i32::MIN`. -/
theorem big_dr0_exp : ∀ fuel (k : ℕ), k ≤ 30 → 32 - k ≤ fuel →
    drExpo bigCodes 0 1 (-1) fuel (2 ^ k) = some (-2 ^ 31) := by
  intro fuel
  induction fuel with
  | zero =>
    intro k hk hf
    exact absurd hf (by omega)
  | succ fuel ih =>
    intro k hk hf
    have hcp : common_prefix bigCodes 0 ((0 : ℤ) + 2 ^ k * 1) > -1 := by
      rw [show ((0 : ℤ) + 2 ^ k * 1) = 2 ^ k from by ring]
      refine cp_big_pos 0 (2 ^ k) le_rfl (by norm_num) (by positivity) ?_
      have h30 : (2 : ℤ) ^ k ≤ 2 ^ 30 := pow_le_pow_right₀ (by norm_num) hk
      omega
    rw [drExpo_succ, if_pos hcp]
    by_cases hk30 : k = 30
    · subst hk30
      rw [show (2 : ℤ) ^ 30 * 2 = 2 ^ 31 from by norm_num, wrap32_top]
      obtain ⟨fl, rfl⟩ : ∃ fl, fuel = fl + 1 := ⟨fuel - 1, by omega⟩
      have hng : ¬ common_prefix bigCodes 0 ((0 : ℤ) + -2 ^ 31 * 1) > (-1 : ℤ) := by
        rw [show ((0 : ℤ) + -2 ^ 31 * 1) = -2 ^ 31 from by ring,
          cp_out_of_range bigCodes 0 (-2 ^ 31) (Or.inl (by norm_num))]
        omega
      rw [drExpo_succ, if_neg hng]
    · rw [show (2 : ℤ) ^ k * 2 = 2 ^ (k + 1) from (pow_succ 2 k).symm,
        wrap32_eq_self (2 ^ (k + 1))
          (by have : (0 : ℤ) < 2 ^ (k + 1) := by positivity
              omega)
          (by have h30 : (2 : ℤ) ^ (k + 1) ≤ 2 ^ 30 :=
                pow_le_pow_right₀ (by norm_num) (by omega)
              omega)]
      exact ih (k + 1) (by omega) (by omega)

/-- `determine_range` at node `0`: the wrapped exponential search makes it
return the degenerate range `(0, 0)`. -/
theorem big_dr0 : determine_range bigCodes 0 = some (0, 0) := by
  have hcnd : common_prefix bigCodes 0 ((0 : ℤ) + 1) -
      common_prefix bigCodes 0 ((0 : ℤ) - 1) > 0 := by
    rw [show ((0 : ℤ) + 1) = 1 from by norm_num, cpB01,
      show ((0 : ℤ) - 1) = -1 from by norm_num,
      cp_out_of_range bigCodes 0 (-1) (Or.inl (by norm_num))]
    norm_num
  have hd : (1 : ℤ) = if common_prefix bigCodes 0 ((0 : ℤ) + 1) -
      common_prefix bigCodes 0 ((0 : ℤ) - 1) > 0 then (1 : ℤ) else -1 := by
    rw [if_pos hcnd]
  have hdm : (-1 : ℤ) = common_prefix bigCodes 0 ((0 : ℤ) - 1) := by
    rw [show ((0 : ℤ) - 1) = -1 from by norm_num,
      cp_out_of_range bigCodes 0 (-1) (Or.inl (by norm_num))]
  rw [determine_range_eq bigCodes 0 1 (-1) hd hdm]
  rw [show bigCodes.length + 2 = (2 ^ 30 + 2) + 1 from by rw [bigCodes_length]]
  have hrun : drExpo bigCodes 0 1 (-1) ((2 ^ 30 + 2) + 1) 1 = some (-2 ^ 31) := by
    have h := big_dr0_exp ((2 ^ 30 + 2) + 1) 0 (by norm_num) (by norm_num)
    rw [pow_zero] at h
    exact h
  rw [hrun]
  simp only [Option.some_bind]
  rw [show ((-2 ^ 31 : ℤ) / 2).toNat = 0 from by decide]
  rw [drBin_t_zero]
  simp only [Option.some_bind]
  norm_num

/-- `determine_range` at node `1` of the duplicate-code array: the normal
(unwrapped) path returns `(0, 1)`. -/
theorem big_dr1 : determine_range bigCodes 1 = some (0, 1) := by
  have h12 : common_prefix bigCodes 1 ((1 : ℤ) + 1) = 62 := by
    rw [show ((1 : ℤ) + 1) = 2 from by norm_num]
    exact cpB12
  have h10 : common_prefix bigCodes 1 ((1 : ℤ) - 1) = 63 := by
    rw [show ((1 : ℤ) - 1) = 0 from by norm_num]
    exact cpB10
  have hcnd : ¬( common_prefix bigCodes 1 ((1 : ℤ) + 1) -
      common_prefix bigCodes 1 ((1 : ℤ) - 1) > 0) := by
    rw [h12, h10]
    norm_num
  have hd : (-1 : ℤ) = if common_prefix bigCodes 1 ((1 : ℤ) + 1) -
      common_prefix bigCodes 1 ((1 : ℤ) - 1) > 0 then (1 : ℤ) else -1 := by
    rw [if_neg hcnd]
  have hdm : (62 : ℤ) = common_prefix bigCodes 1 ((1 : ℤ) - -1) := by
    rw [show ((1 : ℤ) - -1) = 2 from by norm_num, cpB12]
  rw [determine_range_eq bigCodes 1 (-1) 62 hd hdm]
  rw [show bigCodes.length + 2 = (2 ^ 30 + 2) + 1 from by rw [bigCodes_length]]
  have hstep1 : common_prefix bigCodes 1 ((1 : ℤ) + 1 * -1) > 62 := by
    rw [show ((1 : ℤ) + 1 * -1) = 0 from by ring, cpB10]
    norm_num
  rw [drExpo_succ, if_pos hstep1]
  rw [show wrap32 ((1 : ℤ) * 2) = 2 from by decide]
  rw [show (2 ^ 30 + 2 : ℕ) = (2 ^ 30 + 1) + 1 from rfl]
  have hstep2 : ¬ common_prefix bigCodes 1 ((1 : ℤ) + 2 * -1) > 62 := by
    rw [show ((1 : ℤ) + 2 * -1) = -1 from by ring,
      cp_out_of_range bigCodes 1 (-1) (Or.inl (by norm_num))]
    omega
  rw [drExpo_succ, if_neg hstep2]
  simp only [Option.some_bind]
  rw [show ((2 : ℤ) / 2).toNat = 1 from by decide]
  have hbin : drBin bigCodes 1 (-1) 62 (1 + 1) 0 1 = some 1 := by
    rw [show (1 : ℕ) = 0 + 1 from rfl]
    have hc : common_prefix bigCodes 1
        ((1 : ℤ) + ((0 : ℤ) + (((0 : ℕ) : ℤ) + 1)) * -1) > 62 := by
      rw [show ((1 : ℤ) + ((0 : ℤ) + (((0 : ℕ) : ℤ) + 1)) * -1) = 0 from by
        omega, cpB10]
      norm_num
    rw [drBin_succ bigCodes 1 (-1) 62 (0 + 1) 0 0, if_pos hc]
    rw [show ((0 + 1) / 2 : ℕ) = 0 from rfl, drBin_t_zero]
    norm_num
  rw [hbin]
  simp only [Option.some_bind]
  norm_num

/-- `find_split` on the degenerate range `(0, 0)`. -/
theorem big_fs0 : find_split bigCodes 0 0 = some 0 := by
  unfold find_split
  rw [show ((0 : ℤ) - 0).toNat = 0 from by decide]
  rw [fsLoop_succ]
  rw [if_pos (by norm_num)]
  rw [if_neg (by
    intro hcc
    have := hcc.1
    norm_num at this)]

/-- `find_split` on the range `(0, 1)`. -/
theorem big_fs1 : find_split bigCodes 0 1 = some 0 := by
  unfold find_split
  rw [show ((1 : ℤ) - 0).toNat = 1 from by decide]
  rw [fsLoop_succ]
  rw [if_pos (by norm_num)]
  rw [if_neg (by
    intro hcc
    have := hcc.1
    norm_num at this)]

/-- Node `0`'s children under the wrapped range: leaf `0` and internal `1`. -/
theorem big_nc0 : nodeChildren bigCodes 0 =
    some (TempChild.leaf 0, TempChild.internal 1) := by
  unfold nodeChildren
  simp only [Nat.cast_zero]
  rw [big_dr0]
  simp only [Option.some_bind]
  rw [big_fs0]
  simp only [Option.some_bind]
  rw [if_pos trivial, if_neg (show ¬((0 : ℤ) + 1 = 0) by norm_num)]
  rfl

/-- Node `1`'s children: leaves `0` and `1` — leaf `0` is used twice in the
tree. -/
theorem big_nc1 : nodeChildren bigCodes 1 =
    some (TempChild.leaf 0, TempChild.leaf 1) := by
  unfold nodeChildren
  simp only [Nat.cast_one]
  rw [big_dr1]
  simp only [Option.some_bind]
  rw [big_fs1]
  simp only [Option.some_bind]
  rw [if_pos trivial, if_pos (show (0 : ℤ) + 1 = 1 by norm_num)]
  rfl

set_option maxRecDepth 8192 in
/-- The topology arrays over the duplicate-code input: node `0` holds
leaf `0` and internal `1`; node `1` holds leaves `0` and `1`. -/
theorem big_topology : ∃ ints hp,
    buildTopology bigCodes (2 ^ 30 + 1) = some (ints, hp) ∧
    2 ≤ ints.length ∧ hp.get? 0 = some false ∧
    ints.get? 0 = some ⟨some (TempChild.leaf 0), some (TempChild.internal 1),
      -1, default⟩ ∧
    ints.get? 1 = some ⟨some (TempChild.leaf 0), some (TempChild.leaf 1),
      -1, default⟩ := by
  obtain ⟨ints, hp, hBT, hIlen, hp0, hdesc⟩ :=
    buildTopology_spec bigCodes goodCodes_big (2 ^ 30 + 1) bigCodes_length.symm
      (by norm_num)
  refine ⟨ints, hp, hBT, by rw [hIlen]; norm_num, hp0, ?_, ?_⟩
  · obtain ⟨lc, rc, hnc, hget⟩ := hdesc 0 (by norm_num)
    have hnc2 := big_nc0.symm.trans hnc
    have hpair := Option.some_inj.mp hnc2
    rw [Prod.mk.injEq] at hpair
    obtain ⟨hl, hr⟩ := hpair
    subst hl
    subst hr
    exact hget
  · obtain ⟨lc, rc, hnc, hget⟩ := hdesc 1 (by norm_num)
    have hnc2 := big_nc1.symm.trans hnc
    have hpair := Option.some_inj.mp hnc2
    rw [Prod.mk.injEq] at hpair
    obtain ⟨hl, hr⟩ := hpair
    subst hl
    subst hr
    exact hget

/-- Generic two-internal-node AABB pass. -/
theorem big_ci (leaves ints : List TempNode) (L0 L1 : TempNode) (fuel : ℕ)
    (hl0 : leaves.get? 0 = some L0)
    (hl1 : leaves.get? 1 = some L1)
    (h0 : ints.get? 0 = some ⟨some (TempChild.leaf 0), some (TempChild.internal 1),
      -1, default⟩)
    (h1 : ints.get? 1 = some ⟨some (TempChild.leaf 0), some (TempChild.leaf 1),
      -1, default⟩) :
    compute_internal leaves (fuel + 1 + 1) 0 ints = some
      (BvhAABB.merge L0.aabb (BvhAABB.merge L0.aabb L1.aabb),
       (ints.set 1 ⟨some (TempChild.leaf 0), some (TempChild.leaf 1), -1,
          BvhAABB.merge L0.aabb L1.aabb⟩).set 0
         ⟨some (TempChild.leaf 0), some (TempChild.internal 1), -1,
          BvhAABB.merge L0.aabb (BvhAABB.merge L0.aabb L1.aabb)⟩) := by
  have hinner : compute_internal leaves (fuel + 1) 1 ints = some
      (BvhAABB.merge L0.aabb L1.aabb,
       ints.set 1 ⟨some (TempChild.leaf 0), some (TempChild.leaf 1), -1,
         BvhAABB.merge L0.aabb L1.aabb⟩) := by
    rw [compute_internal_succ leaves fuel 1 ints, h1]
    simp only [Option.some_bind]
    show (leaves.get? 0).bind (fun ln => ciRight leaves fuel 1
        (TempChild.leaf 1) (ln.aabb, ints)) = _
    rw [hl0]
    simp only [Option.some_bind]
    show (leaves.get? 1).bind (fun rn => ciTail 1 L0.aabb (rn.aabb, ints)) = _
    rw [hl1]
    simp only [Option.some_bind]
    show (ints.get? 1).bind (fun cur => some
        (BvhAABB.merge L0.aabb L1.aabb,
         ints.set 1 { cur with aabb := BvhAABB.merge L0.aabb L1.aabb })) = _
    rw [h1]
    simp only [Option.some_bind]
  rw [compute_internal_succ leaves (fuel + 1) 0 ints, h0]
  simp only [Option.some_bind]
  show (leaves.get? 0).bind (fun ln => ciRight leaves (fuel + 1) 0
      (TempChild.internal 1) (ln.aabb, ints)) = _
  rw [hl0]
  simp only [Option.some_bind]
  show (compute_internal leaves (fuel + 1) 1 ints).bind (fun z =>
      ciTail 0 L0.aabb z) = _
  rw [hinner]
  simp only [Option.some_bind]
  show ((ints.set 1 ⟨some (TempChild.leaf 0), some (TempChild.leaf 1), -1,
      BvhAABB.merge L0.aabb L1.aabb⟩).get? 0).bind (fun cur => some
        (BvhAABB.merge L0.aabb (BvhAABB.merge L0.aabb L1.aabb),
         (ints.set 1 ⟨some (TempChild.leaf 0), some (TempChild.leaf 1), -1,
           BvhAABB.merge L0.aabb L1.aabb⟩).set 0
           { cur with aabb := BvhAABB.merge L0.aabb
                                  (BvhAABB.merge L0.aabb L1.aabb) })) = _
  rw [list_get?_set_ne ints 1 0 _ (by omega), h0]
  simp only [Option.some_bind]

/-- Generic arena flattening of the two-internal-node tree: five nodes,
leaf `0` twice. -/
theorem big_ban (ints2 leaves : List TempNode) (L0 L1 : TempNode) (M0 M1 : BvhAABB)
    (fuel : ℕ)
    (hl0 : leaves.get? 0 = some L0)
    (hl1 : leaves.get? 1 = some L1)
    (g0 : ints2.get? 0 = some ⟨some (TempChild.leaf 0), some (TempChild.internal 1),
      -1, M0⟩)
    (g1 : ints2.get? 1 = some ⟨some (TempChild.leaf 0), some (TempChild.leaf 1),
      -1, M1⟩) :
    build_arena_node ints2 leaves (fuel + 1 + 1 + 1) (TempChild.internal 0) [] =
      some (0, [⟨1, 2, -1, M0⟩, ⟨-1, -1, L0.object_id, L0.aabb⟩, ⟨3, 4, -1, M1⟩,
        ⟨-1, -1, L0.object_id, L0.aabb⟩, ⟨-1, -1, L1.object_id, L1.aabb⟩]) := by
  have hLeaf : ∀ (fl : ℕ) (li : ℕ) (L : TempNode), leaves.get? li = some L →
      ∀ (ar : List FlatNode), build_arena_node ints2 leaves (fl + 1)
        (TempChild.leaf li) ar = some ((ar.length : ℤ),
          ar ++ [⟨-1, -1, L.object_id, L.aabb⟩]) := by
    intro fl li L hL ar
    rw [ban_leaf_eq ints2 leaves fl li ar, hL]
    simp only [Option.some_bind]
  have hR : build_arena_node ints2 leaves (fuel + 1 + 1) (TempChild.internal 1)
      [⟨-1, -1, -1, M0⟩, ⟨-1, -1, L0.object_id, L0.aabb⟩] = some (2,
        [⟨-1, -1, -1, M0⟩, ⟨-1, -1, L0.object_id, L0.aabb⟩, ⟨3, 4, -1, M1⟩,
         ⟨-1, -1, L0.object_id, L0.aabb⟩, ⟨-1, -1, L1.object_id, L1.aabb⟩]) := by
    rw [ban_internal_eq ints2 leaves (fuel + 1) 1 _, g1]
    simp only [Option.some_bind]
    show (build_arena_node ints2 leaves (fuel + 1) (TempChild.leaf 0)
        [(⟨-1, -1, -1, M0⟩ : FlatNode), ⟨-1, -1, L0.object_id, L0.aabb⟩,
         ⟨-1, -1, -1, M1⟩]).bind (fun y =>
      (build_arena_node ints2 leaves (fuel + 1) (TempChild.leaf 1) y.2).bind fun z =>
      (z.2.get? 2).bind fun cur =>
      some ((2 : ℤ), z.2.set 2 { cur with left := y.1, right := z.1 })) = _
    rw [hLeaf fuel 0 L0 hl0 _]
    simp only [Option.some_bind]
    rw [hLeaf fuel 1 L1 hl1 _]
    simp only [Option.some_bind]
    rfl
  rw [ban_internal_eq ints2 leaves (fuel + 1 + 1) 0 [], g0]
  simp only [Option.some_bind]
  show (build_arena_node ints2 leaves (fuel + 1 + 1) (TempChild.leaf 0)
      [(⟨-1, -1, -1, M0⟩ : FlatNode)]).bind (fun y =>
    (build_arena_node ints2 leaves (fuel + 1 + 1) (TempChild.internal 1) y.2).bind fun z =>
    (z.2.get? 0).bind fun cur =>
    some ((0 : ℤ), z.2.set 0 { cur with left := y.1, right := z.1 })) = _
  rw [hLeaf (fuel + 1) 0 L0 hl0 _]
  simp only [Option.some_bind]
  show (build_arena_node ints2 leaves (fuel + 1 + 1) (TempChild.internal 1)
      [(⟨-1, -1, -1, M0⟩ : FlatNode), ⟨-1, -1, L0.object_id, L0.aabb⟩]).bind (fun z =>
    (z.2.get? 0).bind fun cur =>
    some ((0 : ℤ), z.2.set 0 { cur with left := (1 : ℤ), right := z.1 })) = _
  rw [hR]
  simp only [Option.some_bind]
  rfl

/-- C4 counterexample: on `2^30 + 1` identical boxes the `i32` left shift in
`determine_range`'s exponential search wraps to `i32::MIN` at the root, the
root range degenerates to `(0, 0)`, and the build returns a 5-node arena
(not `2N - 1`) whose leaf entries repeat object id `0`. -/
theorem build_shift_wrap_C4 : ∃ bvh : BVH,
    BVH.build BVH.new bigBoxes = some bvh ∧
    bvh.arena.length = 5 ∧
    (bvh.arena.filter isLeafNode).map (fun nd => nd.object_id) = [0, 0, 1] := by
  obtain ⟨ints, hp, hBT, hIlen2, hp0, h0, h1⟩ := big_topology
  have hroot0 : findRootIdx hp = 0 := findRootIdx_zero hp hp0
  have hl0 := bigLeaves_get 0 (by norm_num)
  have hl1 := bigLeaves_get 1 (by norm_num)
  have hCI0 := big_ci bigLeaves ints
    ⟨none, none, ((0 : ℕ) : ℤ), BvhAABB.from_bbox wideBox⟩
    ⟨none, none, ((1 : ℕ) : ℤ), BvhAABB.from_bbox wideBox⟩
    (2 ^ 30) hl0 hl1 h0 h1
  have hCI2 : compute_internal bigLeaves (2 ^ 30 + 1 + 1) 0 ints = some
      (BvhAABB.merge (BvhAABB.from_bbox wideBox)
        (BvhAABB.merge (BvhAABB.from_bbox wideBox) (BvhAABB.from_bbox wideBox)),
       (ints.set 1 ⟨some (TempChild.leaf 0), some (TempChild.leaf 1), -1,
          BvhAABB.merge (BvhAABB.from_bbox wideBox) (BvhAABB.from_bbox wideBox)⟩).set 0
         ⟨some (TempChild.leaf 0), some (TempChild.internal 1), -1,
          BvhAABB.merge (BvhAABB.from_bbox wideBox)
            (BvhAABB.merge (BvhAABB.from_bbox wideBox)
              (BvhAABB.from_bbox wideBox))⟩) := hCI0
  have g0 : ((ints.set 1 ⟨some (TempChild.leaf 0), some (TempChild.leaf 1), -1,
      BvhAABB.merge (BvhAABB.from_bbox wideBox) (BvhAABB.from_bbox wideBox)⟩).set 0
        ⟨some (TempChild.leaf 0), some (TempChild.internal 1), -1,
         BvhAABB.merge (BvhAABB.from_bbox wideBox)
           (BvhAABB.merge (BvhAABB.from_bbox wideBox)
             (BvhAABB.from_bbox wideBox))⟩).get? 0 = some
      ⟨some (TempChild.leaf 0), some (TempChild.internal 1), -1,
       BvhAABB.merge (BvhAABB.from_bbox wideBox)
         (BvhAABB.merge (BvhAABB.from_bbox wideBox) (BvhAABB.from_bbox wideBox))⟩ :=
    list_get?_set_self _ 0 _ (by rw [List.length_set]; omega)
  have g1 : ((ints.set 1 ⟨some (TempChild.leaf 0), some (TempChild.leaf 1), -1,
      BvhAABB.merge (BvhAABB.from_bbox wideBox) (BvhAABB.from_bbox wideBox)⟩).set 0
        ⟨some (TempChild.leaf 0), some (TempChild.internal 1), -1,
         BvhAABB.merge (BvhAABB.from_bbox wideBox)
           (BvhAABB.merge (BvhAABB.from_bbox wideBox)
             (BvhAABB.from_bbox wideBox))⟩).get? 1 = some
      ⟨some (TempChild.leaf 0), some (TempChild.leaf 1), -1,
       BvhAABB.merge (BvhAABB.from_bbox wideBox) (BvhAABB.from_bbox wideBox)⟩ := by
    rw [list_get?_set_ne _ 0 1 _ (by omega),
      list_get?_set_self _ 1 _ (by omega)]
  have hBAN0 := big_ban ((ints.set 1 ⟨some (TempChild.leaf 0), some (TempChild.leaf 1),
      -1, BvhAABB.merge (BvhAABB.from_bbox wideBox) (BvhAABB.from_bbox wideBox)⟩).set 0
        ⟨some (TempChild.leaf 0), some (TempChild.internal 1), -1,
         BvhAABB.merge (BvhAABB.from_bbox wideBox)
           (BvhAABB.merge (BvhAABB.from_bbox wideBox)
             (BvhAABB.from_bbox wideBox))⟩) bigLeaves
    ⟨none, none, ((0 : ℕ) : ℤ), BvhAABB.from_bbox wideBox⟩
    ⟨none, none, ((1 : ℕ) : ℤ), BvhAABB.from_bbox wideBox⟩
    (BvhAABB.merge (BvhAABB.from_bbox wideBox)
      (BvhAABB.merge (BvhAABB.from_bbox wideBox) (BvhAABB.from_bbox wideBox)))
    (BvhAABB.merge (BvhAABB.from_bbox wideBox) (BvhAABB.from_bbox wideBox))
    (2 ^ 30 - 1) hl0 hl1 g0 g1
  have hBAN : build_arena_node ((ints.set 1 ⟨some (TempChild.leaf 0),
      some (TempChild.leaf 1), -1, BvhAABB.merge (BvhAABB.from_bbox wideBox)
        (BvhAABB.from_bbox wideBox)⟩).set 0
        ⟨some (TempChild.leaf 0), some (TempChild.internal 1), -1,
         BvhAABB.merge (BvhAABB.from_bbox wideBox)
           (BvhAABB.merge (BvhAABB.from_bbox wideBox)
             (BvhAABB.from_bbox wideBox))⟩) bigLeaves (2 ^ 30 + 1 + 1)
      (TempChild.internal 0) [] = some (0,
      [⟨1, 2, -1, BvhAABB.merge (BvhAABB.from_bbox wideBox)
          (BvhAABB.merge (BvhAABB.from_bbox wideBox) (BvhAABB.from_bbox wideBox))⟩,
       ⟨-1, -1, ((0 : ℕ) : ℤ), BvhAABB.from_bbox wideBox⟩,
       ⟨3, 4, -1, BvhAABB.merge (BvhAABB.from_bbox wideBox) (BvhAABB.from_bbox wideBox)⟩,
       ⟨-1, -1, ((0 : ℕ) : ℤ), BvhAABB.from_bbox wideBox⟩,
       ⟨-1, -1, ((1 : ℕ) : ℤ), BvhAABB.from_bbox wideBox⟩]) := hBAN0
  have hne : ¬ (bigBoxes.isEmpty = true) := by
    rw [show bigBoxes = List.replicate (2 ^ 30 + 1) wideBox from rfl,
      List.replicate_succ, List.isEmpty_cons]
    decide
  have hOlen : (buildObjects bigBoxes 1000).length = 2 ^ 30 + 1 := by
    rw [buildObjects_length, bigBoxes_length]
  have hbuild : BVH.build BVH.new bigBoxes = some { BVH.new with
      arena := [⟨1, 2, -1, BvhAABB.merge (BvhAABB.from_bbox wideBox)
          (BvhAABB.merge (BvhAABB.from_bbox wideBox) (BvhAABB.from_bbox wideBox))⟩,
        ⟨-1, -1, ((0 : ℕ) : ℤ), BvhAABB.from_bbox wideBox⟩,
        ⟨3, 4, -1, BvhAABB.merge (BvhAABB.from_bbox wideBox) (BvhAABB.from_bbox wideBox)⟩,
        ⟨-1, -1, ((0 : ℕ) : ℤ), BvhAABB.from_bbox wideBox⟩,
        ⟨-1, -1, ((1 : ℕ) : ℤ), BvhAABB.from_bbox wideBox⟩],
      arena_root := 0, root := none } := by
    unfold BVH.build
    rw [if_neg hne]
    dsimp only
    rw [show BVH.new.world_size = 1000 from rfl]
    rw [bigSort_eq]
    rw [if_neg (show ¬((buildObjects bigBoxes 1000).length = 1) by
      rw [hOlen]; norm_num)]
    rw [bigCodes_eq, bigLeaves_eq, hOlen, hBT]
    simp only [Option.bind_eq_bind, Option.some_bind]
    rw [hroot0, hCI2]
    simp only [Option.bind_eq_bind, Option.some_bind]
    rw [hBAN]
    simp only [Option.bind_eq_bind, Option.some_bind]
    rfl
  exact ⟨_, hbuild, rfl, rfl⟩

/-- C4 (corrected): after `build` on `N ≤ 2^30` boxes — `N = 0` leaves an
empty arena with root `-1`; `N = 1` a single leaf with root `0`; `N ≥ 2`
exactly `2N-1` nodes, `N` of them leaves and `N-1` internal, the leaf
object ids being a permutation of `0..N-1`.  The `2^30` bound is what the
`i32` doubling in `determine_range` supports; see `build_shift_wrap_C4`
for the wrap at `N = 2^30 + 1`. -/
theorem build_size_C4 (self : BVH) (bbs : List BoundingBox) (hlen : bbs.length ≤ 2 ^ 30) :
    ∃ bvh : BVH, BVH.build self bbs = some bvh ∧
      (bbs.length = 0 → bvh.arena = [] ∧ bvh.arena_root = -1) ∧
      (bbs.length = 1 → bvh.arena_root = 0 ∧ ∃ nd, bvh.arena = [nd] ∧
        nd.object_id = 0 ∧ nd.left = -1 ∧ nd.right = -1) ∧
      (2 ≤ bbs.length → bvh.arena.length = 2 * bbs.length - 1 ∧
        (bvh.arena.filter isLeafNode).length = bbs.length ∧
        (bvh.arena.filter (fun nd => ! isLeafNode nd)).length = bbs.length - 1 ∧
        List.Perm ((bvh.arena.filter isLeafNode).map (fun nd => nd.object_id))
          ((List.range bbs.length).map (fun k : ℕ => (k : ℤ)))) := by
  by_cases h0 : bbs.length = 0
  · obtain rfl : bbs = [] := List.length_eq_zero.mp h0
    refine ⟨{ self with root := none, arena := [], arena_root := -1 }, rfl,
      fun _ => ⟨rfl, rfl⟩, ?_, ?_⟩
    · intro hc; simp at hc
    · intro hc; simp at hc
  by_cases h1 : bbs.length = 1
  · obtain ⟨b, rfl⟩ := List.length_eq_one.mp h1
    refine ⟨_, build_single self b, ?_, ?_, ?_⟩
    · intro hc; simp at hc
    · intro _
      exact ⟨rfl, ⟨{ left := -1, right := -1, object_id := ((0 : ℕ) : ℤ),
                     aabb := BvhAABB.from_bbox b }, rfl, rfl, rfl, rfl⟩⟩
    · intro hc; simp at hc
  · have hn2 : 2 ≤ bbs.length := by omega
    obtain ⟨blk, hbuild, hblen, hbids⟩ := build_ge2 self bbs hlen hn2
    refine ⟨_, hbuild, ?_, ?_, ?_⟩
    · intro hc; omega
    · intro hc; omega
    · intro _
      have hflen : (blk.filter isLeafNode).length = bbs.length := by
        have hc := congrArg List.length hbids
        rw [List.length_map, List.length_map, (radixSort_perm _).length_eq,
          buildObjects_length] at hc
        exact hc
      refine ⟨hblen, hflen, ?_, ?_⟩
      · have hsplit : blk.length = (blk.filter isLeafNode).length +
            (blk.filter (fun nd => ! isLeafNode nd)).length :=
          List.length_eq_length_filter_add _
        show (blk.filter (fun nd => ! isLeafNode nd)).length = bbs.length - 1
        omega
      · show List.Perm ((blk.filter isLeafNode).map (fun nd => nd.object_id))
          ((List.range bbs.length).map (fun k : ℕ => (k : ℤ)))
        rw [hbids]
        have hp1 : List.Perm (radixSort (buildObjects bbs self.world_size))
            (buildObjects bbs self.world_size) := radixSort_perm _
        have hp2 := hp1.map (fun o => (o.id : ℤ))
        refine hp2.trans ?_
        rw [show (fun o : ObjectInfo => (o.id : ℤ)) =
          (fun k : ℕ => (k : ℤ)) ∘ (fun o : ObjectInfo => o.id) from rfl,
          ← List.map_map, buildObjects_map_id]

theorem build_size_C4_witness :
    ∃ bvh : BVH, BVH.build BVH.new exBoxes = some bvh ∧
      (exBoxes.length = 0 → bvh.arena = [] ∧ bvh.arena_root = -1) ∧
      (exBoxes.length = 1 → bvh.arena_root = 0 ∧ ∃ nd, bvh.arena = [nd] ∧
        nd.object_id = 0 ∧ nd.left = -1 ∧ nd.right = -1) ∧
      (2 ≤ exBoxes.length → bvh.arena.length = 2 * exBoxes.length - 1 ∧
        (bvh.arena.filter isLeafNode).length = exBoxes.length ∧
        (bvh.arena.filter (fun nd => ! isLeafNode nd)).length = exBoxes.length - 1 ∧
        List.Perm ((bvh.arena.filter isLeafNode).map (fun nd => nd.object_id))
          ((List.range exBoxes.length).map (fun k : ℕ => (k : ℤ)))) :=
  build_size_C4 BVH.new exBoxes (by decide)

end SessionRust
